import Mathlib

/-!
# testdoc: a shallow embedding of the parsing, aggregation and filtering core

Sources embedded here:

* `pkg/types/types.go`   : the data model, `TestType.IsValid`, `DefaultConfig` and
  `ParseResult.CalculateStats`
* `testdoc.go`           : `Filter.ByType`, `Filter.ByTags`, `Filter.ByAuthor`,
  `Filter.hasAnyTag`, `GetSupportedTestTypes`, `IsValidTestType`,
  `Statistics.GetMostCommonTestType`, `Statistics.CalculateTestCoverage`, `ValidateConfig`
* `pkg/parser/parser.go` : `Parser.parseDocComments`, `Parser.parseAnnotation`,
  `Parser.isTestFile`, `Parser.shouldExcludeFile`, `Parser.ParseDirectory`,
  `Parser.parseTestFunction`, `Parser.analyzeTestBody`, `Parser.ParseFile`,
  `Parser.isTestFunction`

Modelling conventions.

* A Go `string` is a list of Unicode code points (`Str`); the source only ever handles
  text that came out of the Go scanner, which is valid UTF-8.
* A Go `map[string]V` is an association list `GoMap V`.  A well-formed map has pairwise
  distinct keys (`GoMap.WF`).  `range` visits the entries in list order; a theorem about
  "every map" quantifies over every such list, hence over every visiting order of the
  input.  For a map built by the code itself the visiting order is the insertion order;
  `CalculateStats_order_irrelevant` and `ByTags_fixed_any_order` show that the results
  stated below do not depend on that choice.
* A pointer to a struct is the struct itself (the maps hold no nil pointer), a slice is a
  list, `int` is `Int` (the counters below count list elements and cannot reach `2^63`).
* The `Metadata` map of a record is allocated, as `parseTestFunction` allocates it before
  any annotation is interpreted.
* `time.Time` values produced by the layout `2006-01-02` are UTC midnights and are
  kept as a calendar date; the zero `time.Time` is January 1 of year 1.
* In `parseDocComments` a "line" is the text of one comment of the group, as the loop
  over `docGroup.List` takes it: one source line for a `//` comment, the whole comment
  with the line breaks it holds for a `/* */` comment.  The source lines of a block
  comment are therefore not interpreted one by one.
* The library functions `filepath.Base`, `filepath.Dir` and `filepath.Match` are the
  fields of a parameter `PathLib`, and `strconv.Unquote` is a parameter `unquote`; the
  theorems hold for every choice of them.
* A directory walk is the list of the calls `filepath.Walk` makes to its callback
  (`WalkEntry`): the path, whether the `err` argument is non-nil, and what `ParseFile`
  returns for that path.  An error result is `none`.
* A syntax tree is a `Node`; `ast.Inspect` visits a node before its children, and the
  children in order.
* The result of `go/parser.ParseFile` is an input of `ParseFile`: `none` when the file
  does not parse, otherwise the package name and the top-level declarations (`File`).
* `filepathBase` and `filepathMatch` follow `path/filepath` with the separator `/`.
  `filepathMatch` covers the patterns made of literal characters and `*` only (no `?`,
  `[` or backslash), which is all the default configuration uses.
* `ValidateConfig` reads and writes a field `Language` that the struct `Config` of
  `pkg/types/types.go` does not declare; `ConfigWithLanguage` carries it beside the
  declared fields.
* To state what the filters leave untouched, `ByTypeH`, `ByTagsH` and `ByAuthorH` run the
  filters on a `Heap` in which the `ParseResult` structs, the maps and the `PackageInfo`
  structs are objects with addresses; `ByType`, `ByTags` and `ByAuthor` are the same
  filters on the models the pointers stand for.
* A `float64` is an `F64`: sign, mantissa and exponent of a finite value, an infinity or
  NaN.  Conversion, quotient and product round to nearest, ties to even, as IEEE 754
  binary64 does; the arithmetic is exact on the integers and rationals behind it.
-/

namespace Testdoc

/-! ## Strings and maps -/

/-- A Go string, as its sequence of code points. -/
abbrev Str := List Char

/-- A Go `map[string]V`, as an association list. -/
abbrev GoMap (V : Type) := List (Str × V)

namespace GoMap

variable {V : Type}

/-- The keys of the map, in visiting order. -/
def keys (m : GoMap V) : List Str := m.map Prod.fst

/-- Well-formedness of a map: no key occurs twice. -/
def WF (m : GoMap V) : Prop := (keys m).Nodup

instance (m : GoMap V) : Decidable (WF m) := inferInstanceAs (Decidable (keys m).Nodup)

/-- The lookup `v, ok := m[k]`. -/
def get? : GoMap V → Str → Option V
  | [], _ => none
  | (k', v) :: rest, k => if k' = k then some v else get? rest k

/-- The assignment `m[k] = v`: overwrites the entry of `k`, or adds one. -/
def set : GoMap V → Str → V → GoMap V
  | [], k, v => [(k, v)]
  | (k', v') :: rest, k, v => if k' = k then (k, v) :: rest else (k', v') :: set rest k v

/-- The values of the map, in visiting order. -/
def values (m : GoMap V) : List V := m.map Prod.snd

end GoMap

/-! ## `pkg/types/types.go` -/

/-- The type `TestType` is a named string type. -/
abbrev TestType := Str

/-- The struct `Step`. -/
structure Step where
  Action : Str
  Description : Str
  Expected : Str
deriving DecidableEq, Repr

/-- The struct `TestCase`. -/
structure TestCase where
  Name : Str
  Description : Str
  Input : Str
  Expected : Str
  Steps : List Step
deriving DecidableEq, Repr

/-- A `time.Time` holding a calendar date at midnight UTC. -/
structure Time where
  year : Nat
  month : Nat
  day : Nat
deriving DecidableEq, Repr

/-- The zero value `time.Time{}`: January 1, year 1. -/
def Time.zero : Time := ⟨1, 1, 1⟩

/-- The struct `TestInfo`.  The field `Type` is spelled `Type_`, `Type` being reserved. -/
structure TestInfo where
  Name : Str
  Type_ : TestType
  Description : Str
  TestCases : List TestCase
  Skipped : Bool
  SkipReason : Str
  Package : Str
  File : Str
  Line : Int
  Tags : List Str
  Author : Str
  Created : Time
  Updated : Time
  Metadata : GoMap Str
deriving DecidableEq, Repr

/-- The struct `PackageInfo`.  `Coverage` is a `float64`; it is only ever copied or left at
its zero value, so it is kept as its 64-bit pattern (`0` is `+0.0`). -/
structure PackageInfo where
  Name : Str
  Path : Str
  Description : Str
  Tests : List TestInfo
  Coverage : Nat
  TestTypes : List TestType
deriving DecidableEq, Repr

/-- The struct `Statistics`. -/
structure Statistics where
  TotalTests : Int
  ActiveTests : Int
  SkippedTests : Int
  PackageCount : Int
  TypeDistribution : GoMap Int
deriving DecidableEq, Repr

/-- The struct `ParseResult`. -/
structure ParseResult where
  Packages : GoMap PackageInfo
  Stats : Statistics
deriving DecidableEq, Repr

/-- The statement `m[k]++` on a `map[TestType]int`: a missing key reads as `0`. -/
def incr (m : GoMap Int) (k : TestType) : GoMap Int :=
  m.set k ((m.get? k).getD 0 + 1)

/-- The body of the inner loop of `CalculateStats`, for one `test`. -/
def statsTest (stats : Statistics) (test : TestInfo) : Statistics :=
  let stats := { stats with TotalTests := stats.TotalTests + 1 }
  let stats :=
    if test.Skipped then { stats with SkippedTests := stats.SkippedTests + 1 }
    else { stats with ActiveTests := stats.ActiveTests + 1 }
  { stats with TypeDistribution := incr stats.TypeDistribution test.Type_ }

/-- The body of the outer loop of `CalculateStats`, for one package. -/
def statsPackage (stats : Statistics) (pkg : PackageInfo) : Statistics :=
  let stats := { stats with PackageCount := stats.PackageCount + 1 }
  pkg.Tests.foldl statsTest stats

/-- The statistics `CalculateStats` starts from: all counters `0`, an empty distribution. -/
def emptyStats : Statistics :=
  { TotalTests := 0, ActiveTests := 0, SkippedTests := 0, PackageCount := 0,
    TypeDistribution := [] }

/-- The method `(*ParseResult).CalculateStats`. -/
def CalculateStats (pr : ParseResult) : ParseResult :=
  let stats := pr.Packages.values.foldl statsPackage emptyStats
  { pr with Stats := stats }

/-- The sum of all values of a distribution. -/
def distSum (m : GoMap Int) : Int := m.values.sum

/-! ## `testdoc.go`: the filter engine -/

/-- The zero value of `Statistics`, as left in a freshly built `ParseResult`. -/
def Statistics.zero : Statistics :=
  { TotalTests := 0, ActiveTests := 0, SkippedTests := 0, PackageCount := 0,
    TypeDistribution := [] }

/-- The literal `&types.PackageInfo{Name: pkg.Name, Path: pkg.Path, Description:
pkg.Description, Tests: []types.TestInfo{}, TestTypes: []types.TestType{}}` built at the top
of each filter loop; `Coverage` is not named and takes its zero value. -/
def newFilteredPkg (pkg : PackageInfo) : PackageInfo :=
  { Name := pkg.Name, Path := pkg.Path, Description := pkg.Description,
    Tests := [], Coverage := 0, TestTypes := [] }

/-- The search loop `found := false; for _, t := range types { if t == typ { found = true;
break } }`. -/
def foundType : List TestType → TestType → Bool
  | [], _ => false
  | t :: rest, typ => if t = typ then true else foundType rest typ

/-- One kept record in `ByTags` and `ByAuthor`: the record is appended to `Tests`, and its
type to `TestTypes` unless already there. -/
def keepTest (filteredPkg : PackageInfo) (test : TestInfo) : PackageInfo :=
  let filteredPkg := { filteredPkg with Tests := filteredPkg.Tests ++ [test] }
  if foundType filteredPkg.TestTypes test.Type_ then filteredPkg
  else { filteredPkg with TestTypes := filteredPkg.TestTypes ++ [test.Type_] }

/-- The inner loop body of `ByType`. -/
def byTypeTest (testType : TestType) (filteredPkg : PackageInfo) (test : TestInfo) :
    PackageInfo :=
  if test.Type_ = testType then { filteredPkg with Tests := filteredPkg.Tests ++ [test] }
  else filteredPkg

/-- The outer loop body of `ByType`, for the entry `pkgName, pkg`. -/
def byTypePackage (testType : TestType) (filtered : GoMap PackageInfo)
    (entry : Str × PackageInfo) : GoMap PackageInfo :=
  let filteredPkg := entry.2.Tests.foldl (byTypeTest testType) (newFilteredPkg entry.2)
  if filteredPkg.Tests.length > 0 then
    filtered.set entry.1 { filteredPkg with TestTypes := filteredPkg.TestTypes ++ [testType] }
  else filtered

/-- The method `(*Filter).ByType`. -/
def ByType (result : ParseResult) (testType : TestType) : ParseResult :=
  CalculateStats
    { Packages := result.Packages.foldl (byTypePackage testType) [], Stats := Statistics.zero }

/-- The method `(*Filter).hasAnyTag`. -/
def hasAnyTag (testTags filterTags : List Str) : Bool :=
  filterTags.any (fun filterTag => testTags.any (fun testTag => decide (testTag = filterTag)))

/-- The inner loop body of `ByTags`. -/
def byTagsTest (tags : List Str) (filteredPkg : PackageInfo) (test : TestInfo) : PackageInfo :=
  if hasAnyTag test.Tags tags then keepTest filteredPkg test else filteredPkg

/-- The outer loop body of `ByTags`, for the entry `pkgName, pkg`. -/
def byTagsPackage (tags : List Str) (filtered : GoMap PackageInfo)
    (entry : Str × PackageInfo) : GoMap PackageInfo :=
  let filteredPkg := entry.2.Tests.foldl (byTagsTest tags) (newFilteredPkg entry.2)
  if filteredPkg.Tests.length > 0 then filtered.set entry.1 filteredPkg else filtered

/-- The method `(*Filter).ByTags`. -/
def ByTags (result : ParseResult) (tags : List Str) : ParseResult :=
  CalculateStats
    { Packages := result.Packages.foldl (byTagsPackage tags) [], Stats := Statistics.zero }

/-- The inner loop body of `ByAuthor`. -/
def byAuthorTest (author : Str) (filteredPkg : PackageInfo) (test : TestInfo) : PackageInfo :=
  if test.Author = author then keepTest filteredPkg test else filteredPkg

/-- The outer loop body of `ByAuthor`, for the entry `pkgName, pkg`. -/
def byAuthorPackage (author : Str) (filtered : GoMap PackageInfo)
    (entry : Str × PackageInfo) : GoMap PackageInfo :=
  let filteredPkg := entry.2.Tests.foldl (byAuthorTest author) (newFilteredPkg entry.2)
  if filteredPkg.Tests.length > 0 then filtered.set entry.1 filteredPkg else filtered

/-- The method `(*Filter).ByAuthor`. -/
def ByAuthor (result : ParseResult) (author : Str) : ParseResult :=
  CalculateStats
    { Packages := result.Packages.foldl (byAuthorPackage author) [], Stats := Statistics.zero }

/-! ## Go string functions used by the parser -/

/-- The predicate `unicode.IsSpace`. -/
def isSpace (c : Char) : Bool :=
  let n := c.toNat
  n == 0x09 || n == 0x0A || n == 0x0B || n == 0x0C || n == 0x0D || n == 0x20
    || n == 0x85 || n == 0xA0 || n == 0x1680 || (0x2000 ≤ n && n ≤ 0x200A)
    || n == 0x2028 || n == 0x2029 || n == 0x202F || n == 0x205F || n == 0x3000

/-- The function `strings.TrimSpace`. -/
def TrimSpace (s : Str) : Str := (s.dropWhile isSpace).rdropWhile isSpace

/-- The function `strings.HasPrefix`. -/
def HasPrefix (s pre : Str) : Bool := pre.isPrefixOf s

/-- The function `strings.HasSuffix`. -/
def HasSuffix (s suf : Str) : Bool := suf.isSuffixOf s

/-- The function `strings.TrimPrefix`. -/
def TrimPrefix (s pre : Str) : Str := if HasPrefix s pre then s.drop pre.length else s

/-- The function `strings.TrimSuffix`. -/
def TrimSuffix (s suf : Str) : Str :=
  if HasSuffix s suf then s.take (s.length - suf.length) else s

/-- The function `strings.Contains(s, string(c))` for a one-character substring. -/
def Contains (s : Str) (c : Char) : Bool := s.elem c

/-- The function `strings.Split(s, string(c))` for a one-character separator: the pieces
between the separators; the empty string gives one empty piece. -/
def Split (c : Char) : Str → List Str
  | [] => [[]]
  | x :: xs =>
    if x = c then [] :: Split c xs
    else
      match Split c xs with
      | [] => [[x]]
      | piece :: pieces => (x :: piece) :: pieces

/-- Cutting a string at the first occurrence of `c`, if there is one. -/
def cut (c : Char) : Str → Option (Str × Str)
  | [] => none
  | x :: xs =>
    if x = c then some ([], xs)
    else
      match cut c xs with
      | none => none
      | some (before, after) => some (x :: before, after)

/-- The function `strings.SplitN(s, string(c), 2)` for a one-character separator: the text
before and after the first separator, or the string alone when it has none. -/
def SplitN2 (c : Char) (s : Str) : List Str :=
  match cut c s with
  | none => [s]
  | some (before, after) => [before, after]

/-- The test `'0' <= c && c <= '9'`. -/
def isDigit (c : Char) : Bool := 48 ≤ c.toNat && c.toNat ≤ 57

/-- The value `int(c - '0')` of a digit. -/
def digitVal (c : Char) : Nat := c.toNat - 48

/-- The leap-year test of package `time`. -/
def isLeap (year : Nat) : Bool := year % 4 == 0 && (year % 100 != 0 || year % 400 == 0)

/-- The function `daysIn` of package `time`. -/
def daysIn (month year : Nat) : Nat :=
  if month == 2 then (if isLeap year then 29 else 28)
  else if month == 4 || month == 6 || month == 9 || month == 11 then 30
  else 31

/-- The call `time.Parse("2006-01-02", value)`: four digits, a hyphen, two digits, a hyphen,
two digits and nothing else; the month in 1..12 and the day within the month.  An error is
`none`. -/
def timeParse (value : Str) : Option Time :=
  match value with
  | [y1, y2, y3, y4, s1, m1, m2, s2, d1, d2] =>
    if isDigit y1 && isDigit y2 && isDigit y3 && isDigit y4 && s1 == '-'
        && isDigit m1 && isDigit m2 && s2 == '-' && isDigit d1 && isDigit d2 then
      let year := digitVal y1 * 1000 + digitVal y2 * 100 + digitVal y3 * 10 + digitVal y4
      let month := digitVal m1 * 10 + digitVal m2
      let day := digitVal d1 * 10 + digitVal d2
      if 1 ≤ month && month ≤ 12 && 1 ≤ day && day ≤ daysIn month year then
        some ⟨year, month, day⟩
      else none
    else none
  | _ => none

/-! ## `pkg/parser/parser.go`: the annotation interpreter -/

/-- The `@testcase:` branch builds `types.TestCase{Name: ...}` and sets `Description` when
the split gave two parts. -/
def mkTestCase (caseStr : Str) : TestCase :=
  let parts := SplitN2 '-' caseStr
  let testCase : TestCase :=
    { Name := TrimSpace (parts.headD []), Description := [], Input := [], Expected := [],
      Steps := [] }
  if parts.length > 1 then { testCase with Description := TrimSpace (parts.getD 1 []) }
  else testCase

/-- The `@step:` branch builds `types.Step{Action: ...}` and sets `Expected` when the split
gave two parts. -/
def mkStep (stepStr : Str) : Step :=
  let parts := SplitN2 '-' stepStr
  let step : Step := { Action := TrimSpace (parts.headD []), Description := [], Expected := [] }
  if parts.length > 1 then { step with Expected := TrimSpace (parts.getD 1 []) }
  else step

/-- The statement `cases[len(cases)-1].Steps = append(cases[len(cases)-1].Steps, step)`,
guarded by `len(cases) > 0`. -/
def appendStep : List TestCase → Step → List TestCase
  | [], _ => []
  | [last], step => [{ last with Steps := last.Steps ++ [step] }]
  | c :: c' :: rest, step => c :: appendStep (c' :: rest) step

/-- The method `(*Parser).parseAnnotation`. -/
def parseAnnotation (line : Str) (testInfo : TestInfo) : TestInfo :=
  if HasPrefix line "@type:".toList then
    { testInfo with Type_ := TrimSpace (TrimPrefix line "@type:".toList) }
  else if HasPrefix line "@author:".toList then
    { testInfo with Author := TrimSpace (TrimPrefix line "@author:".toList) }
  else if HasPrefix line "@tags:".toList then
    let tagsStr := TrimSpace (TrimPrefix line "@tags:".toList)
    let tags := Split ',' tagsStr
    tags.foldl (fun (ti : TestInfo) tag => { ti with Tags := ti.Tags ++ [TrimSpace tag] })
      testInfo
  else if HasPrefix line "@testcase:".toList then
    let caseStr := TrimSpace (TrimPrefix line "@testcase:".toList)
    { testInfo with TestCases := testInfo.TestCases ++ [mkTestCase caseStr] }
  else if HasPrefix line "@step:".toList then
    let stepStr := TrimSpace (TrimPrefix line "@step:".toList)
    let step := mkStep stepStr
    if testInfo.TestCases.length > 0 then
      { testInfo with TestCases := appendStep testInfo.TestCases step }
    else testInfo
  else if HasPrefix line "@created:".toList then
    let dateStr := TrimSpace (TrimPrefix line "@created:".toList)
    match timeParse dateStr with
    | some date => { testInfo with Created := date }
    | none => testInfo
  else if HasPrefix line "@updated:".toList then
    let dateStr := TrimSpace (TrimPrefix line "@updated:".toList)
    match timeParse dateStr with
    | some date => { testInfo with Updated := date }
    | none => testInfo
  else if Contains line ':' then
    let parts := SplitN2 ':' line
    let key := TrimSpace (TrimPrefix (parts.headD []) "@".toList)
    let value := TrimSpace (parts.getD 1 [])
    { testInfo with Metadata := testInfo.Metadata.set key value }
  else testInfo

/-- The text of one comment with its markers and surrounding white space removed, as
computed at the top of the loop of `parseDocComments`. -/
def cleanLine (text : Str) : Str :=
  let line := TrimPrefix text "//".toList
  let line := TrimPrefix line "/*".toList
  let line := TrimSuffix line "*/".toList
  TrimSpace line

/-- The loop body of `parseDocComments`; the state is `fullComment` and the record. -/
def docStep (state : Str × TestInfo) (text : Str) : Str × TestInfo :=
  let line := cleanLine text
  if line = [] then state
  else if HasPrefix line "@".toList then (state.1, parseAnnotation line state.2)
  else
    let fullComment := if state.1 ≠ [] then state.1 ++ " ".toList else state.1
    (fullComment ++ line, state.2)

/-- The method `(*Parser).parseDocComments`; `docGroup` lists the `Text` of each comment of
the group. -/
def parseDocComments (docGroup : List Str) (testInfo : TestInfo) : TestInfo :=
  let state := docGroup.foldl docStep ([], testInfo)
  { state.2 with Description := state.1 }

/-- The record literal of `parseTestFunction`: name, file, line and package set, `Tags` and
`Metadata` allocated empty, every other field at its zero value. -/
def newTestInfo (name file : Str) (line : Int) (pkg : Str) : TestInfo :=
  { Name := name, Type_ := [], Description := [], TestCases := [], Skipped := false,
    SkipReason := [], Package := pkg, File := file, Line := line, Tags := [], Author := [],
    Created := Time.zero, Updated := Time.zero, Metadata := [] }

/-! ## Closed forms used to state and prove the properties of the filters -/

/-- One step of the `TestTypes` bookkeeping: append the type unless it is already there. -/
def addType (types : List TestType) (typ : TestType) : List TestType :=
  if foundType types typ then types else types ++ [typ]

/-- The package a filter builds from `pkg` when it keeps the records satisfying `keep` and
collects `TestTypes` with `keepTest`. -/
def selectPkg (keep : TestInfo → Bool) (pkg : PackageInfo) : PackageInfo :=
  { Name := pkg.Name, Path := pkg.Path, Description := pkg.Description,
    Tests := pkg.Tests.filter keep, Coverage := 0,
    TestTypes := ((pkg.Tests.filter keep).map (fun t => t.Type_)).foldl addType [] }

/-- The package `ByType` builds from `pkg`. -/
def selectPkgByType (testType : TestType) (pkg : PackageInfo) : PackageInfo :=
  { Name := pkg.Name, Path := pkg.Path, Description := pkg.Description,
    Tests := pkg.Tests.filter (fun t => decide (t.Type_ = testType)), Coverage := 0,
    TestTypes := [testType] }

/-- The outer loop body shared by the three filters, for a package transformer `f`. -/
def passEntry (f : PackageInfo → PackageInfo) (filtered : GoMap PackageInfo)
    (entry : Str × PackageInfo) : GoMap PackageInfo :=
  if (f entry.2).Tests.length > 0 then filtered.set entry.1 (f entry.2) else filtered

/-- The entry a filter stores for `entry`, if it stores one. -/
def selectEntry (f : PackageInfo → PackageInfo) (entry : Str × PackageInfo) :
    Option (Str × PackageInfo) :=
  if (f entry.2).Tests.length > 0 then some (entry.1, f entry.2) else none

/-- All records of a model, package after package. -/
def allTests : GoMap PackageInfo → List TestInfo
  | [] => []
  | (_, pkg) :: rest => pkg.Tests ++ allTests rest

/-- The records stored under the key `k`; none when the key is absent. -/
def testsUnder (m : GoMap PackageInfo) (k : Str) : List TestInfo :=
  match m.get? k with
  | none => []
  | some pkg => pkg.Tests

/-- The data of `TestFilter_ByType`: two packages, three records. -/
def exampleByType : ParseResult :=
  let mk (name type : String) : TestInfo :=
    { newTestInfo name.toList [] 0 [] with Type_ := type.toList }
  let pkg (name : String) (tests : List TestInfo) : PackageInfo :=
    { Name := name.toList, Path := [], Description := [], Tests := tests, Coverage := 0,
      TestTypes := [] }
  CalculateStats
    { Packages :=
        [("pkg1".toList, pkg "pkg1" [mk "TestUnit" "unit", mk "TestIntegration" "integration"]),
         ("pkg2".toList, pkg "pkg2" [mk "TestUnit2" "unit"])],
      Stats := Statistics.zero }

/-- The data of `TestFilter_ByTags`, with a second package whose only record has no tag. -/
def exampleByTags : ParseResult :=
  let mk (name type : String) (tags : List String) : TestInfo :=
    { newTestInfo name.toList [] 0 [] with
      Type_ := type.toList, Tags := tags.map String.toList }
  let pkg (name : String) (tests : List TestInfo) : PackageInfo :=
    { Name := name.toList, Path := [], Description := [], Tests := tests, Coverage := 0,
      TestTypes := [] }
  CalculateStats
    { Packages :=
        [("pkg1".toList, pkg "pkg1"
            [mk "TestAPI" "unit" ["api", "unit"],
             mk "TestDB" "integration" ["database", "integration"],
             mk "TestAPIIntegration" "integration" ["api", "integration"]]),
         ("pkg2".toList, pkg "pkg2" [mk "TestPlain" "unit" []])],
      Stats := Statistics.zero }

/-! ## Reference notions used to state the properties of the annotation interpreter -/

/-- The text of `s` before its first `c`; all of `s` when `c` does not occur. -/
def beforeFirst (c : Char) (s : Str) : Str := s.takeWhile (fun x => x != c)

/-- The text of `s` after its first `c`; empty when `c` does not occur. -/
def afterFirst (c : Char) (s : Str) : Str := (s.dropWhile (fun x => x != c)).drop 1

/-- The seven prefixes `parseAnnotation` recognises, in the order it tests them. -/
def recognisedPrefixes : List Str :=
  ["@type:".toList, "@author:".toList, "@tags:".toList, "@testcase:".toList,
   "@step:".toList, "@created:".toList, "@updated:".toList]

/-- A line that begins with `@testcase:`. -/
def isCaseLine (line : Str) : Bool := HasPrefix line "@testcase:".toList

/-- A line that begins with `@step:`. -/
def isStepLine (line : Str) : Bool := HasPrefix line "@step:".toList

/-- The test case a `@testcase:` line declares. -/
def caseOfLine (line : Str) : TestCase :=
  mkTestCase (TrimSpace (TrimPrefix line "@testcase:".toList))

/-- The step a `@step:` line declares. -/
def stepOfLine (line : Str) : Step :=
  mkStep (TrimSpace (TrimPrefix line "@step:".toList))

/-- The steps declared by the lines `rest` up to, and not including, the next `@testcase:`
line. -/
def stepsAfter (rest : List Str) : List Step :=
  ((rest.takeWhile (fun line => !isCaseLine line)).filter isStepLine).map stepOfLine

/-- The test cases a block of lines declares: one per `@testcase:` line, in line order,
each holding the steps of the `@step:` lines between it and the next `@testcase:` line.
The theorems apply it to the cleaned texts of the comments of a group, one line per
comment. -/
def specCases : List Str → List TestCase
  | [] => []
  | line :: rest =>
    if isCaseLine line then { caseOfLine line with Steps := stepsAfter rest } :: specCases rest
    else specCases rest

/-- The effect of one annotation line on `TestCases`. -/
def casesAfterLine (line : Str) (cs : List TestCase) : List TestCase :=
  if isCaseLine line then cs ++ [caseOfLine line]
  else if isStepLine line then appendStep cs (stepOfLine line)
  else cs

/-- The comment group of the `Login` example. -/
def exampleLogin : List Str :=
  ["// @testcase: Login - verifies login".toList,
   "// @step: Enter credentials - form accepts input".toList]

/-- The counting invariant carried through both loops of `CalculateStats`. -/
def StatsInv (s : Statistics) : Prop :=
  s.TotalTests = s.ActiveTests + s.SkippedTests ∧ s.TotalTests = distSum s.TypeDistribution

/-! ## `pkg/types/types.go`: the classification enumeration -/

/-- The constant `UnitTest`. -/
def UnitTest : TestType := "unit".toList

/-- The constant `IntegrationTest`. -/
def IntegrationTest : TestType := "integration".toList

/-- The constant `FunctionalTest`. -/
def FunctionalTest : TestType := "functional".toList

/-- The constant `E2ETest`. -/
def E2ETest : TestType := "e2e".toList

/-- The constant `PerformanceTest`. -/
def PerformanceTest : TestType := "performance".toList

/-- The constant `SecurityTest`. -/
def SecurityTest : TestType := "security".toList

/-- The constant `RegressionTest`. -/
def RegressionTest : TestType := "regression".toList

/-- The constant `SmokeTest`. -/
def SmokeTest : TestType := "smoke".toList

/-- The method `TestType.IsValid`. -/
def IsValid (t : TestType) : Bool :=
  decide (t = UnitTest) || decide (t = IntegrationTest) || decide (t = FunctionalTest)
    || decide (t = E2ETest) || decide (t = PerformanceTest) || decide (t = SecurityTest)
    || decide (t = RegressionTest) || decide (t = SmokeTest)

/-- The function `GetSupportedTestTypes` of `testdoc.go`. -/
def GetSupportedTestTypes : List TestType :=
  [UnitTest, IntegrationTest, FunctionalTest, E2ETest, PerformanceTest, SecurityTest,
   RegressionTest, SmokeTest]

/-! ## Reference notions for the description and the dates -/

/-- The lines that make the description, a line being the cleaned text of one comment of
the group (a `/* */` comment is one line, whatever line breaks it holds): those that are
neither empty nor begin with `@`, in their original order. -/
def descLines (docGroup : List Str) : List Str :=
  (docGroup.map cleanLine).filter (fun line => decide (line ≠ []) && !HasPrefix line "@".toList)

/-- A record whose `Created` and `Updated` were set by two valid date lines. -/
def exampleDated : TestInfo :=
  parseAnnotation "@updated: 2024-03-01".toList
    ( parseAnnotation "@created: 2024-01-15".toList
      (newTestInfo "TestDated".toList "d_test.go".toList 3 "pkg".toList))

/-! ## `pkg/types/types.go`: the configuration -/

/-- The struct `Config`.  Its slices and its map can be nil (`none`), which `ValidateConfig`
tells apart from empty. -/
structure Config where
  Title : Str
  Author : Str
  Version : Str
  IncludeSkipped : Bool
  GroupByType : Bool
  GroupByPackage : Bool
  CustomTemplates : Option (GoMap Str)
  ExcludePatterns : Option (List Str)
  IncludePatterns : Option (List Str)
deriving DecidableEq, Repr

/-- The elements of a slice that may be nil, as `len` and `range` see them. -/
def elems {α : Type} (s : Option (List α)) : List α := s.getD []

/-- The function `DefaultConfig`. -/
def DefaultConfig : Config :=
  { Title := "Test Documentation".toList, Author := "Generated automatically".toList,
    Version := "1.0.0".toList, IncludeSkipped := true, GroupByType := true,
    GroupByPackage := false, CustomTemplates := some [], ExcludePatterns := some [],
    IncludePatterns := some ["*_test.go".toList] }

/-! ## `pkg/parser/parser.go`: the directory aggregator -/

/-- The functions of `path/filepath` that the parser calls.  `Match pattern name` is the
boolean result of `filepath.Match`; the parser discards its error, with which the boolean
is false. -/
structure PathLib where
  Base : Str → Str
  Dir : Str → Str
  Match : Str → Str → Bool

/-- The method `(*Parser).isTestFile`. -/
def isTestFile (filename : Str) : Bool := HasSuffix filename "_test.go".toList

/-- The method `(*Parser).shouldExcludeFile`. -/
def shouldExcludeFile (P : PathLib) (path : Str) (config : Config) : Bool :=
  let excluded :=
    (elems config.ExcludePatterns).any (fun pattern => P.Match pattern (P.Base path))
  if (elems config.IncludePatterns).length > 0 then
    let included :=
      (elems config.IncludePatterns).any (fun pattern => P.Match pattern (P.Base path))
    if !included then true else excluded
  else excluded

/-- The two tests at the top of the walk callback of `ParseDirectory`: the file is scanned
when it is a test file that is not excluded. -/
def qualifies (P : PathLib) (path : Str) (config : Config) : Bool :=
  isTestFile path && !shouldExcludeFile P path config

/-- One call of the walk callback by `filepath.Walk`: the path, whether the `err` argument
is non-nil, and what `p.ParseFile(path)` returns (`none` for an error). -/
structure WalkEntry where
  path : Str
  err : Bool
  parsed : Option (List TestInfo)
deriving DecidableEq, Repr

/-- Lines 85 to 107 of `ParseDirectory`: the package of the record is created if absent,
then the record is appended to it and its type added to `TestTypes` unless present. -/
def addTest (dir : Str) (packages : GoMap PackageInfo) (test : TestInfo) :
    GoMap PackageInfo :=
  let packageKey := test.Package
  let packages :=
    match packages.get? packageKey with
    | none =>
      packages.set packageKey
        { Name := test.Package, Path := dir, Description := [], Tests := [], Coverage := 0,
          TestTypes := [] }
    | some _ => packages
  match packages.get? packageKey with
  | none => packages
  | some pkg => packages.set packageKey (keepTest pkg test)

/-- The body of the loop over the records of one file in `ParseDirectory`. -/
def walkTest (config : Config) (dir : Str) (packages : GoMap PackageInfo) (test : TestInfo) :
    GoMap PackageInfo :=
  let test := if test.Type_ = [] then { test with Type_ := UnitTest } else test
  if test.Skipped && !config.IncludeSkipped then packages
  else addTest dir packages test

/-- The walk callback of `ParseDirectory`; `none` when it returns an error. -/
def walkFn (P : PathLib) (config : Config) (packages : GoMap PackageInfo) (e : WalkEntry) :
    Option (GoMap PackageInfo) :=
  if e.err then none
  else if !isTestFile e.path then some packages
  else if shouldExcludeFile P e.path config then some packages
  else
    match e.parsed with
    | none => some packages
    | some tests => some (tests.foldl (walkTest config (P.Dir e.path)) packages)

/-- The call `filepath.Walk(rootPath, fn)` over the entries it visits: it stops with an
error (`none`) at the first call of the callback that returns one. -/
def walk (P : PathLib) (config : Config) :
    GoMap PackageInfo → List WalkEntry → Option (GoMap PackageInfo)
  | packages, [] => some packages
  | packages, e :: rest =>
    match walkFn P config packages e with
    | none => none
    | some packages => walk P config packages rest

/-- The method `(*Parser).ParseDirectory`, over the entries the walk visits; `none` when it
returns an error. -/
def ParseDirectory (P : PathLib) (entries : List WalkEntry) (config : Config) :
    Option ParseResult :=
  match walk P config [] entries with
  | none => none
  | some packages => some (CalculateStats { Packages := packages, Stats := Statistics.zero })

/-! ## Reference notions for the directory aggregator -/

/-- The records `ParseFile` returned for one visited entry, when the entry is scanned. -/
def scannedOf (P : PathLib) (config : Config) (e : WalkEntry) : List TestInfo :=
  if qualifies P e.path config then e.parsed.getD [] else []

/-- The scanned records of a walk, in visiting order and, within a file, in the order
`ParseFile` returned them. -/
def scanned (P : PathLib) (config : Config) : List WalkEntry → List TestInfo
  | [] => []
  | e :: rest => scannedOf P config e ++ scanned P config rest

/-- A record with the default classification applied: `unit` for an empty `Type`. -/
def defaultType (test : TestInfo) : TestInfo :=
  if test.Type_ = [] then { test with Type_ := "unit".toList } else test

/-- A record is retained unless it is skipped and skipped records are not included. -/
def retain (config : Config) (test : TestInfo) : Bool :=
  !(test.Skipped && !config.IncludeSkipped)

/-- The records a walk stores: the scanned records, defaulted, that are retained. -/
def retained (P : PathLib) (config : Config) (entries : List WalkEntry) : List TestInfo :=
  ((scanned P config entries).map defaultType).filter (retain config)

/-- The distinct elements of a list, in order of first appearance. -/
def firstSeen : List TestType → List TestType
  | [] => []
  | x :: xs => x :: (firstSeen xs).filter (fun y => decide (y ≠ x))

/-- A stand-in for `path/filepath` on slash-separated paths: `Base` and `Dir` cut at the
last slash, and a pattern is either a literal name or `*` followed by a literal suffix. -/
def examplePathLib : PathLib :=
  { Base := fun path => (beforeFirst '/' path.reverse).reverse
    Dir := fun path => (afterFirst '/' path.reverse).reverse
    Match := fun pattern name =>
      match pattern with
      | '*' :: suffix => HasSuffix name suffix
      | _ => decide (pattern = name) }

/-- A walk over three files: a test file with three records, a file that does not parse,
and a file that is not a test file. -/
def exampleWalk : List WalkEntry :=
  let mk (name type pkg : String) (skipped : Bool) : TestInfo :=
    { newTestInfo name.toList "a_test.go".toList 1 pkg.toList with
      Type_ := type.toList, Skipped := skipped }
  [{ path := "root".toList, err := false, parsed := none },
   { path := "root/a_test.go".toList, err := false,
     parsed := some [mk "TestA" "" "alpha" false, mk "TestB" "integration" "alpha" true,
                     mk "TestC" "" "beta" true] },
   { path := "root/broken_test.go".toList, err := false, parsed := none },
   { path := "root/main.go".toList, err := false, parsed := some [] }]

/-- The package `ParseDirectory` creates for the first record of a package. -/
def newPackage (name dir : Str) : PackageInfo :=
  { Name := name, Path := dir, Description := [], Tests := [], Coverage := 0, TestTypes := [] }

/-- What the walk maintains about the packages built so far: distinct keys, and under each
key a package named by the key, with at least one record, every record belonging to that
package, and `TestTypes` collected from the records in order. -/
def GroupInv (packages : GoMap PackageInfo) : Prop :=
  GoMap.WF packages ∧ ∀ k p, packages.get? k = some p →
    p.Name = k ∧ p.Tests ≠ [] ∧ (∀ t, t ∈ p.Tests → t.Package = k)
      ∧ p.TestTypes = (p.Tests.map (fun t => t.Type_)).foldl addType []

/-- The model `ParseDirectory` returns for `exampleWalk` under `config`. -/
def exampleWalkResult (config : Config) : ParseResult :=
  (ParseDirectory examplePathLib exampleWalk config).getD
    { Packages := [], Stats := Statistics.zero }

/-- The package stored under `key` by the walk over `exampleWalk` with the default
configuration. -/
def testsPackage (key dir : Str) : PackageInfo :=
  ((exampleWalkResult DefaultConfig).Packages.get? key).getD (newPackage key dir)

/-! ## `pkg/parser/parser.go`: the declaration scanner -/

/-- The kinds a `*ast.BasicLit` can have. -/
inductive LitKind where
  | INT
  | FLOAT
  | IMAG
  | CHAR
  | STRING
deriving DecidableEq, Repr

/-- A node of the `go/ast` syntax tree, as far as `analyzeTestBody` tells nodes apart: call
expressions, selector expressions, basic literals, and any other node with its children in
the order `ast.Inspect` visits them. -/
inductive Node where
  | CallExpr (Fun : Node) (Args : List Node)
  | SelectorExpr (X : Node) (Sel : Str)
  | BasicLit (Kind : LitKind) (Value : Str)
  | Other (children : List Node)

/-- The function passed to `ast.Inspect` by `analyzeTestBody`, on one node.  `unquote` is
`strconv.Unquote` with its error discarded. -/
def inspectFn (unquote : Str → Str) (n : Node) (testInfo : TestInfo) : TestInfo :=
  match n with
  | .CallExpr (.SelectorExpr _ sel) args =>
    if sel = "Skip".toList ∨ sel = "Skipf".toList ∨ sel = "SkipNow".toList then
      let testInfo := { testInfo with Skipped := true }
      match args with
      | .BasicLit .STRING value :: _ => { testInfo with SkipReason := unquote value }
      | _ => testInfo
    else testInfo
  | _ => testInfo

mutual
/-- The traversal `ast.Inspect(n, f)` for a function `f` that always returns true: `f` on
the node, then the traversal of each child in order. -/
def inspect (f : Node → TestInfo → TestInfo) : Node → TestInfo → TestInfo
  | .CallExpr fn args, testInfo =>
    inspectList f args (inspect f fn (f (.CallExpr fn args) testInfo))
  | .SelectorExpr x sel, testInfo => inspect f x (f (.SelectorExpr x sel) testInfo)
  | .BasicLit kind value, testInfo => f (.BasicLit kind value) testInfo
  | .Other children, testInfo => inspectList f children (f (.Other children) testInfo)
/-- The traversal of a list of children, one after the other. -/
def inspectList (f : Node → TestInfo → TestInfo) : List Node → TestInfo → TestInfo
  | [], testInfo => testInfo
  | n :: rest, testInfo => inspectList f rest (inspect f n testInfo)
end

/-- The method `(*Parser).analyzeTestBody`. -/
def analyzeTestBody (unquote : Str → Str) (body : Node) (testInfo : TestInfo) : TestInfo :=
  inspect (inspectFn unquote) body testInfo

/-- A function declaration `*ast.FuncDecl`, as `parseTestFunction` reads it: its name, the
texts of its doc comment group if it has one, its body if it has one, and the line of its
position. -/
structure FuncDecl where
  Name : Str
  Doc : Option (List Str)
  Body : Option Node
  Line : Int

/-- The method `(*Parser).parseTestFunction`; `pkgName` is `file.Name.Name`. -/
def parseTestFunction (P : PathLib) (unquote : Str → Str) (fn : FuncDecl) (pkgName : Str)
    (filename : Str) : TestInfo :=
  let testInfo := newTestInfo fn.Name (P.Base filename) fn.Line pkgName
  let testInfo :=
    match fn.Doc with
    | some docGroup => parseDocComments docGroup testInfo
    | none => testInfo
  match fn.Body with
  | some body => analyzeTestBody unquote body testInfo
  | none => testInfo

/-! ## Reference notions for the declaration scanner -/

mutual
/-- All nodes of a tree, the node first and then those of its children, in order. -/
def subnodes : Node → List Node
  | .CallExpr fn args => .CallExpr fn args :: (subnodes fn ++ subnodesList args)
  | .SelectorExpr x sel => .SelectorExpr x sel :: subnodes x
  | .BasicLit kind value => [.BasicLit kind value]
  | .Other children => .Other children :: subnodesList children
/-- All nodes of a list of trees. -/
def subnodesList : List Node → List Node
  | [] => []
  | n :: rest => subnodes n ++ subnodesList rest
end

/-- A call whose callee is a selector expression with method name `Skip`, `Skipf` or
`SkipNow`. -/
def isSkipCall : Node → Bool
  | .CallExpr (.SelectorExpr _ sel) _ =>
    decide (sel = "Skip".toList ∨ sel = "Skipf".toList ∨ sel = "SkipNow".toList)
  | _ => false

/-- The text of the first argument of a call, when it is a string literal. -/
def literalArg : Node → Option Str
  | .CallExpr _ (.BasicLit .STRING value :: _) => some value
  | _ => none

/-- The string literals given as first argument to the skip calls of a body, in the order
the calls are visited. -/
def skipLiterals (body : Option Node) : List Str :=
  match body with
  | none => []
  | some b => ((subnodes b).filter isSkipCall).filterMap literalArg

/-- A stand-in for `strconv.Unquote` on literals without escape sequences: the text
between the quotes. -/
def exampleUnquote (lit : Str) : Str := (lit.drop 1).dropLast

/-- The call `t.<method>(<args>)`. -/
def callOn (method : String) (args : List Node) : Node :=
  .CallExpr (.SelectorExpr (.Other []) method.toList) args

/-- A test function whose body skips twice, with different reasons:
`if a { t.Skip("no network") }; if b { t.Skip("no database") }`. -/
def exampleTwoSkips : FuncDecl :=
  { Name := "TestNet".toList, Doc := some ["// @type: integration".toList],
    Body := some (.Other
      [.Other [.Other [], .Other [callOn "Skip" [.BasicLit .STRING "\"no network\"".toList]]],
       .Other [.Other [],
         .Other [callOn "Skip" [.BasicLit .STRING "\"no database\"".toList]]]]),
    Line := 10 }

/-- The function `IsValidTestType` of `testdoc.go`. -/
def IsValidTestType (testType : TestType) : Bool := IsValid testType

/-- The data of `TestFilter_ByAuthor`, with a record whose author differs from `John Doe`
only by case and one that differs only by a leading blank. -/
def exampleByAuthor : ParseResult :=
  let mk (name author : String) : TestInfo :=
    { newTestInfo name.toList [] 0 [] with Author := author.toList }
  CalculateStats
    { Packages :=
        [("pkg1".toList,
          { Name := "pkg1".toList, Path := [], Description := [],
            Tests := [mk "TestByJohn" "John Doe", mk "TestByJane" "Jane Smith",
                      mk "TestByJohn2" "John Doe", mk "TestLower" "john doe",
                      mk "TestBlank" " John Doe"],
            Coverage := 0, TestTypes := [] })],
      Stats := Statistics.zero }

/-! ## `pkg/parser/parser.go`: `ParseFile` -/

/-- A top-level declaration `ast.Decl`: a function declaration, or any other declaration. -/
inductive Decl where
  | funcDecl (fn : FuncDecl)
  | other

/-- A parsed file `*ast.File`: the package name `Name.Name` and the declarations. -/
structure File where
  Name : Str
  Decls : List Decl

/-- The method `(*Parser).isTestFunction`. -/
def isTestFunction (name : Str) : Bool :=
  HasPrefix name "Test".toList || HasPrefix name "Benchmark".toList
    || HasPrefix name "Example".toList

/-- The loop body of `ParseFile`, for one declaration. -/
def parseDecl (P : PathLib) (unquote : Str → Str) (src : File) (filename : Str)
    (tests : List TestInfo) (decl : Decl) : List TestInfo :=
  match decl with
  | .funcDecl fn =>
    if isTestFunction fn.Name then tests ++ [parseTestFunction P unquote fn src.Name filename]
    else tests
  | .other => tests

/-- The method `(*Parser).ParseFile`; `src` is what `parser.ParseFile` of `go/parser` returns
for the file, `none` for an error, and an error is returned as `none`. -/
def ParseFile (P : PathLib) (unquote : Str → Str) (src : Option File) (filename : Str) :
    Option (List TestInfo) :=
  match src with
  | none => none
  | some src => some (src.Decls.foldl (parseDecl P unquote src filename) [])

/-- The function declarations among the declarations of a file, in order. -/
def funcDecls : List Decl → List FuncDecl
  | [] => []
  | .funcDecl fn :: rest => fn :: funcDecls rest
  | .other :: rest => funcDecls rest

/-- A file with a test, a helper function, a type declaration, a benchmark and a function
whose name starts with a lower-case `test`. -/
def exampleFile : File :=
  let fn (name : String) (doc : Option (List String)) : Decl :=
    .funcDecl { Name := name.toList, Doc := doc.map (fun d => d.map String.toList),
                Body := some (.Other []), Line := 1 }
  { Name := "testpkg".toList,
    Decls := [fn "TestExample" (some ["// @type: fast"]), fn "RegularFunction" none, .other,
              fn "BenchmarkPerformance" none, fn "testLower" none] }

/-- A walk over the single file `exampleFile`, scanned by `ParseFile`. -/
def exampleFileWalk : List WalkEntry :=
  [{ path := "dir/example_test.go".toList, err := false,
     parsed := ParseFile examplePathLib exampleUnquote (some exampleFile)
       "dir/example_test.go".toList }]

/-- The model `ParseDirectory` returns for `exampleFileWalk` with the default
configuration. -/
def exampleFileResult : ParseResult :=
  (ParseDirectory examplePathLib exampleFileWalk DefaultConfig).getD
    { Packages := [], Stats := Statistics.zero }

/-! ## `testdoc.go`: the statistics utilities -/

/-- The loop body of `GetMostCommonTestType`; the state is `mostCommon, maxCount`. -/
def mostCommonStep (state : TestType × Int) (entry : TestType × Int) : TestType × Int :=
  if entry.2 > state.2 then (entry.1, entry.2) else state

/-- The method `(*Statistics).GetMostCommonTestType`. -/
def GetMostCommonTestType (result : ParseResult) : TestType × Int :=
  result.Stats.TypeDistribution.foldl mostCommonStep ([], 0)

/-- The statistics of `TestStatistics_GetMostCommonTestType` and
`TestStatistics_CalculateTestCoverage`. -/
def exampleDistribution : ParseResult :=
  { Packages := [],
    Stats := { TotalTests := 10, ActiveTests := 0, SkippedTests := 0, PackageCount := 0,
               TypeDistribution := [(UnitTest, 6), (IntegrationTest, 3), (E2ETest, 1)] } }

/-! ## `path/filepath` on Unix, for the default patterns -/

/-- The function `filepath.Base` with separator `/`: the last element of the path, trailing
slashes removed; `.` for an empty path and `/` for a path of slashes only. -/
def filepathBase (path : Str) : Str :=
  if path = [] then ".".toList
  else
    let path := path.rdropWhile (fun c => c == '/')
    let path := (path.reverse.takeWhile (fun c => c != '/')).reverse
    if path = [] then "/".toList else path

/-- The function `scanChunk` of `path/filepath` on a pattern without `?`, `[` and `\`:
whether leading stars were removed, the text up to the next star, and the rest. -/
def scanChunk (pattern : Str) : Bool × Str × Str :=
  let star := decide (pattern.head? = some '*')
  let pattern := pattern.dropWhile (fun c => c == '*')
  (star, pattern.takeWhile (fun c => c != '*'), pattern.dropWhile (fun c => c != '*'))

/-- The function `matchChunk` of `path/filepath` on a chunk without `?`, `[` and `\`: the
chunk must be a prefix of `s`, and the rest of `s` is returned; `none` when it is not. -/
def matchChunk : Str → Str → Option Str
  | [], s => some s
  | _ :: _, [] => none
  | c :: chunk, x :: s => if c = x then matchChunk chunk s else none

/-- The loop of `filepath.Match` that skips `i + 1` characters of `name` for a chunk that
follows a star: it stops at a separator, takes the first position where the chunk matches
and, for the last chunk of the pattern, leaves nothing of the name. -/
def starLoop (chunk : Str) (lastChunk : Bool) : Str → Option Str
  | [] => none
  | c :: rest =>
    if c = '/' then none
    else
      match matchChunk chunk rest with
      | some t => if lastChunk && decide (t ≠ []) then starLoop chunk lastChunk rest else some t
      | none => starLoop chunk lastChunk rest

/-- The loop `Pattern:` of `filepath.Match`, with one unit of fuel per chunk. -/
def matchLoop : Nat → Str → Str → Bool
  | 0, _, _ => false
  | fuel + 1, pattern, name =>
    if pattern = [] then decide (name = [])
    else
      let star := (scanChunk pattern).1
      let chunk := (scanChunk pattern).2.1
      let rest := (scanChunk pattern).2.2
      if star && decide (chunk = []) then !Contains name '/'
      else
        let skip :=
          if star then
            match starLoop chunk (decide (rest = [])) name with
            | some t => matchLoop fuel rest t
            | none => false
          else false
        match matchChunk chunk name with
        | some t => if decide (t = []) || decide (rest ≠ []) then matchLoop fuel rest t else skip
        | none => skip

/-- The boolean result of `filepath.Match` (separator `/`) for a pattern in which `?`, `[`
and `\` do not occur; such a pattern is made of stars and literal characters and is never
malformed.  Every chunk takes at least one character of the pattern, so the fuel is never
used up. -/
def filepathMatch (pattern name : Str) : Bool :=
  matchLoop (pattern.length + 1) pattern name

/-- A `PathLib` with the `Base` and `Match` above; `Dir` cuts at the last slash. -/
def unixPathLib : PathLib :=
  { Base := filepathBase
    Dir := fun path => (afterFirst '/' path.reverse).reverse
    Match := filepathMatch }

/-! ## `float64` arithmetic -/

/-- A `float64` value.  A finite value is `±mant * 2^exp` with `mant < 2^53`; it is zero
(`mant = 0`, `exp = 0`), normal (`2^52 ≤ mant`, `-1074 ≤ exp ≤ 971`) or subnormal
(`exp = -1074`). -/
inductive F64 where
  | finite (neg : Bool) (mant : Nat) (exp : Int)
  | inf (neg : Bool)
  | nan
deriving DecidableEq, Repr

namespace F64

/-- The loop of `log2`: halve `n` until it is below `2`, at most `fuel` times. -/
def log2Aux : Nat → Nat → Nat
  | 0, _ => 0
  | fuel + 1, n => if n < 2 then 0 else log2Aux fuel (n / 2) + 1

/-- The position of the highest set bit of `n` (`0` for `n = 0`). -/
def log2 (n : Nat) : Nat := log2Aux n n

/-- The `float64` nearest to `±num / den` (`den > 0`), ties going to the even mantissa. -/
def round (neg : Bool) (num den : Nat) : F64 :=
  if num = 0 then finite neg 0 0
  else
    let d : Int := (log2 num : Int) - (log2 den : Int)
    let ge : Bool :=
      if 0 ≤ d then decide (den * 2 ^ d.toNat ≤ num) else decide (den ≤ num * 2 ^ (-d).toNat)
    let log : Int := if ge then d else d - 1
    let e : Int := max (log - 52) (-1074)
    let n : Nat := if e ≤ 0 then num * 2 ^ (-e).toNat else num
    let m : Nat := if e ≤ 0 then den else den * 2 ^ e.toNat
    let q := n / m
    let r := n % m
    let q := if 2 * r < m then q else if m < 2 * r then q + 1 else if q % 2 = 0 then q else q + 1
    let e := if q = 2 ^ 53 then e + 1 else e
    let q := if q = 2 ^ 53 then 2 ^ 52 else q
    if q = 0 then finite neg 0 0
    else if 971 < e then inf neg
    else finite neg q e

/-- The conversion `float64(n)` of an integer. -/
def ofInt (n : Int) : F64 := round (decide (n < 0)) n.natAbs 1

/-- The quotient `x / y`. -/
def div : F64 → F64 → F64
  | nan, _ => nan
  | _, nan => nan
  | inf _, inf _ => nan
  | inf s, finite t _ _ => inf (xor s t)
  | finite s _ _, inf t => finite (xor s t) 0 0
  | finite s m e, finite t m' e' =>
    if m' = 0 then (if m = 0 then nan else inf (xor s t))
    else round (xor s t) (m * 2 ^ (e - e').toNat) (m' * 2 ^ (e' - e).toNat)

/-- The product `x * y`. -/
def mul : F64 → F64 → F64
  | nan, _ => nan
  | _, nan => nan
  | inf s, inf t => inf (xor s t)
  | inf s, finite t m _ => if m = 0 then nan else inf (xor s t)
  | finite s m _, inf t => if m = 0 then nan else inf (xor s t)
  | finite s m e, finite t m' e' =>
    round (xor s t) (m * m' * 2 ^ (e + e').toNat) (2 ^ (-(e + e')).toNat)

end F64

/-- The loop body of `CalculateTestCoverage`:
`coverage[testType] = float64(count) / float64(result.Stats.TotalTests) * 100`. -/
def coverageStep (total : Int) (coverage : GoMap F64) (entry : TestType × Int) : GoMap F64 :=
  coverage.set entry.1
    (F64.mul (F64.div (F64.ofInt entry.2) (F64.ofInt total)) (F64.ofInt 100))

/-- The method `(*Statistics).CalculateTestCoverage`. -/
def CalculateTestCoverage (result : ParseResult) : GoMap F64 :=
  if result.Stats.TotalTests = 0 then []
  else result.Stats.TypeDistribution.foldl (coverageStep result.Stats.TotalTests) []

/-! ## Reference notions for the order of the records and the failures of a walk -/

/-- The records of the package `k` that the walk stores for one visited entry: the records
of the file, defaulted, that are retained and belong to `k`, in the order `ParseFile`
returned them. -/
def retainedOf (P : PathLib) (config : Config) (k : Str) (e : WalkEntry) : List TestInfo :=
  (((scannedOf P config e).map defaultType).filter (retain config)).filter
    (fun t => decide (t.Package = k))

/-- The walk `exampleWalk` followed by a directory that cannot be read: the callback is
called for it with a non-nil `err`. -/
def exampleWalkErr : List WalkEntry :=
  exampleWalk ++ [{ path := "root/sub".toList, err := true, parsed := none }]

/-! ## `testdoc.go`: `ValidateConfig` -/

/-- The configuration as `ValidateConfig` sees it.  The function reads and writes a string
field `Language`; the struct `Config` of `pkg/types/types.go` declares no such field, so
the field is kept here beside the declared ones. -/
structure ConfigWithLanguage extends Config where
  Language : Str
deriving DecidableEq, Repr

/-- The function `ValidateConfig`: the configuration after the call, and the error it
returns (`none` for `nil`). -/
def ValidateConfig (config : ConfigWithLanguage) : ConfigWithLanguage × Option Str :=
  let config :=
    if config.Title = [] then { config with Title := "Test Documentation".toList } else config
  let config :=
    if config.Author = [] then { config with Author := "Generated automatically".toList }
    else config
  let config := if config.Version = [] then { config with Version := "1.0.0".toList } else config
  let config := if config.Language = [] then { config with Language := "ru".toList } else config
  let config :=
    if config.ExcludePatterns = none then { config with ExcludePatterns := some [] } else config
  let config :=
    if config.IncludePatterns = none then
      { config with IncludePatterns := some ["*_test.go".toList] }
    else config
  let config :=
    if config.CustomTemplates = none then { config with CustomTemplates := some [] } else config
  (config, none)

/-- The zero value `types.Config{}` with an empty `Language`, as in the case `empty_config`
of `TestValidateConfig`. -/
def emptyConfig : ConfigWithLanguage :=
  { Title := [], Author := [], Version := [], IncludeSkipped := false, GroupByType := false,
    GroupByPackage := false, CustomTemplates := none, ExcludePatterns := none,
    IncludePatterns := none, Language := [] }

/-- A model with one package whose `Coverage` is `85.5` and whose two records are tagged
`api`, of type `unit` and by the same author. -/
def exampleCovered : ParseResult :=
  let mk (name : String) : TestInfo :=
    { newTestInfo name.toList [] 0 "pkg1".toList with
      Type_ := UnitTest, Tags := ["api".toList], Author := "John Doe".toList }
  CalculateStats
    { Packages :=
        [("pkg1".toList,
          { Name := "pkg1".toList, Path := "dir".toList, Description := [],
            Tests := [mk "TestA", mk "TestB"], Coverage := 0x4055600000000000,
            TestTypes := [UnitTest] })],
      Stats := Statistics.zero }

/-! ## The filters on an explicit memory

The filters receive a pointer to a `ParseResult` and return a pointer to another one.  To
state what they leave untouched, the structs and maps they handle through pointers are
placed in a `Heap`: every assignment through a pointer is a write at the address the
pointer holds, and every `&T{...}` or `make` allocates a new address.  Slices and records
remain values: the filters only ever append to the slices of a package they allocated
themselves, starting from an empty slice. -/

/-- An address in one of the stores of a `Heap`. -/
abbrev Ptr := Nat

/-- A `ParseResult` struct in memory; its `Packages` field refers to a map object. -/
structure ResultCell where
  Packages : Ptr
  Stats : Statistics
deriving DecidableEq, Repr

/-- The memory the filters work on: the `ParseResult` structs, the
`map[string]*PackageInfo` objects and the `PackageInfo` structs, each store addressed by
position.  An allocation appends to a store. -/
structure Heap where
  results : List ResultCell
  maps : List (GoMap Ptr)
  packages : List PackageInfo
deriving DecidableEq, Repr

/-- The zero value `types.PackageInfo{}`. -/
def PackageInfo.zero : PackageInfo :=
  { Name := [], Path := [], Description := [], Tests := [], Coverage := 0, TestTypes := [] }

namespace Heap

/-- The `ParseResult` at address `r` (the zero value at an address never allocated). -/
def resultAt (h : Heap) (r : Ptr) : ResultCell :=
  h.results.getD r { Packages := 0, Stats := Statistics.zero }

/-- The map object at address `m`. -/
def mapAt (h : Heap) (m : Ptr) : GoMap Ptr := h.maps.getD m []

/-- The `PackageInfo` at address `p`. -/
def packageAt (h : Heap) (p : Ptr) : PackageInfo := h.packages.getD p PackageInfo.zero

/-- A write to the `ParseResult` at address `r`. -/
def setResult (h : Heap) (r : Ptr) (c : ResultCell) : Heap :=
  { h with results := h.results.set r c }

/-- A write to the map object at address `m`. -/
def setMap (h : Heap) (m : Ptr) (v : GoMap Ptr) : Heap := { h with maps := h.maps.set m v }

/-- A write to the `PackageInfo` at address `p`. -/
def setPackage (h : Heap) (p : Ptr) (v : PackageInfo) : Heap :=
  { h with packages := h.packages.set p v }

/-- The allocation `&types.ParseResult{...}`: the new memory and the new address. -/
def allocResult (h : Heap) (c : ResultCell) : Heap × Ptr :=
  ({ h with results := h.results ++ [c] }, h.results.length)

/-- The allocation `make(map[string]*types.PackageInfo)`. -/
def allocMap (h : Heap) : Heap × Ptr := ({ h with maps := h.maps ++ [[]] }, h.maps.length)

/-- The allocation `&types.PackageInfo{...}`. -/
def allocPackage (h : Heap) (v : PackageInfo) : Heap × Ptr :=
  ({ h with packages := h.packages ++ [v] }, h.packages.length)

/-- The model a pointer to a `ParseResult` stands for: every pointer followed. -/
def model (h : Heap) (r : Ptr) : ParseResult :=
  { Packages := (h.mapAt (h.resultAt r).Packages).map (fun e => (e.1, h.packageAt e.2)),
    Stats := (h.resultAt r).Stats }

/-- The pointer `r` and every pointer reachable from it hold allocated addresses. -/
def Valid (h : Heap) (r : Ptr) : Prop :=
  r < h.results.length ∧ (h.resultAt r).Packages < h.maps.length
    ∧ ∀ e, e ∈ h.mapAt (h.resultAt r).Packages → e.2 < h.packages.length

/-- Every object of `h` is in `after` at the same address with the same value. -/
def Preserved (h after : Heap) : Prop :=
  after.results.take h.results.length = h.results
    ∧ after.maps.take h.maps.length = h.maps
    ∧ after.packages.take h.packages.length = h.packages

/-- The model at `r` in `after` is made of objects that `h` did not hold: the struct, its
map and every package of the map were allocated after `h`. -/
def Fresh (h after : Heap) (r : Ptr) : Prop :=
  h.results.length ≤ r ∧ h.maps.length ≤ (after.resultAt r).Packages
    ∧ ∀ e, e ∈ after.mapAt (after.resultAt r).Packages → h.packages.length ≤ e.2

end Heap

/-- The method `(*ParseResult).CalculateStats` through the pointer `pr`: the statistics are
accumulated in a local variable and stored by `pr.Stats = stats`. -/
def CalculateStatsH (h : Heap) (pr : Ptr) : Heap :=
  let stats := (h.mapAt (h.resultAt pr).Packages).foldl
    (fun stats entry => statsPackage stats (h.packageAt entry.2)) emptyStats
  h.setResult pr { h.resultAt pr with Stats := stats }

/-- The inner loop body of `ByType`, writing through the pointer `filteredPkg`. -/
def byTypeTestH (testType : TestType) (filteredPkg : Ptr) (h : Heap) (test : TestInfo) :
    Heap :=
  if test.Type_ = testType then
    h.setPackage filteredPkg
      { h.packageAt filteredPkg with Tests := (h.packageAt filteredPkg).Tests ++ [test] }
  else h

/-- One kept record in `ByTags` and `ByAuthor`, writing through the pointer `filteredPkg`:
the record is appended to `Tests`, then its type to `TestTypes` unless already there. -/
def keepTestH (filteredPkg : Ptr) (h : Heap) (test : TestInfo) : Heap :=
  let h := h.setPackage filteredPkg
    { h.packageAt filteredPkg with Tests := (h.packageAt filteredPkg).Tests ++ [test] }
  if foundType (h.packageAt filteredPkg).TestTypes test.Type_ then h
  else
    h.setPackage filteredPkg
      { h.packageAt filteredPkg with
        TestTypes := (h.packageAt filteredPkg).TestTypes ++ [test.Type_] }

/-- The inner loop body of `ByTags`. -/
def byTagsTestH (tags : List Str) (filteredPkg : Ptr) (h : Heap) (test : TestInfo) : Heap :=
  if hasAnyTag test.Tags tags then keepTestH filteredPkg h test else h

/-- The inner loop body of `ByAuthor`. -/
def byAuthorTestH (author : Str) (filteredPkg : Ptr) (h : Heap) (test : TestInfo) : Heap :=
  if test.Author = author then keepTestH filteredPkg h test else h

/-- The outer loop body of `ByType`, for the entry `pkgName, pkg` of the input map:
`filteredPkg` is allocated, filled through the pointer and, when it has a record, given
its `TestTypes` and stored in the map of `filtered`. -/
def byTypePackageH (testType : TestType) (filtered : Ptr) (h : Heap) (entry : Str × Ptr) :
    Heap :=
  let pkg := h.packageAt entry.2
  let a := h.allocPackage (newFilteredPkg pkg)
  let filteredPkg := a.2
  let h := pkg.Tests.foldl (byTypeTestH testType filteredPkg) a.1
  if (h.packageAt filteredPkg).Tests.length > 0 then
    let h := h.setPackage filteredPkg
      { h.packageAt filteredPkg with
        TestTypes := (h.packageAt filteredPkg).TestTypes ++ [testType] }
    h.setMap (h.resultAt filtered).Packages
      ((h.mapAt (h.resultAt filtered).Packages).set entry.1 filteredPkg)
  else h

/-- The outer loop body of `ByTags`. -/
def byTagsPackageH (tags : List Str) (filtered : Ptr) (h : Heap) (entry : Str × Ptr) : Heap :=
  let pkg := h.packageAt entry.2
  let a := h.allocPackage (newFilteredPkg pkg)
  let filteredPkg := a.2
  let h := pkg.Tests.foldl (byTagsTestH tags filteredPkg) a.1
  if (h.packageAt filteredPkg).Tests.length > 0 then
    h.setMap (h.resultAt filtered).Packages
      ((h.mapAt (h.resultAt filtered).Packages).set entry.1 filteredPkg)
  else h

/-- The outer loop body of `ByAuthor`. -/
def byAuthorPackageH (author : Str) (filtered : Ptr) (h : Heap) (entry : Str × Ptr) : Heap :=
  let pkg := h.packageAt entry.2
  let a := h.allocPackage (newFilteredPkg pkg)
  let filteredPkg := a.2
  let h := pkg.Tests.foldl (byAuthorTestH author filteredPkg) a.1
  if (h.packageAt filteredPkg).Tests.length > 0 then
    h.setMap (h.resultAt filtered).Packages
      ((h.mapAt (h.resultAt filtered).Packages).set entry.1 filteredPkg)
  else h

/-- The frame shared by the three filters: `filtered` is allocated with a new map, the
loop body `body` runs over the entries of the input map, and `filtered.CalculateStats()`
is called; the result is the new memory and the pointer `filtered`. -/
def filterH (body : Ptr → Heap → Str × Ptr → Heap) (h : Heap) (result : Ptr) : Heap × Ptr :=
  let a := h.allocMap
  let b := a.1.allocResult { Packages := a.2, Stats := Statistics.zero }
  let filtered := b.2
  let h := (b.1.mapAt (b.1.resultAt result).Packages).foldl (body filtered) b.1
  (CalculateStatsH h filtered, filtered)

/-- The method `(*Filter).ByType` on pointers. -/
def ByTypeH (h : Heap) (result : Ptr) (testType : TestType) : Heap × Ptr :=
  filterH (byTypePackageH testType) h result

/-- The method `(*Filter).ByTags` on pointers. -/
def ByTagsH (h : Heap) (result : Ptr) (tags : List Str) : Heap × Ptr :=
  filterH (byTagsPackageH tags) h result

/-- The method `(*Filter).ByAuthor` on pointers. -/
def ByAuthorH (h : Heap) (result : Ptr) (author : Str) : Heap × Ptr :=
  filterH (byAuthorPackageH author) h result

/-- A call that started in `h` on the model at `result` and ended in `out.1` returning the
pointer `out.2` did not mutate: every object of `h` is as it was, so that `result` still
stands for the same model; the returned model is made of new objects only; and it is the
model `expected`. -/
def NonMutating (h : Heap) (result : Ptr) (out : Heap × Ptr) (expected : ParseResult) :
    Prop :=
  Heap.Preserved h out.1 ∧ out.1.model result = h.model result
    ∧ out.1.Valid out.2 ∧ Heap.Fresh h out.1 out.2 ∧ out.1.model out.2 = expected

/-- The closed form of the outer loop body of a filter on pointers: the new package holds
`c pkg`, and it is stored in the map of `filtered` when `f pkg` has a record. -/
def filterPackageH (f c : PackageInfo → PackageInfo) (filtered : Ptr) (h : Heap)
    (entry : Str × Ptr) : Heap :=
  let pkg := h.packageAt entry.2
  let after := (h.allocPackage (c pkg)).1
  if (f pkg).Tests.length > 0 then
    after.setMap (h.resultAt filtered).Packages
      ((h.mapAt (h.resultAt filtered).Packages).set entry.1 h.packages.length)
  else after

/-- A memory holding the model `exampleByTags` at address `0`, with its two packages at
the addresses `0` and `1`. -/
def exampleHeap : Heap :=
  { results := [{ Packages := 0, Stats := exampleByTags.Stats }],
    maps := [[("pkg1".toList, 0), ("pkg2".toList, 1)]],
    packages := exampleByTags.Packages.values }

/-! ## Block comments -/

/-- The `Login` example written as one `/* */` comment of four source lines. -/
def exampleLoginBlock : List Str :=
  ["/*\n@testcase: Login - verifies login\n@step: Enter credentials - form accepts input\n*/".toList]

/-- A `/* */` doc comment of five source lines, the third an `@type:` line. -/
def exampleDescBlock : List Str :=
  ["/*\nTestLogin checks the login\n@type: integration\nform\n*/".toList]

/-- A `/* */` doc comment of four source lines, the third the line `@todo`. -/
def exampleTodoBlock : List Str := ["/*\nChecks the login\n@todo\n*/".toList]

/-- A test function whose body is the chained call `q.Skip("a").Skip("b")`: the call of
`Skip("b")` has the call `q.Skip("a")` as receiver. -/
def exampleChain : FuncDecl :=
  { Name := "TestChain".toList, Doc := none,
    Body := some (.Other
      [.CallExpr (.SelectorExpr (callOn "Skip" [.BasicLit .STRING "\"a\"".toList]) "Skip".toList)
        [.BasicLit .STRING "\"b\"".toList]]),
    Line := 1 }

/-! # Theorems -/

/-! ## Statistics: the counting invariant -/

theorem distSum_set (m : GoMap Int) (k : Str) (v : Int) :
    distSum (m.set k v) = distSum m - (m.get? k).getD 0 + v := by
  induction m with
  | nil => simp [GoMap.set, GoMap.get?, distSum, GoMap.values]
  | cons e rest ih =>
    obtain ⟨k', v'⟩ := e
    by_cases h : k' = k
    · simp [GoMap.set, GoMap.get?, distSum, GoMap.values, h]
      ring
    · simp only [distSum, GoMap.values] at ih
      simp [GoMap.set, GoMap.get?, distSum, GoMap.values, h, ih]
      ring

theorem distSum_incr (m : GoMap Int) (k : Str) : distSum (incr m k) = distSum m + 1 := by
  rw [incr, distSum_set]; ring

theorem statsTest_inv (s : Statistics) (t : TestInfo) (h : StatsInv s) :
    StatsInv (statsTest s t) := by
  obtain ⟨h1, h2⟩ := h
  unfold statsTest StatsInv
  cases ht : t.Skipped <;> simp [distSum_incr] <;> omega

theorem foldl_statsTest_inv (ts : List TestInfo) (s : Statistics) (h : StatsInv s) :
    StatsInv (ts.foldl statsTest s) := by
  induction ts generalizing s with
  | nil => exact h
  | cons t ts ih => exact ih _ (statsTest_inv s t h)

theorem statsPackage_inv (s : Statistics) (p : PackageInfo) (h : StatsInv s) :
    StatsInv (statsPackage s p) := by
  unfold statsPackage
  exact foldl_statsTest_inv _ _ h

theorem foldl_statsPackage_inv (ps : List PackageInfo) (s : Statistics) (h : StatsInv s) :
    StatsInv (ps.foldl statsPackage s) := by
  induction ps generalizing s with
  | nil => exact h
  | cons p ps ih => exact ih _ (statsPackage_inv s p h)

theorem CalculateStats_inv (pr : ParseResult) : StatsInv (CalculateStats pr).Stats := by
  have h : StatsInv emptyStats := by simp [StatsInv, emptyStats, distSum, GoMap.values]
  exact foldl_statsPackage_inv pr.Packages.values emptyStats h

/-- C1: whatever the packages and whatever the statistics stored before, after
`CalculateStats` the total equals active plus skipped, and equals the sum of all values of
the type distribution. -/
theorem C1_calculateStats_invariant (pr : ParseResult) :
    (CalculateStats pr).Stats.TotalTests
        = (CalculateStats pr).Stats.ActiveTests + (CalculateStats pr).Stats.SkippedTests
      ∧ (CalculateStats pr).Stats.TotalTests
        = distSum (CalculateStats pr).Stats.TypeDistribution :=
  CalculateStats_inv pr

/-! ## Maps -/

theorem get?_of_not_mem_keys {V : Type} (m : GoMap V) (k : Str) (h : k ∉ GoMap.keys m) :
    GoMap.get? m k = none := by
  induction m with
  | nil => rfl
  | cons e rest ih =>
    obtain ⟨k', v⟩ := e
    simp only [GoMap.keys, List.map_cons, List.mem_cons, not_or] at h
    have h1 : ¬ k' = k := fun h' => h.1 h'.symm
    simp only [GoMap.get?, h1, if_false]
    exact ih h.2

theorem get?_set {V : Type} (m : GoMap V) (k k' : Str) (v : V) :
    GoMap.get? (GoMap.set m k v) k' = if k = k' then some v else GoMap.get? m k' := by
  induction m with
  | nil => simp [GoMap.set, GoMap.get?]
  | cons e rest ih =>
    obtain ⟨k0, v0⟩ := e
    by_cases h : k0 = k
    · subst h
      by_cases h' : k0 = k' <;> simp [GoMap.set, GoMap.get?, h']
    · by_cases h' : k0 = k'
      · subst h'
        simp [GoMap.set, GoMap.get?, h, Ne.symm h]
      · simp [GoMap.set, GoMap.get?, h, h', ih]

theorem set_of_not_mem_keys {V : Type} (m : GoMap V) (k : Str) (v : V)
    (h : k ∉ GoMap.keys m) : GoMap.set m k v = m ++ [(k, v)] := by
  induction m with
  | nil => rfl
  | cons e rest ih =>
    obtain ⟨k', v'⟩ := e
    simp only [GoMap.keys, List.map_cons, List.mem_cons, not_or] at h
    have h1 : ¬ k' = k := fun h' => h.1 h'.symm
    simp only [GoMap.set, h1, if_false, List.cons_append]
    rw [ih h.2]

theorem keys_filterMap_selectEntry (f : PackageInfo → PackageInfo) (l : GoMap PackageInfo) :
    GoMap.keys (l.filterMap (selectEntry f))
      = GoMap.keys (l.filter (fun e => decide ((f e.2).Tests.length > 0))) := by
  induction l with
  | nil => rfl
  | cons e rest ih =>
    by_cases h : (f e.2).Tests.length > 0
    · simp only [GoMap.keys] at ih
      simp [GoMap.keys, List.filterMap_cons, selectEntry, h, List.filter_cons, ih]
    · simp only [GoMap.keys] at ih
      simp [GoMap.keys, List.filterMap_cons, selectEntry, h, List.filter_cons, ih]

theorem keys_select_sublist (f : PackageInfo → PackageInfo) (l : GoMap PackageInfo) :
    (GoMap.keys (l.filterMap (selectEntry f))).Sublist (GoMap.keys l) := by
  rw [keys_filterMap_selectEntry]
  exact List.Sublist.map _ (List.filter_sublist l)

theorem wf_select (f : PackageInfo → PackageInfo) (l : GoMap PackageInfo) (h : GoMap.WF l) :
    GoMap.WF (l.filterMap (selectEntry f)) :=
  List.Nodup.sublist (keys_select_sublist f l) h

/-- On a well-formed map, the outer loop of a filter computes a `filterMap`. -/
theorem foldl_passEntry (f : PackageInfo → PackageInfo) (l acc : GoMap PackageInfo)
    (h : (GoMap.keys acc ++ GoMap.keys l).Nodup) :
    l.foldl (passEntry f) acc = acc ++ l.filterMap (selectEntry f) := by
  induction l generalizing acc with
  | nil => simp
  | cons e rest ih =>
    obtain ⟨k, p⟩ := e
    have hk : k ∉ GoMap.keys acc := by
      intro hm
      have hd : List.Disjoint (GoMap.keys acc) (GoMap.keys ((k, p) :: rest)) :=
        (List.nodup_append.mp h).2.2
      exact hd hm (List.mem_cons_self _ _)
    by_cases hp : (f p).Tests.length > 0
    · have hs : passEntry f acc (k, p) = acc ++ [(k, f p)] := by
        simp only [passEntry, hp, if_true]
        exact set_of_not_mem_keys acc k (f p) hk
      rw [List.foldl_cons, hs, ih]
      · simp [selectEntry, hp, List.filterMap_cons]
      · simp only [GoMap.keys, List.map_append, List.map_cons, List.map_nil,
          List.append_assoc, List.singleton_append] at h ⊢
        exact h
    · have hs : passEntry f acc (k, p) = acc := by
        simp only [passEntry, hp, if_false]
      rw [List.foldl_cons, hs, ih]
      · simp [selectEntry, hp, List.filterMap_cons]
      · simp only [GoMap.keys, List.map_cons] at h ⊢
        exact List.Nodup.sublist
          (List.Sublist.append_left (List.sublist_cons_self _ _) _) h

theorem get?_select (f : PackageInfo → PackageInfo) (l : GoMap PackageInfo) (h : GoMap.WF l)
    (k : Str) :
    GoMap.get? (l.filterMap (selectEntry f)) k
      = (GoMap.get? l k).bind
          (fun p => if (f p).Tests.length > 0 then some (f p) else none) := by
  induction l with
  | nil => rfl
  | cons e rest ih =>
    obtain ⟨k', p⟩ := e
    have hwf : GoMap.WF rest := by
      simp only [GoMap.WF, GoMap.keys, List.map_cons, List.nodup_cons] at h ⊢
      exact h.2
    have hk' : k' ∉ GoMap.keys rest := by
      simp only [GoMap.WF, GoMap.keys, List.map_cons, List.nodup_cons] at h ⊢
      exact h.1
    by_cases hp : (f p).Tests.length > 0
    · by_cases hkk : k' = k
      · subst hkk
        simp [selectEntry, hp, List.filterMap_cons, GoMap.get?]
      · simp [selectEntry, hp, List.filterMap_cons, GoMap.get?, hkk, ih hwf]
    · by_cases hkk : k' = k
      · subst hkk
        have hnot : k' ∉ GoMap.keys (rest.filterMap (selectEntry f)) :=
          fun hm => hk' ((keys_select_sublist f rest).subset hm)
        simp [selectEntry, hp, List.filterMap_cons, GoMap.get?,
          get?_of_not_mem_keys _ _ hnot]
      · simp [selectEntry, hp, List.filterMap_cons, GoMap.get?, hkk, ih hwf]

/-! ## The inner loops of the filters -/

theorem foldl_keep (keep : TestInfo → Bool) (ts : List TestInfo) (fp : PackageInfo) :
    ts.foldl (fun fp t => if keep t then keepTest fp t else fp) fp
      = { fp with
          Tests := fp.Tests ++ ts.filter keep
          TestTypes := ((ts.filter keep).map (fun t => t.Type_)).foldl addType fp.TestTypes } := by
  induction ts generalizing fp with
  | nil => simp
  | cons t ts ih =>
    rw [List.foldl_cons, ih]
    by_cases hk : keep t = true
    · by_cases hf : foundType fp.TestTypes t.Type_ = true
      · simp [hk, keepTest, hf, addType, List.filter_cons]
      · simp [hk, keepTest, hf, addType, List.filter_cons]
    · simp [hk, List.filter_cons]

theorem foldl_byTagsTest (tags : List Str) (pkg : PackageInfo) :
    pkg.Tests.foldl (byTagsTest tags) (newFilteredPkg pkg)
      = selectPkg (fun t => hasAnyTag t.Tags tags) pkg := by
  have h : byTagsTest tags
      = fun fp t => if (fun t => hasAnyTag t.Tags tags) t then keepTest fp t else fp := rfl
  rw [h, foldl_keep]
  simp [newFilteredPkg, selectPkg]

theorem foldl_byAuthorTest (author : Str) (pkg : PackageInfo) :
    pkg.Tests.foldl (byAuthorTest author) (newFilteredPkg pkg)
      = selectPkg (fun t => decide (t.Author = author)) pkg := by
  have h : byAuthorTest author
      = fun fp t => if (fun t => decide (t.Author = author)) t then keepTest fp t else fp := by
    funext fp t
    simp [byAuthorTest]
  rw [h, foldl_keep]
  simp [newFilteredPkg, selectPkg]

theorem foldl_byTypeTest (testType : TestType) (ts : List TestInfo) (fp : PackageInfo) :
    ts.foldl (byTypeTest testType) fp
      = { fp with Tests := fp.Tests ++ ts.filter (fun t => decide (t.Type_ = testType)) } := by
  induction ts generalizing fp with
  | nil => simp
  | cons t ts ih =>
    rw [List.foldl_cons, ih]
    by_cases hk : t.Type_ = testType
    · simp [byTypeTest, hk, List.filter_cons]
    · simp [byTypeTest, hk, List.filter_cons]

theorem byTagsPackage_eq (tags : List Str) :
    byTagsPackage tags = passEntry (selectPkg (fun t => hasAnyTag t.Tags tags)) := by
  funext acc e
  simp only [byTagsPackage, passEntry, foldl_byTagsTest]

theorem byAuthorPackage_eq (author : Str) :
    byAuthorPackage author = passEntry (selectPkg (fun t => decide (t.Author = author))) := by
  funext acc e
  simp only [byAuthorPackage, passEntry, foldl_byAuthorTest]

theorem byTypePackage_eq (testType : TestType) :
    byTypePackage testType = passEntry (selectPkgByType testType) := by
  funext acc e
  simp only [byTypePackage, passEntry, foldl_byTypeTest, newFilteredPkg, selectPkgByType,
    List.nil_append]

theorem ByTags_packages (m : ParseResult) (tags : List Str) (h : GoMap.WF m.Packages) :
    (ByTags m tags).Packages
      = m.Packages.filterMap (selectEntry (selectPkg (fun t => hasAnyTag t.Tags tags))) := by
  simp only [ByTags, CalculateStats, byTagsPackage_eq]
  rw [foldl_passEntry _ _ _ (by simpa [GoMap.keys] using h)]
  rfl

theorem ByAuthor_packages (m : ParseResult) (author : Str) (h : GoMap.WF m.Packages) :
    (ByAuthor m author).Packages
      = m.Packages.filterMap (selectEntry (selectPkg (fun t => decide (t.Author = author)))) := by
  simp only [ByAuthor, CalculateStats, byAuthorPackage_eq]
  rw [foldl_passEntry _ _ _ (by simpa [GoMap.keys] using h)]
  rfl

theorem ByType_packages (m : ParseResult) (testType : TestType) (h : GoMap.WF m.Packages) :
    (ByType m testType).Packages
      = m.Packages.filterMap (selectEntry (selectPkgByType testType)) := by
  simp only [ByType, CalculateStats, byTypePackage_eq]
  rw [foldl_passEntry _ _ _ (by simpa [GoMap.keys] using h)]
  rfl

/-! ## Statistics as counts -/

theorem foldl_statsTest_counts (ts : List TestInfo) (s : Statistics) :
    (ts.foldl statsTest s).TotalTests = s.TotalTests + ts.length
      ∧ (ts.foldl statsTest s).PackageCount = s.PackageCount := by
  induction ts generalizing s with
  | nil => simp
  | cons t ts ih =>
    rw [List.foldl_cons]
    obtain ⟨h1, h2⟩ := ih (statsTest s t)
    rw [h1, h2]
    constructor
    · cases ht : t.Skipped <;> simp [statsTest, ht] <;> ring
    · cases ht : t.Skipped <;> simp [statsTest, ht]

theorem foldl_statsPackage_counts (m : GoMap PackageInfo) (s : Statistics) :
    (m.values.foldl statsPackage s).TotalTests = s.TotalTests + (allTests m).length
      ∧ (m.values.foldl statsPackage s).PackageCount = s.PackageCount + m.length := by
  induction m generalizing s with
  | nil => simp [GoMap.values, allTests]
  | cons e rest ih =>
    obtain ⟨k, p⟩ := e
    simp only [GoMap.values, List.map_cons, List.foldl_cons] at ih ⊢
    obtain ⟨h1, h2⟩ := ih (statsPackage s p)
    obtain ⟨g1, g2⟩ := foldl_statsTest_counts p.Tests { s with PackageCount := s.PackageCount + 1 }
    rw [h1, h2]
    simp only [statsPackage, g1, g2, allTests, List.length_append, List.length_cons]
    constructor
    · push_cast; ring
    · push_cast; ring

theorem CalculateStats_counts (pr : ParseResult) :
    (CalculateStats pr).Stats.TotalTests = (allTests pr.Packages).length
      ∧ (CalculateStats pr).Stats.PackageCount = pr.Packages.length := by
  have h := foldl_statsPackage_counts pr.Packages emptyStats
  simpa [CalculateStats, emptyStats] using h

theorem allTests_select (f : PackageInfo → PackageInfo) (keep : TestInfo → Bool)
    (hf : ∀ p, (f p).Tests = p.Tests.filter keep) (l : GoMap PackageInfo) :
    allTests (l.filterMap (selectEntry f)) = (allTests l).filter keep := by
  induction l with
  | nil => rfl
  | cons e rest ih =>
    obtain ⟨k, p⟩ := e
    by_cases hp : (f p).Tests.length > 0
    · have he : selectEntry f (k, p) = some (k, f p) := by simp [selectEntry, hp]
      rw [List.filterMap_cons, he]
      simp [allTests, ih, hf]
    · have he : selectEntry f (k, p) = none := by simp [selectEntry, hp]
      have h0 : p.Tests.filter keep = [] := by
        have : (f p).Tests = [] := by
          cases hl : (f p).Tests with
          | nil => rfl
          | cons a b => simp [hl] at hp
        rw [← hf]; exact this
      rw [List.filterMap_cons, he]
      simp [allTests, ih, h0]

/-! ## The filters -/

theorem hasAnyTag_iff (testTags filterTags : List Str) :
    hasAnyTag testTags filterTags = true ↔ ∃ tag, tag ∈ testTags ∧ tag ∈ filterTags := by
  simp only [hasAnyTag, List.any_eq_true, decide_eq_true_eq]
  constructor
  · rintro ⟨x, hx, y, hy, rfl⟩
    exact ⟨y, hy, hx⟩
  · rintro ⟨x, h1, h2⟩
    exact ⟨x, h2, x, h1, rfl⟩

theorem selectPkg_tests (keep : TestInfo → Bool) (p : PackageInfo) :
    (selectPkg keep p).Tests = p.Tests.filter keep := rfl

theorem selectPkgByType_tests (testType : TestType) (p : PackageInfo) :
    (selectPkgByType testType p).Tests
      = p.Tests.filter (fun t => decide (t.Type_ = testType)) := rfl

theorem length_filter_pos_iff (keep : TestInfo → Bool) (ts : List TestInfo) :
    (ts.filter keep).length > 0 ↔ ∃ t, t ∈ ts ∧ keep t = true := by
  rw [gt_iff_lt, List.length_pos, ne_eq, List.filter_eq_nil_iff]
  push_neg
  rfl

theorem testsUnder_select (f : PackageInfo → PackageInfo) (keep : TestInfo → Bool)
    (hf : ∀ p, (f p).Tests = p.Tests.filter keep) (l : GoMap PackageInfo) (h : GoMap.WF l)
    (k : Str) :
    testsUnder (l.filterMap (selectEntry f)) k = (testsUnder l k).filter keep := by
  unfold testsUnder
  rw [get?_select f l h k]
  cases hg : GoMap.get? l k with
  | none => rfl
  | some p =>
    by_cases hp : (f p).Tests.length > 0
    · simp only [Option.some_bind, hp, if_true]
      exact hf p
    · have h0 : p.Tests.filter keep = [] := by
        rw [← hf]
        cases hl : (f p).Tests with
        | nil => rfl
        | cons a b => simp [hl] at hp
      simp only [Option.some_bind, hp, if_false]
      exact h0.symm

theorem present_select (f : PackageInfo → PackageInfo) (keep : TestInfo → Bool)
    (hf : ∀ p, (f p).Tests = p.Tests.filter keep) (l : GoMap PackageInfo) (h : GoMap.WF l)
    (k : Str) :
    (GoMap.get? (l.filterMap (selectEntry f)) k).isSome = true
      ↔ ∃ p, GoMap.get? l k = some p ∧ ∃ t, t ∈ p.Tests ∧ keep t = true := by
  rw [get?_select f l h k]
  cases hg : GoMap.get? l k with
  | none => simp
  | some p =>
    have hiff := length_filter_pos_iff keep p.Tests
    rw [← hf] at hiff
    by_cases hp : (f p).Tests.length > 0
    · simp [hp, hiff.mp hp]
    · have hn : ¬ ∃ t, t ∈ p.Tests ∧ keep t = true := fun hx => hp (hiff.mpr hx)
      simp only [Option.some_bind, hp, if_false, Option.isSome_none, Bool.false_eq_true,
        false_iff]
      rintro ⟨q, hq, hx⟩
      cases hq
      exact hn hx

theorem nonempty_select (f : PackageInfo → PackageInfo) (l : GoMap PackageInfo)
    (h : GoMap.WF l) (k : Str) (q : PackageInfo)
    (hq : GoMap.get? (l.filterMap (selectEntry f)) k = some q) : q.Tests ≠ [] := by
  rw [get?_select f l h k] at hq
  cases hg : GoMap.get? l k with
  | none => simp [hg] at hq
  | some p =>
    rw [hg] at hq
    by_cases hp : (f p).Tests.length > 0
    · simp only [Option.some_bind, hp, if_true, Option.some.injEq] at hq
      subst hq
      exact List.length_pos.mp hp
    · simp [hp] at hq

theorem length_select (f : PackageInfo → PackageInfo) (keep : TestInfo → Bool)
    (hf : ∀ p, (f p).Tests = p.Tests.filter keep) (l : GoMap PackageInfo) :
    (l.filterMap (selectEntry f)).length
      = (l.filter (fun e => e.2.Tests.any keep)).length := by
  induction l with
  | nil => rfl
  | cons e rest ih =>
    have hiff := length_filter_pos_iff keep e.2.Tests
    rw [← hf] at hiff
    by_cases hp : (f e.2).Tests.length > 0
    · have he : selectEntry f e = some (e.1, f e.2) := by simp [selectEntry, hp]
      have ha : e.2.Tests.any keep = true := List.any_eq_true.mpr (hiff.mp hp)
      rw [List.filterMap_cons, he, List.filter_cons]
      simp [ha, ih]
    · have he : selectEntry f e = none := by simp [selectEntry, hp]
      have ha : ¬ e.2.Tests.any keep = true :=
        fun hx => hp (hiff.mpr (List.any_eq_true.mp hx))
      rw [List.filterMap_cons, he, List.filter_cons]
      simp [ha, ih]

theorem hasAnyTag_eq_decide (filterTags : List Str) :
    (fun t : TestInfo => hasAnyTag t.Tags filterTags)
      = fun t => decide (∃ tag, tag ∈ t.Tags ∧ tag ∈ filterTags) := by
  funext t
  rw [Bool.eq_iff_iff, hasAnyTag_iff, decide_eq_true_eq]

/-- C2: on a well-formed model, the statistics of `ByType m T` satisfy active + skipped =
total, and the total is the number of records of `m`, over all packages, whose type is `T`. -/
theorem C2_byType_stats (m : ParseResult) (T : TestType) (hwf : GoMap.WF m.Packages) :
    (ByType m T).Stats.ActiveTests + (ByType m T).Stats.SkippedTests
        = (ByType m T).Stats.TotalTests
      ∧ (ByType m T).Stats.TotalTests
        = (((allTests m.Packages).filter (fun t => decide (t.Type_ = T))).length : Int) := by
  constructor
  · exact (CalculateStats_inv _).1.symm
  · have hc := (CalculateStats_counts
      { Packages := m.Packages.foldl (byTypePackage T) [], Stats := Statistics.zero }).1
    have hp := ByType_packages m T hwf
    have ha := allTests_select (selectPkgByType T) (fun t => decide (t.Type_ = T))
      (selectPkgByType_tests T) m.Packages
    simp only [ByType, CalculateStats] at hp
    simp only [ByType]
    rw [hc]
    simp only [hp, ha]

theorem C2_byType_stats_witness :
    GoMap.WF exampleByType.Packages
      ∧ ((ByType exampleByType "unit".toList).Stats.ActiveTests
            + (ByType exampleByType "unit".toList).Stats.SkippedTests
          = (ByType exampleByType "unit".toList).Stats.TotalTests
        ∧ (ByType exampleByType "unit".toList).Stats.TotalTests
          = (((allTests exampleByType.Packages).filter
              (fun t => decide (t.Type_ = "unit".toList))).length : Int)) :=
  ⟨by decide, C2_byType_stats exampleByType "unit".toList (by decide)⟩

/-- C4: on a well-formed model, the records of `ByTags m S` under any key are the records of
`m` under that key that carry at least one tag found in `S`, in their original order; every
record of the result shares a tag with `S`. -/
theorem C4_byTags_anyOf (m : ParseResult) (S : List Str) (hwf : GoMap.WF m.Packages) :
    (∀ k, testsUnder (ByTags m S).Packages k
        = (testsUnder m.Packages k).filter
            (fun t => decide (∃ tag, tag ∈ t.Tags ∧ tag ∈ S)))
      ∧ (∀ t, t ∈ allTests (ByTags m S).Packages → ∃ tag, tag ∈ t.Tags ∧ tag ∈ S) := by
  have hp := ByTags_packages m S hwf
  have hf : ∀ p, (selectPkg (fun t => hasAnyTag t.Tags S) p).Tests
      = p.Tests.filter (fun t => hasAnyTag t.Tags S) := fun p => rfl
  constructor
  · intro k
    rw [hp, testsUnder_select _ _ hf m.Packages hwf k, hasAnyTag_eq_decide]
  · intro t ht
    rw [hp, allTests_select _ _ hf m.Packages] at ht
    exact (hasAnyTag_iff t.Tags S).mp (List.mem_filter.mp ht).2

theorem C4_byTags_anyOf_witness :
    GoMap.WF exampleByTags.Packages
      ∧ ((∀ k, testsUnder (ByTags exampleByTags ["api".toList]).Packages k
          = (testsUnder exampleByTags.Packages k).filter
              (fun t => decide (∃ tag, tag ∈ t.Tags ∧ tag ∈ ["api".toList])))
        ∧ (∀ t, t ∈ allTests (ByTags exampleByTags ["api".toList]).Packages →
            ∃ tag, tag ∈ t.Tags ∧ tag ∈ ["api".toList])) :=
  ⟨by decide, C4_byTags_anyOf exampleByTags ["api".toList] (by decide)⟩

/-- C5: for each of `ByType`, `ByTags` and `ByAuthor` on a well-formed model, a key is
present in the result exactly when the package under that key in the input has a matching
record; no package of the result has an empty `Tests`; and `PackageCount` is the number of
input packages with a matching record. -/
theorem C5_filters_drop_empty_packages (m : ParseResult) (T : TestType) (S : List Str)
    (a : Str) (hwf : GoMap.WF m.Packages) :
    ((∀ k, ((ByType m T).Packages.get? k).isSome = true
          ↔ ∃ p, m.Packages.get? k = some p ∧ ∃ t, t ∈ p.Tests ∧ t.Type_ = T)
        ∧ (∀ k q, (ByType m T).Packages.get? k = some q → q.Tests ≠ [])
        ∧ (ByType m T).Stats.PackageCount
          = ((m.Packages.filter
                (fun e => e.2.Tests.any (fun t => decide (t.Type_ = T)))).length : Int))
      ∧ ((∀ k, ((ByTags m S).Packages.get? k).isSome = true
          ↔ ∃ p, m.Packages.get? k = some p
              ∧ ∃ t, t ∈ p.Tests ∧ ∃ tag, tag ∈ t.Tags ∧ tag ∈ S)
        ∧ (∀ k q, (ByTags m S).Packages.get? k = some q → q.Tests ≠ [])
        ∧ (ByTags m S).Stats.PackageCount
          = ((m.Packages.filter
                (fun e => e.2.Tests.any
                  (fun t => decide (∃ tag, tag ∈ t.Tags ∧ tag ∈ S)))).length : Int))
      ∧ ((∀ k, ((ByAuthor m a).Packages.get? k).isSome = true
          ↔ ∃ p, m.Packages.get? k = some p ∧ ∃ t, t ∈ p.Tests ∧ t.Author = a)
        ∧ (∀ k q, (ByAuthor m a).Packages.get? k = some q → q.Tests ≠ [])
        ∧ (ByAuthor m a).Stats.PackageCount
          = ((m.Packages.filter
                (fun e => e.2.Tests.any (fun t => decide (t.Author = a)))).length : Int)) := by
  refine ⟨⟨?_, ?_, ?_⟩, ⟨?_, ?_, ?_⟩, ⟨?_, ?_, ?_⟩⟩
  · intro k
    rw [ByType_packages m T hwf,
      present_select _ _ (selectPkgByType_tests T) m.Packages hwf k]
    simp
  · intro k q hq
    rw [ByType_packages m T hwf] at hq
    exact nonempty_select _ m.Packages hwf k q hq
  · have hc := (CalculateStats_counts
      { Packages := m.Packages.foldl (byTypePackage T) [], Stats := Statistics.zero }).2
    have hp := ByType_packages m T hwf
    simp only [ByType, CalculateStats] at hp
    simp only [ByType]
    rw [hc]
    simp only [hp, length_select _ _ (selectPkgByType_tests T) m.Packages]
  · intro k
    rw [ByTags_packages m S hwf,
      present_select _ _ (selectPkg_tests _) m.Packages hwf k]
    simp only [hasAnyTag_iff]
  · intro k q hq
    rw [ByTags_packages m S hwf] at hq
    exact nonempty_select _ m.Packages hwf k q hq
  · have hc := (CalculateStats_counts
      { Packages := m.Packages.foldl (byTagsPackage S) [], Stats := Statistics.zero }).2
    have hp := ByTags_packages m S hwf
    simp only [ByTags, CalculateStats] at hp
    simp only [ByTags]
    rw [hc]
    simp only [hp, length_select _ _ (selectPkg_tests _) m.Packages, hasAnyTag_eq_decide]
  · intro k
    rw [ByAuthor_packages m a hwf,
      present_select _ _ (selectPkg_tests _) m.Packages hwf k]
    simp
  · intro k q hq
    rw [ByAuthor_packages m a hwf] at hq
    exact nonempty_select _ m.Packages hwf k q hq
  · have hc := (CalculateStats_counts
      { Packages := m.Packages.foldl (byAuthorPackage a) [], Stats := Statistics.zero }).2
    have hp := ByAuthor_packages m a hwf
    simp only [ByAuthor, CalculateStats] at hp
    simp only [ByAuthor]
    rw [hc]
    simp only [hp, length_select _ _ (selectPkg_tests _) m.Packages]

theorem C5_filters_drop_empty_packages_witness :
    GoMap.WF exampleByTags.Packages
      ∧ (((∀ k, ((ByType exampleByTags "unit".toList).Packages.get? k).isSome = true
            ↔ ∃ p, exampleByTags.Packages.get? k = some p
                ∧ ∃ t, t ∈ p.Tests ∧ t.Type_ = "unit".toList)
          ∧ (∀ k q, (ByType exampleByTags "unit".toList).Packages.get? k = some q →
              q.Tests ≠ [])
          ∧ (ByType exampleByTags "unit".toList).Stats.PackageCount
            = ((exampleByTags.Packages.filter
                  (fun e => e.2.Tests.any
                    (fun t => decide (t.Type_ = "unit".toList)))).length : Int))
        ∧ ((∀ k, ((ByTags exampleByTags ["api".toList]).Packages.get? k).isSome = true
            ↔ ∃ p, exampleByTags.Packages.get? k = some p
                ∧ ∃ t, t ∈ p.Tests ∧ ∃ tag, tag ∈ t.Tags ∧ tag ∈ ["api".toList])
          ∧ (∀ k q, (ByTags exampleByTags ["api".toList]).Packages.get? k = some q →
              q.Tests ≠ [])
          ∧ (ByTags exampleByTags ["api".toList]).Stats.PackageCount
            = ((exampleByTags.Packages.filter
                  (fun e => e.2.Tests.any
                    (fun t => decide (∃ tag, tag ∈ t.Tags ∧ tag ∈ ["api".toList])))).length
                : Int))
        ∧ ((∀ k, ((ByAuthor exampleByTags []).Packages.get? k).isSome = true
            ↔ ∃ p, exampleByTags.Packages.get? k = some p
                ∧ ∃ t, t ∈ p.Tests ∧ t.Author = [])
          ∧ (∀ k q, (ByAuthor exampleByTags []).Packages.get? k = some q → q.Tests ≠ [])
          ∧ (ByAuthor exampleByTags []).Stats.PackageCount
            = ((exampleByTags.Packages.filter
                  (fun e => e.2.Tests.any (fun t => decide (t.Author = [])))).length
                : Int))) :=
  ⟨by decide,
    C5_filters_drop_empty_packages exampleByTags "unit".toList ["api".toList] [] (by decide)⟩

/-! ## Idempotence of the tag filter -/

theorem keys_set {V : Type} (m : GoMap V) (k : Str) (v : V) :
    GoMap.keys (GoMap.set m k v)
      = if k ∈ GoMap.keys m then GoMap.keys m else GoMap.keys m ++ [k] := by
  induction m with
  | nil => rfl
  | cons e rest ih =>
    obtain ⟨k', v'⟩ := e
    by_cases h : k' = k
    · subst h
      simp only [GoMap.set, GoMap.keys, if_true, List.map_cons, List.mem_cons, true_or]
    · have h' : ¬ k = k' := fun hx => h hx.symm
      simp only [GoMap.keys] at ih
      simp only [GoMap.set, GoMap.keys, h, h', if_false, List.map_cons, List.mem_cons,
        false_or, ih]
      by_cases hm : k ∈ List.map Prod.fst rest
      · simp only [hm, if_true]
      · simp only [hm, if_false, List.cons_append]

theorem wf_set {V : Type} (m : GoMap V) (k : Str) (v : V) (h : GoMap.WF m) :
    GoMap.WF (GoMap.set m k v) := by
  unfold GoMap.WF at h ⊢
  rw [keys_set]
  by_cases hm : k ∈ GoMap.keys m
  · simpa [hm] using h
  · simp only [hm, if_false]
    exact List.Nodup.append h (List.nodup_singleton k) (by simpa using hm)

theorem mem_set {V : Type} (m : GoMap V) (k : Str) (v : V) (e : Str × V)
    (h : e ∈ GoMap.set m k v) : e ∈ m ∨ e = (k, v) := by
  induction m with
  | nil => simpa [GoMap.set] using h
  | cons e' rest ih =>
    obtain ⟨k', v'⟩ := e'
    by_cases hk : k' = k
    · simp only [GoMap.set, hk, if_true, List.mem_cons] at h
      rcases h with h | h
      · exact Or.inr h
      · exact Or.inl (List.mem_cons_of_mem _ h)
    · simp only [GoMap.set, hk, if_false, List.mem_cons] at h
      rcases h with h | h
      · exact Or.inl (h ▸ List.mem_cons_self _ _)
      · rcases ih h with h' | h'
        · exact Or.inl (List.mem_cons_of_mem _ h')
        · exact Or.inr h'

/-- Whatever the input list, the map a filter builds is well formed and holds only packages
that the filter built. -/
theorem foldl_passEntry_inv (f : PackageInfo → PackageInfo) (Q : PackageInfo → Prop)
    (hQ : ∀ p, (f p).Tests.length > 0 → Q (f p)) (l acc : GoMap PackageInfo)
    (hacc : GoMap.WF acc ∧ ∀ e, e ∈ acc → Q e.2) :
    GoMap.WF (l.foldl (passEntry f) acc) ∧ ∀ e, e ∈ l.foldl (passEntry f) acc → Q e.2 := by
  induction l generalizing acc with
  | nil => exact hacc
  | cons e rest ih =>
    rw [List.foldl_cons]
    apply ih
    by_cases hp : (f e.2).Tests.length > 0
    · simp only [passEntry, hp, if_true]
      refine ⟨wf_set _ _ _ hacc.1, ?_⟩
      intro e' he'
      rcases mem_set _ _ _ _ he' with h | h
      · exact hacc.2 e' h
      · rw [h]; exact hQ _ hp
    · simp only [passEntry, hp, if_false]
      exact hacc

theorem filterMap_selectEntry_fixed (f : PackageInfo → PackageInfo) (l : GoMap PackageInfo)
    (h : ∀ e, e ∈ l → f e.2 = e.2 ∧ e.2.Tests.length > 0) :
    l.filterMap (selectEntry f) = l := by
  induction l with
  | nil => rfl
  | cons e rest ih =>
    have he := h e (List.mem_cons_self _ _)
    have hs : selectEntry f e = some e := by
      simp only [selectEntry, he.1, he.2, if_true]
    rw [List.filterMap_cons, hs]
    simp only
    rw [ih (fun e' he' => h e' (List.mem_cons_of_mem _ he'))]

theorem selectPkg_idem (keep : TestInfo → Bool) (p : PackageInfo) :
    selectPkg keep (selectPkg keep p) = selectPkg keep p := by
  simp [selectPkg, List.filter_filter]

theorem passEntry_fixed (keep : TestInfo → Bool) (l : GoMap PackageInfo) :
    (l.foldl (passEntry (selectPkg keep)) []).foldl (passEntry (selectPkg keep)) []
      = l.foldl (passEntry (selectPkg keep)) [] := by
  have hinv := foldl_passEntry_inv (selectPkg keep)
    (fun q => selectPkg keep q = q ∧ q.Tests.length > 0)
    (fun p hp => ⟨selectPkg_idem keep p, hp⟩) l []
    ⟨by simp [GoMap.WF, GoMap.keys], by simp⟩
  rw [foldl_passEntry _ _ _ (by simpa [GoMap.keys] using hinv.1)]
  simp only [List.nil_append]
  exact filterMap_selectEntry_fixed _ _ hinv.2

/-- C3: `ByTags` is idempotent.  Filtering the result of `ByTags m S` by `S` again returns
the same model: the same packages under the same keys, the same records in the same order,
the same `TestTypes` and the same `Stats`. -/
theorem C3_byTags_idempotent (m : ParseResult) (S : List Str) :
    ByTags (ByTags m S) S = ByTags m S := by
  have h := passEntry_fixed (fun t => hasAnyTag t.Tags S) m.Packages
  simp only [ByTags, CalculateStats, byTagsPackage_eq]
  rw [h]

/-! ## The annotation interpreter: one lemma per branch -/

theorem parseAnnotation_step (payload : Str) (ti : TestInfo) :
    parseAnnotation ("@step:".toList ++ payload) ti
      = if ti.TestCases.length > 0 then
          { ti with TestCases := appendStep ti.TestCases (mkStep (TrimSpace payload)) }
        else ti := by
  simp [ parseAnnotation, HasPrefix, TrimPrefix, List.isPrefixOf]

theorem parseAnnotation_testcase (payload : Str) (ti : TestInfo) :
    parseAnnotation ("@testcase:".toList ++ payload) ti
      = { ti with TestCases := ti.TestCases ++ [mkTestCase (TrimSpace payload)] } := by
  simp [ parseAnnotation, HasPrefix, TrimPrefix, List.isPrefixOf]

theorem parseAnnotation_tags (payload : Str) (ti : TestInfo) :
    parseAnnotation ("@tags:".toList ++ payload) ti
      = (Split ',' (TrimSpace payload)).foldl
          (fun (ti : TestInfo) tag => { ti with Tags := ti.Tags ++ [TrimSpace tag] }) ti := by
  simp [ parseAnnotation, HasPrefix, TrimPrefix, List.isPrefixOf]

theorem HasPrefix_iff (s pre : Str) : HasPrefix s pre = true ↔ ∃ rest, s = pre ++ rest := by
  unfold HasPrefix
  rw [List.isPrefixOf_iff_prefix]
  constructor
  · rintro ⟨r, hr⟩; exact ⟨r, hr.symm⟩
  · rintro ⟨r, hr⟩; exact ⟨r, hr.symm⟩

theorem dropWhile_length_le (p : Char → Bool) (l : Str) :
    (l.dropWhile p).length ≤ l.length :=
  (List.dropWhile_suffix p).length_le

theorem TrimSpace_idem (s : Str) : TrimSpace (TrimSpace s) = TrimSpace s := by
  unfold TrimSpace
  have hd : List.dropWhile isSpace (List.rdropWhile isSpace (List.dropWhile isSpace s))
      = List.rdropWhile isSpace (List.dropWhile isSpace s) := by
    cases ht : List.rdropWhile isSpace (List.dropWhile isSpace s) with
    | nil => rfl
    | cons x t =>
      have hpre : (x :: t) <+: List.dropWhile isSpace s := by
        rw [← ht]; exact List.rdropWhile_prefix _ _
      obtain ⟨r, hr⟩ := hpre
      have hx : ¬ isSpace x = true := by
        have hi := List.dropWhile_idempotent isSpace s
        rw [← hr] at hi
        intro hx
        simp only [List.cons_append, List.dropWhile_cons, hx, if_true] at hi
        have hl := congrArg List.length hi
        have hle := dropWhile_length_le isSpace (t ++ r)
        simp only [List.length_cons] at hl
        omega
      simp [List.dropWhile_cons, hx]
  rw [hd, List.rdropWhile_idempotent]

theorem cut_of_not_mem (c : Char) (s : Str) (h : c ∉ s) : cut c s = none := by
  induction s with
  | nil => rfl
  | cons x xs ih =>
    simp only [List.mem_cons, not_or] at h
    have hx : ¬ x = c := fun e => h.1 e.symm
    simp [cut, hx, ih h.2]

theorem cut_first (c : Char) (before after : Str) (h : c ∉ before) :
    cut c (before ++ c :: after) = some (before, after) := by
  induction before with
  | nil => simp [cut]
  | cons x xs ih =>
    simp only [List.mem_cons, not_or] at h
    have hx : ¬ x = c := fun e => h.1 e.symm
    simp [cut, hx, ih h.2]

theorem Split_ne_nil (c : Char) (s : Str) : Split c s ≠ [] := by
  induction s with
  | nil => simp [Split]
  | cons x xs ih =>
    by_cases hx : x = c
    · simp [Split, hx]
    · cases hs : Split c xs with
      | nil => exact absurd hs ih
      | cons p ps => simp [Split, hx, hs]

theorem Split_of_not_mem (c : Char) (s : Str) (h : c ∉ s) : Split c s = [s] := by
  induction s with
  | nil => rfl
  | cons x xs ih =>
    simp only [List.mem_cons, not_or] at h
    have hx : ¬ x = c := fun e => h.1 e.symm
    simp [Split, hx, ih h.2]

theorem Split_append (c : Char) (piece rest : Str) (h : c ∉ piece) :
    Split c (piece ++ c :: rest) = piece :: Split c rest := by
  induction piece with
  | nil => simp [Split]
  | cons x xs ih =>
    simp only [List.mem_cons, not_or] at h
    have hx : ¬ x = c := fun e => h.1 e.symm
    simp [Split, hx, ih h.2]

/-- Splitting at `c` undoes joining with `c` of pieces that do not contain `c`. -/
theorem Split_intercalate (c : Char) (pieces : List Str) (hne : pieces ≠ [])
    (h : ∀ p, p ∈ pieces → c ∉ p) : Split c ([c].intercalate pieces) = pieces := by
  induction pieces with
  | nil => exact absurd rfl hne
  | cons p ps ih =>
    cases ps with
    | nil =>
      have hj : [c].intercalate [p] = p := by simp [List.intercalate, List.intersperse]
      rw [hj]
      exact Split_of_not_mem c p (h p (List.mem_cons_self _ _))
    | cons q qs =>
      have hrec := ih (by simp) (fun x hx => h x (List.mem_cons_of_mem _ hx))
      have hp := h p (List.mem_cons_self _ _)
      have hj : [c].intercalate (p :: q :: qs) = p ++ c :: [c].intercalate (q :: qs) := by
        simp [List.intercalate, List.intersperse]
      rw [hj, Split_append c p _ hp, hrec]

theorem foldl_tags (pieces : List Str) (ti : TestInfo) :
    pieces.foldl (fun (ti : TestInfo) tag => { ti with Tags := ti.Tags ++ [TrimSpace tag] }) ti
      = { ti with Tags := ti.Tags ++ pieces.map TrimSpace } := by
  induction pieces generalizing ti with
  | nil => simp
  | cons p ps ih => simp [List.foldl_cons, ih]

theorem beforeFirst_of_not_mem (c : Char) (s : Str) (h : c ∉ s) : beforeFirst c s = s := by
  induction s with
  | nil => rfl
  | cons x xs ih =>
    simp only [List.mem_cons, not_or] at h
    have hx : ¬ x = c := fun e => h.1 e.symm
    have ih' := ih h.2
    simp only [beforeFirst] at ih' ⊢
    simp [List.takeWhile_cons, hx, ih']

theorem afterFirst_of_not_mem (c : Char) (s : Str) (h : c ∉ s) : afterFirst c s = [] := by
  induction s with
  | nil => rfl
  | cons x xs ih =>
    simp only [List.mem_cons, not_or] at h
    have hx : ¬ x = c := fun e => h.1 e.symm
    have ih' := ih h.2
    simp only [afterFirst] at ih' ⊢
    simp [List.dropWhile_cons, hx, ih']

theorem beforeFirst_append (c : Char) (a b : Str) (h : c ∉ a) :
    beforeFirst c (a ++ c :: b) = a := by
  induction a with
  | nil => simp [beforeFirst, List.takeWhile_cons]
  | cons x xs ih =>
    simp only [List.mem_cons, not_or] at h
    have hx : ¬ x = c := fun e => h.1 e.symm
    have ih' := ih h.2
    simp only [beforeFirst] at ih' ⊢
    simp [List.takeWhile_cons, hx, ih']

theorem afterFirst_append (c : Char) (a b : Str) (h : c ∉ a) :
    afterFirst c (a ++ c :: b) = b := by
  induction a with
  | nil => simp [afterFirst, List.dropWhile_cons]
  | cons x xs ih =>
    simp only [List.mem_cons, not_or] at h
    have hx : ¬ x = c := fun e => h.1 e.symm
    have ih' := ih h.2
    simp only [afterFirst] at ih' ⊢
    simp [List.dropWhile_cons, hx, ih']

theorem split_at_first (c : Char) (s : Str) (h : c ∈ s) :
    s = beforeFirst c s ++ c :: afterFirst c s ∧ c ∉ beforeFirst c s := by
  induction s with
  | nil => simp at h
  | cons x xs ih =>
    by_cases hx : x = c
    · subst hx
      simp [beforeFirst, afterFirst, List.takeWhile_cons, List.dropWhile_cons]
    · have hm : c ∈ xs := by
        rcases List.mem_cons.mp h with h' | h'
        · exact absurd h'.symm hx
        · exact h'
      obtain ⟨h1, h2⟩ := ih hm
      simp only [beforeFirst, afterFirst] at h1 h2 ⊢
      have hc : ¬ c = x := fun e => hx e.symm
      constructor
      · simp only [List.takeWhile_cons, List.dropWhile_cons, bne_iff_ne, ne_eq, hx,
          not_false_eq_true, decide_True, if_true, List.cons_append, List.cons.injEq, true_and]
        exact h1
      · simp only [List.takeWhile_cons, bne_iff_ne, ne_eq, hx, not_false_eq_true, decide_True,
          if_true, List.mem_cons, not_or]
        exact ⟨hc, h2⟩

/-- The split `SplitN(s, c, 2)`: part 0 is the text before the first `c`. -/
theorem SplitN2_head (c : Char) (s : Str) : (SplitN2 c s).headD [] = beforeFirst c s := by
  by_cases h : c ∈ s
  · obtain ⟨h1, h2⟩ := split_at_first c s h
    have hc := cut_first c _ (afterFirst c s) h2
    rw [← h1] at hc
    simp [SplitN2, hc]
  · simp [SplitN2, cut_of_not_mem c s h, beforeFirst_of_not_mem c s h]

/-- The split `SplitN(s, c, 2)`: part 1, when there is one, is the text after the first
`c`; there is none exactly when `c` does not occur. -/
theorem SplitN2_second (c : Char) (s : Str) :
    (SplitN2 c s).getD 1 [] = afterFirst c s
      ∧ ((SplitN2 c s).length > 1 ↔ c ∈ s) := by
  by_cases h : c ∈ s
  · obtain ⟨h1, h2⟩ := split_at_first c s h
    have hc := cut_first c _ (afterFirst c s) h2
    rw [← h1] at hc
    simp [SplitN2, hc, h]
  · simp [SplitN2, cut_of_not_mem c s h, afterFirst_of_not_mem c s h, h]

theorem TrimSpace_nil : TrimSpace [] = [] := rfl

theorem mkTestCase_eq (caseStr : Str) :
    mkTestCase caseStr
      = { Name := TrimSpace (beforeFirst '-' caseStr),
          Description := TrimSpace (afterFirst '-' caseStr),
          Input := [], Expected := [], Steps := [] } := by
  obtain ⟨h1, h2⟩ := SplitN2_second '-' caseStr
  unfold mkTestCase
  simp only [SplitN2_head, h1]
  by_cases h : '-' ∈ caseStr
  · simp [h2.mpr h]
  · have hl : ¬ (SplitN2 '-' caseStr).length > 1 := fun hx => h (h2.mp hx)
    simp [hl, afterFirst_of_not_mem '-' caseStr h, TrimSpace_nil]

theorem mkStep_eq (stepStr : Str) :
    mkStep stepStr
      = { Action := TrimSpace (beforeFirst '-' stepStr), Description := [],
          Expected := TrimSpace (afterFirst '-' stepStr) } := by
  obtain ⟨h1, h2⟩ := SplitN2_second '-' stepStr
  unfold mkStep
  simp only [SplitN2_head, h1]
  by_cases h : '-' ∈ stepStr
  · simp [h2.mpr h]
  · have hl : ¬ (SplitN2 '-' stepStr).length > 1 := fun hx => h (h2.mp hx)
    simp [hl, afterFirst_of_not_mem '-' stepStr h, TrimSpace_nil]

theorem appendStep_last (cs : List TestCase) (c : TestCase) (step : Step) :
    appendStep (cs ++ [c]) step = cs ++ [{ c with Steps := c.Steps ++ [step] }] := by
  induction cs with
  | nil => rfl
  | cons d ds ih =>
    cases ds with
    | nil => rfl
    | cons e es =>
      simp only [List.cons_append] at ih ⊢
      simp only [appendStep, ih]

/-- C7: on a record without test cases, a line beginning with `@step:` leaves the record
unchanged: no step is stored and no test case is created. -/
theorem C7_step_before_testcase_dropped (ti : TestInfo) (line : Str)
    (hline : HasPrefix line "@step:".toList = true) (hcases : ti.TestCases = []) :
    parseAnnotation line ti = ti := by
  obtain ⟨payload, rfl⟩ := (HasPrefix_iff line _).mp hline
  rw [parseAnnotation_step, hcases]
  rfl

theorem C7_step_before_testcase_dropped_witness :
    HasPrefix "@step: Enter credentials - form accepts input".toList "@step:".toList = true
      ∧ (newTestInfo "TestLogin".toList "a_test.go".toList 7 "pkg".toList).TestCases = []
      ∧ parseAnnotation "@step: Enter credentials - form accepts input".toList
          (newTestInfo "TestLogin".toList "a_test.go".toList 7 "pkg".toList)
        = newTestInfo "TestLogin".toList "a_test.go".toList 7 "pkg".toList :=
  ⟨by decide, by decide,
    C7_step_before_testcase_dropped _ _ (by decide) (by decide)⟩

/-- C8: the payload of a `@testcase:` (resp. `@step:`) line is split at its first hyphen
only.  `Name` (resp. `Action`) is the trimmed text before the first hyphen of the trimmed
payload and `Description` (resp. `Expected`) the trimmed text after it, later hyphens
included; without a hyphen the former is the trimmed payload and the latter is empty. -/
theorem C8_split_at_first_hyphen (ti : TestInfo) (payload : Str) (cs : List TestCase)
    (c : TestCase) :
    parseAnnotation ("@testcase:".toList ++ payload) ti
        = { ti with TestCases := ti.TestCases ++
              [{ Name := TrimSpace (beforeFirst '-' (TrimSpace payload)),
                 Description := TrimSpace (afterFirst '-' (TrimSpace payload)),
                 Input := [], Expected := [], Steps := [] }] }
      ∧ parseAnnotation ("@step:".toList ++ payload) { ti with TestCases := cs ++ [c] }
        = { ti with TestCases := cs ++
              [{ c with Steps := c.Steps ++
                  [{ Action := TrimSpace (beforeFirst '-' (TrimSpace payload)),
                     Description := [],
                     Expected := TrimSpace (afterFirst '-' (TrimSpace payload)) }] }] }
      ∧ (∀ before after, TrimSpace payload = before ++ '-' :: after → '-' ∉ before →
          beforeFirst '-' (TrimSpace payload) = before
            ∧ afterFirst '-' (TrimSpace payload) = after)
      ∧ ('-' ∉ TrimSpace payload →
          TrimSpace (beforeFirst '-' (TrimSpace payload)) = TrimSpace payload
            ∧ TrimSpace (afterFirst '-' (TrimSpace payload)) = []) := by
  refine ⟨?_, ?_, ?_, ?_⟩
  · rw [parseAnnotation_testcase, mkTestCase_eq]
  · rw [parseAnnotation_step, mkStep_eq]
    simp [appendStep_last]
  · intro before after heq hnot
    rw [heq]
    exact ⟨beforeFirst_append '-' before after hnot, afterFirst_append '-' before after hnot⟩
  · intro hnot
    rw [beforeFirst_of_not_mem _ _ hnot, afterFirst_of_not_mem _ _ hnot, TrimSpace_idem]
    exact ⟨rfl, rfl⟩

theorem C8_split_at_first_hyphen_witness :
    ( parseAnnotation "@testcase: Test name - first - second".toList
        (newTestInfo [] [] 0 [])).TestCases
      = [{ Name := "Test name".toList, Description := "first - second".toList,
           Input := [], Expected := [], Steps := [] }] := by
  have h := (C8_split_at_first_hyphen (newTestInfo [] [] 0 [])
    " Test name - first - second".toList [] (caseOfLine [])).1
  have e : "@testcase: Test name - first - second".toList
      = "@testcase:".toList ++ " Test name - first - second".toList := by decide
  rw [e, h]
  decide

theorem intercalate_one (c : Char) (p : Str) : [c].intercalate [p] = p := by
  simp [List.intercalate, List.intersperse]

theorem intercalate_more (c : Char) (p q : Str) (qs : List Str) :
    [c].intercalate (p :: q :: qs) = p ++ c :: [c].intercalate (q :: qs) := by
  simp [List.intercalate, List.intersperse]

theorem intercalate_cons_head (c x : Char) (p : Str) (ps : List Str) :
    [c].intercalate ((x :: p) :: ps) = x :: [c].intercalate (p :: ps) := by
  cases ps with
  | nil => rw [intercalate_one, intercalate_one]
  | cons q qs => rw [intercalate_more, intercalate_more]; rfl

theorem intercalate_Split (c : Char) (s : Str) : [c].intercalate (Split c s) = s := by
  induction s with
  | nil => simp [Split, List.intercalate, List.intersperse]
  | cons x xs ih =>
    cases hs : Split c xs with
    | nil => exact absurd hs (Split_ne_nil c xs)
    | cons p ps =>
      rw [hs] at ih
      by_cases hx : x = c
      · subst hx
        simp only [Split, if_true, hs]
        rw [intercalate_more, ih]
        rfl
      · simp only [Split, hx, if_false, hs]
        rw [intercalate_cons_head, ih]

theorem not_mem_of_mem_Split (c : Char) (s : Str) :
    ∀ p, p ∈ Split c s → c ∉ p := by
  induction s with
  | nil => simp [Split]
  | cons x xs ih =>
    cases hs : Split c xs with
    | nil => exact absurd hs (Split_ne_nil c xs)
    | cons q qs =>
      rw [hs] at ih
      by_cases hx : x = c
      · subst hx
        simp only [Split, if_true, hs]
        intro p hp
        rcases List.mem_cons.mp hp with h | h
        · subst h; simp
        · exact ih p h
      · simp only [Split, hx, if_false, hs]
        intro p hp
        rcases List.mem_cons.mp hp with h | h
        · subst h
          have hq := ih q (List.mem_cons_self _ _)
          simp only [List.mem_cons, not_or]
          exact ⟨fun e => hx e.symm, hq⟩
        · exact ih p (List.mem_cons_of_mem _ h)

/-- The model of `strings.Split` agrees with the library function `List.splitOn`. -/
theorem Split_eq_splitOn (c : Char) (s : Str) : Split c s = s.splitOn c := by
  have h := List.splitOn_intercalate (Split c s) c (not_mem_of_mem_Split c s) (Split_ne_nil c s)
  rw [intercalate_Split] at h
  exact h.symm

/-- C9: a `@tags:` line appends, after the tags already present, the comma-separated
pieces of its trimmed payload, each trimmed, in payload order and duplicates included; no
other field changes. -/
theorem C9_tags_appended (ti : TestInfo) (payload : Str) :
    parseAnnotation ("@tags:".toList ++ payload) ti
      = { ti with Tags := ti.Tags ++ ((TrimSpace payload).splitOn ',').map TrimSpace } := by
  rw [parseAnnotation_tags, foldl_tags]
  rw [Split_eq_splitOn]

/-- C10: a line that starts with `@`, contains a colon and starts with none of the seven
recognised prefixes stores one `Metadata` entry.  Its key is the text before the first colon
without the leading `@`, trimmed; its value is the trimmed text after the first colon.  Every
other key of `Metadata` and every other field of the record is unchanged. -/
theorem C10_other_annotation_is_metadata (ti : TestInfo) (line : Str)
    (hat : HasPrefix line "@".toList = true) (hcolon : Contains line ':' = true)
    (hother : ∀ p, p ∈ recognisedPrefixes → HasPrefix line p = false) :
    parseAnnotation line ti
        = { ti with Metadata := (GoMap.set ti.Metadata
              (TrimSpace ((beforeFirst ':' line).drop 1)) (TrimSpace (afterFirst ':' line))) }
      ∧ ∀ k, ( parseAnnotation line ti).Metadata.get? k
          = if TrimSpace ((beforeFirst ':' line).drop 1) = k
            then some (TrimSpace (afterFirst ':' line)) else ti.Metadata.get? k := by
  have h1 := hother "@type:".toList (by simp [recognisedPrefixes])
  have h2 := hother "@author:".toList (by simp [recognisedPrefixes])
  have h3 := hother "@tags:".toList (by simp [recognisedPrefixes])
  have h4 := hother "@testcase:".toList (by simp [recognisedPrefixes])
  have h5 := hother "@step:".toList (by simp [recognisedPrefixes])
  have h6 := hother "@created:".toList (by simp [recognisedPrefixes])
  have h7 := hother "@updated:".toList (by simp [recognisedPrefixes])
  have hkey : TrimPrefix (beforeFirst ':' line) "@".toList = (beforeFirst ':' line).drop 1 := by
    obtain ⟨rest, rfl⟩ := (HasPrefix_iff line _).mp hat
    simp [TrimPrefix, HasPrefix, beforeFirst, List.takeWhile_cons, List.isPrefixOf]
  have hmain : parseAnnotation line ti
      = { ti with Metadata := (GoMap.set ti.Metadata
            (TrimSpace ((beforeFirst ':' line).drop 1)) (TrimSpace (afterFirst ':' line))) } := by
    unfold parseAnnotation
    rw [if_neg (by rw [h1]; decide), if_neg (by rw [h2]; decide), if_neg (by rw [h3]; decide),
      if_neg (by rw [h4]; decide), if_neg (by rw [h5]; decide), if_neg (by rw [h6]; decide),
      if_neg (by rw [h7]; decide), if_pos hcolon]
    simp only [SplitN2_head, (SplitN2_second ':' line).1, hkey]
  refine ⟨hmain, ?_⟩
  intro k
  rw [hmain]
  exact get?_set _ _ _ _

theorem C10_other_annotation_is_metadata_witness :
    HasPrefix "@priority: high: urgent".toList "@".toList = true
      ∧ Contains "@priority: high: urgent".toList ':' = true
      ∧ (∀ p, p ∈ recognisedPrefixes → HasPrefix "@priority: high: urgent".toList p = false)
      ∧ parseAnnotation "@priority: high: urgent".toList (newTestInfo [] [] 0 [])
        = { newTestInfo [] [] 0 [] with
            Metadata := [("priority".toList, "high: urgent".toList)] } := by
  have hother : ∀ p, p ∈ recognisedPrefixes →
      HasPrefix "@priority: high: urgent".toList p = false := by decide
  refine ⟨by decide, by decide, hother, ?_⟩
  rw [(C10_other_annotation_is_metadata (newTestInfo [] [] 0 [])
    "@priority: high: urgent".toList (by decide) (by decide) hother).1]
  decide

/-! ## Test cases and steps of a comment block -/

theorem parseAnnotation_TestCases (line : Str) (ti : TestInfo) :
    ( parseAnnotation line ti).TestCases = casesAfterLine line ti.TestCases := by
  by_cases h1 : HasPrefix line "@type:".toList = true
  · obtain ⟨r, rfl⟩ := (HasPrefix_iff line _).mp h1
    simp [ parseAnnotation, casesAfterLine, isCaseLine, isStepLine, HasPrefix, List.isPrefixOf]
  by_cases h2 : HasPrefix line "@author:".toList = true
  · obtain ⟨r, rfl⟩ := (HasPrefix_iff line _).mp h2
    simp [ parseAnnotation, casesAfterLine, isCaseLine, isStepLine, HasPrefix, List.isPrefixOf]
  by_cases h3 : HasPrefix line "@tags:".toList = true
  · obtain ⟨r, rfl⟩ := (HasPrefix_iff line _).mp h3
    rw [parseAnnotation_tags, foldl_tags]
    simp [casesAfterLine, isCaseLine, isStepLine, HasPrefix, List.isPrefixOf]
  by_cases h4 : HasPrefix line "@testcase:".toList = true
  · obtain ⟨r, rfl⟩ := (HasPrefix_iff line _).mp h4
    rw [parseAnnotation_testcase]
    simp [casesAfterLine, isCaseLine, caseOfLine, HasPrefix, TrimPrefix, List.isPrefixOf]
  by_cases h5 : HasPrefix line "@step:".toList = true
  · obtain ⟨r, rfl⟩ := (HasPrefix_iff line _).mp h5
    rw [parseAnnotation_step]
    cases hc : ti.TestCases with
    | nil =>
      simp [casesAfterLine, isCaseLine, isStepLine, HasPrefix, List.isPrefixOf, hc, appendStep]
    | cons c cs =>
      simp [casesAfterLine, isCaseLine, isStepLine, stepOfLine, HasPrefix, TrimPrefix,
        List.isPrefixOf]
  have hcase : isCaseLine line = false := by simpa [isCaseLine] using h4
  have hstep : isStepLine line = false := by simpa [isStepLine] using h5
  have hrhs : casesAfterLine line ti.TestCases = ti.TestCases := by
    simp [casesAfterLine, hcase, hstep]
  rw [hrhs]
  unfold parseAnnotation
  rw [if_neg h1, if_neg h2, if_neg h3, if_neg h4, if_neg h5]
  split
  · dsimp only
    cases timeParse (TrimSpace (TrimPrefix line "@created:".toList)) <;> rfl
  · split
    · dsimp only
      cases timeParse (TrimSpace (TrimPrefix line "@updated:".toList)) <;> rfl
    · split <;> rfl

theorem not_caseLine_of_not_at (line : Str) (h : ¬ HasPrefix line "@".toList = true) :
    isCaseLine line = false ∧ isStepLine line = false := by
  constructor
  · cases hc : isCaseLine line with
    | false => rfl
    | true =>
      obtain ⟨r, rfl⟩ := (HasPrefix_iff line _).mp hc
      exact absurd (by simp [HasPrefix, List.isPrefixOf]) h
  · cases hc : isStepLine line with
    | false => rfl
    | true =>
      obtain ⟨r, rfl⟩ := (HasPrefix_iff line _).mp hc
      exact absurd (by simp [HasPrefix, List.isPrefixOf]) h

theorem docStep_TestCases (state : Str × TestInfo) (text : Str) :
    (docStep state text).2.TestCases = casesAfterLine (cleanLine text) state.2.TestCases := by
  unfold docStep
  dsimp only
  by_cases h0 : cleanLine text = []
  · rw [if_pos h0, h0]
    rfl
  · rw [if_neg h0]
    by_cases hat : HasPrefix (cleanLine text) "@".toList = true
    · rw [if_pos hat]
      exact parseAnnotation_TestCases _ _
    · rw [if_neg hat]
      obtain ⟨h1, h2⟩ := not_caseLine_of_not_at _ hat
      simp [casesAfterLine, h1, h2]

theorem foldl_docStep_TestCases (docGroup : List Str) (state : Str × TestInfo) :
    (docGroup.foldl docStep state).2.TestCases
      = (docGroup.map cleanLine).foldl (fun cs line => casesAfterLine line cs)
          state.2.TestCases := by
  induction docGroup generalizing state with
  | nil => rfl
  | cons text rest ih =>
    rw [List.foldl_cons, ih, docStep_TestCases]
    rfl

theorem foldl_appendStep_last (steps : List Step) (cs : List TestCase) (c : TestCase) :
    steps.foldl appendStep (cs ++ [c]) = cs ++ [{ c with Steps := c.Steps ++ steps }] := by
  induction steps generalizing c with
  | nil => simp
  | cons s ss ih =>
    rw [List.foldl_cons, appendStep_last, ih]
    simp

theorem caseOfLine_steps (line : Str) : (caseOfLine line).Steps = [] := by
  simp [caseOfLine, mkTestCase_eq]

/-- The loop over the lines, started with the cases `cs`: the steps met before the next
`@testcase:` line go to the last case of `cs`, and the remaining lines declare
`specCases`. -/
theorem foldl_casesAfterLine (lines : List Str) (cs : List TestCase) :
    lines.foldl (fun cs line => casesAfterLine line cs) cs
      = (stepsAfter lines).foldl appendStep cs ++ specCases lines := by
  induction lines generalizing cs with
  | nil => simp [stepsAfter, specCases]
  | cons line rest ih =>
    rw [List.foldl_cons, ih]
    by_cases hc : isCaseLine line = true
    · have h1 : casesAfterLine line cs = cs ++ [caseOfLine line] := by
        simp [casesAfterLine, hc]
      have h2 : stepsAfter (line :: rest) = [] := by
        simp [stepsAfter, List.takeWhile_cons, hc]
      have h3 : specCases (line :: rest)
          = { caseOfLine line with Steps := stepsAfter rest } :: specCases rest := by
        simp [specCases, hc]
      rw [h1, h2, h3, foldl_appendStep_last, caseOfLine_steps]
      simp
    · by_cases hs : isStepLine line = true
      · have h1 : casesAfterLine line cs = appendStep cs (stepOfLine line) := by
          simp [casesAfterLine, hc, hs]
        have h2 : stepsAfter (line :: rest) = stepOfLine line :: stepsAfter rest := by
          simp [stepsAfter, List.takeWhile_cons, hc, hs, List.filter_cons]
        have h3 : specCases (line :: rest) = specCases rest := by
          simp [specCases, hc]
        rw [h1, h2, h3, List.foldl_cons]
      · have h1 : casesAfterLine line cs = cs := by
          simp [casesAfterLine, hc, hs]
        have h2 : stepsAfter (line :: rest) = stepsAfter rest := by
          simp [stepsAfter, List.takeWhile_cons, hc, hs, List.filter_cons]
        have h3 : specCases (line :: rest) = specCases rest := by
          simp [specCases, hc]
        rw [h1, h2, h3]

theorem foldl_appendStep_nil (steps : List Step) : steps.foldl appendStep [] = [] := by
  induction steps with
  | nil => rfl
  | cons s ss ih => rw [List.foldl_cons]; exact ih

/-- C6, as stated, fails on a block comment.  The comment `exampleLoginBlock` has the
source lines `@testcase: Login - verifies login` and `@step: Enter credentials - form
accepts input`, but it is one comment, and `parseDocComments` handles it as one line: the
record gets one case whose `Description` holds the text of the step line, and no step. -/
theorem C6_block_comment_counterexample :
    exampleLoginBlock.map (Split '\n')
        = [["/*".toList, "@testcase: Login - verifies login".toList,
            "@step: Enter credentials - form accepts input".toList, "*/".toList]]
      ∧ (parseDocComments exampleLoginBlock
            (newTestInfo "TestLogin".toList "login_test.go".toList 12 "auth".toList)).TestCases
          = [{ Name := "Login".toList,
               Description :=
                 "verifies login\n@step: Enter credentials - form accepts input".toList,
               Input := [], Expected := [], Steps := [] }] := by
  decide

/-- C6, amended: a line is the text of one comment of the group, cleaned: one source line
for a `//` comment, the whole comment with the line breaks it holds for a `/* */` comment.
Started on a record without test cases, `parseDocComments` leaves in `TestCases` one case
per `@testcase:` line, in line order, each holding the steps of the `@step:` lines that
follow it up to the next `@testcase:` line, in line order; the `Login` block of two `//`
comments yields the single case `Login` / `verifies login` with the single step `Enter
credentials` / `form accepts input`. -/
theorem C6_testcases_and_steps (docGroup : List Str) (ti : TestInfo)
    (hempty : ti.TestCases = []) :
    (parseDocComments docGroup ti).TestCases = specCases (docGroup.map cleanLine)
      ∧ (parseDocComments exampleLogin
            (newTestInfo "TestLogin".toList "login_test.go".toList 12 "auth".toList)).TestCases
        = [{ Name := "Login".toList, Description := "verifies login".toList,
             Input := [], Expected := [],
             Steps := [{ Action := "Enter credentials".toList, Description := [],
                         Expected := "form accepts input".toList }] }] := by
  constructor
  · have h : (parseDocComments docGroup ti).TestCases
        = (docGroup.foldl docStep ([], ti)).2.TestCases := rfl
    rw [h, foldl_docStep_TestCases, foldl_casesAfterLine]
    simp only [hempty, foldl_appendStep_nil, List.nil_append]
  · decide

theorem C6_testcases_and_steps_witness :
    (newTestInfo "TestLogin".toList "login_test.go".toList 12 "auth".toList).TestCases = []
      ∧ (parseDocComments exampleLogin
            (newTestInfo "TestLogin".toList "login_test.go".toList 12 "auth".toList)).TestCases
          = specCases (exampleLogin.map cleanLine) :=
  ⟨by decide,
    (C6_testcases_and_steps exampleLogin
      (newTestInfo "TestLogin".toList "login_test.go".toList 12 "auth".toList)
      (by decide)).1⟩

/-! ## The statistics do not depend on the order in which a map is visited -/

theorem get?_incr (d : GoMap Int) (k t : TestType) :
    GoMap.get? (incr d k) t
      = if k = t then some ((GoMap.get? d k).getD 0 + 1) else GoMap.get? d t := by
  unfold incr
  exact get?_set d k t _

theorem foldl_statsTest_full (ts : List TestInfo) (s : Statistics) :
    (ts.foldl statsTest s).SkippedTests
        = s.SkippedTests + (ts.countP (fun x => x.Skipped) : Nat)
      ∧ (ts.foldl statsTest s).ActiveTests
        = s.ActiveTests + (ts.countP (fun x => !x.Skipped) : Nat)
      ∧ ∀ t, GoMap.get? (ts.foldl statsTest s).TypeDistribution t
          = if ts.countP (fun x => decide (x.Type_ = t)) = 0
            then GoMap.get? s.TypeDistribution t
            else some ((GoMap.get? s.TypeDistribution t).getD 0
                  + (ts.countP (fun x => decide (x.Type_ = t)) : Nat)) := by
  induction ts generalizing s with
  | nil => simp
  | cons x xs ih =>
    obtain ⟨h1, h2, h3⟩ := ih (statsTest s x)
    rw [List.foldl_cons]
    refine ⟨?_, ?_, ?_⟩
    · rw [h1]
      cases hx : x.Skipped <;> (simp [statsTest, hx, List.countP_cons]; try ring)
    · rw [h2]
      cases hx : x.Skipped <;> (simp [statsTest, hx, List.countP_cons]; try ring)
    · intro t
      rw [h3 t]
      have hd : (statsTest s x).TypeDistribution = incr s.TypeDistribution x.Type_ := by
        cases hx : x.Skipped <;> simp [statsTest, hx]
      rw [hd, get?_incr]
      by_cases hxt : x.Type_ = t
      · subst hxt
        by_cases h0 : xs.countP (fun y => decide (y.Type_ = x.Type_)) = 0
        · simp [List.countP_cons, h0]
        · simp only [List.countP_cons, h0, if_false, decide_True, if_true, Option.getD_some,
            Nat.add_eq_zero, one_ne_zero, and_false]
          congr 1
          push_cast
          ring
      · simp [List.countP_cons, hxt]

theorem foldl_statsPackage_full (m : GoMap PackageInfo) (s : Statistics) :
    (m.values.foldl statsPackage s).SkippedTests
        = s.SkippedTests + ((allTests m).countP (fun x => x.Skipped) : Nat)
      ∧ (m.values.foldl statsPackage s).ActiveTests
        = s.ActiveTests + ((allTests m).countP (fun x => !x.Skipped) : Nat)
      ∧ ∀ t, GoMap.get? (m.values.foldl statsPackage s).TypeDistribution t
          = if (allTests m).countP (fun x => decide (x.Type_ = t)) = 0
            then GoMap.get? s.TypeDistribution t
            else some ((GoMap.get? s.TypeDistribution t).getD 0
                  + ((allTests m).countP (fun x => decide (x.Type_ = t)) : Nat)) := by
  induction m generalizing s with
  | nil => simp [GoMap.values, allTests]
  | cons e rest ih =>
    obtain ⟨k, p⟩ := e
    simp only [GoMap.values, List.map_cons, List.foldl_cons] at ih ⊢
    obtain ⟨h1, h2, h3⟩ := ih (statsPackage s p)
    obtain ⟨g1, g2, g3⟩ :=
      foldl_statsTest_full p.Tests { s with PackageCount := s.PackageCount + 1 }
    refine ⟨?_, ?_, ?_⟩
    · rw [h1]
      simp only [statsPackage, g1, allTests, List.countP_append]
      push_cast; ring
    · rw [h2]
      simp only [statsPackage, g2, allTests, List.countP_append]
      push_cast; ring
    · intro t
      rw [h3 t]
      simp only [statsPackage, g3 t, allTests, List.countP_append]
      by_cases ha : p.Tests.countP (fun x => decide (x.Type_ = t)) = 0
      · by_cases hb : (allTests rest).countP (fun x => decide (x.Type_ = t)) = 0
        · simp [ha, hb]
        · simp [ha, hb]
      · by_cases hb : (allTests rest).countP (fun x => decide (x.Type_ = t)) = 0
        · simp [ha, hb]
        · simp only [ha, hb, if_false, Option.getD_some, Nat.add_eq_zero, and_self]
          congr 1
          push_cast; ring

theorem allTests_perm (m m' : GoMap PackageInfo) (h : m.Perm m') :
    (allTests m).Perm (allTests m') := by
  induction h with
  | nil => exact List.Perm.refl _
  | cons x _ ih => exact List.Perm.append_left _ ih
  | swap x y l =>
    simp only [allTests]
    exact List.perm_append_comm_assoc _ _ _
  | trans _ _ ih1 ih2 => exact ih1.trans ih2

/-- The statistics computed by `CalculateStats` are the same for every order in which the
`Packages` map is visited: the four counters agree, and so does every entry of the type
distribution. -/
theorem CalculateStats_order_irrelevant (pr pr' : ParseResult)
    (h : pr.Packages.Perm pr'.Packages) :
    (CalculateStats pr).Stats.TotalTests = (CalculateStats pr').Stats.TotalTests
      ∧ (CalculateStats pr).Stats.ActiveTests = (CalculateStats pr').Stats.ActiveTests
      ∧ (CalculateStats pr).Stats.SkippedTests = (CalculateStats pr').Stats.SkippedTests
      ∧ (CalculateStats pr).Stats.PackageCount = (CalculateStats pr').Stats.PackageCount
      ∧ ∀ t, GoMap.get? (CalculateStats pr).Stats.TypeDistribution t
          = GoMap.get? (CalculateStats pr').Stats.TypeDistribution t := by
  have hp := allTests_perm _ _ h
  obtain ⟨a1, a2⟩ := CalculateStats_counts pr
  obtain ⟨b1, b2⟩ := CalculateStats_counts pr'
  obtain ⟨c1, c2, c3⟩ := foldl_statsPackage_full pr.Packages emptyStats
  obtain ⟨d1, d2, d3⟩ := foldl_statsPackage_full pr'.Packages emptyStats
  refine ⟨?_, ?_, ?_, ?_, ?_⟩
  · rw [a1, b1, hp.length_eq]
  · simp only [CalculateStats]
    rw [c2, d2, hp.countP_eq]
  · simp only [CalculateStats]
    rw [c1, d1, hp.countP_eq]
  · rw [a2, b2, h.length_eq]
  · intro t
    simp only [CalculateStats]
    rw [c3 t, d3 t, hp.countP_eq]

/-- Whatever the order in which the second call visits the map built by `ByTags m S`, it
rebuilds that map entry for entry. -/
theorem ByTags_fixed_any_order (m : ParseResult) (S : List Str) (r : GoMap PackageInfo)
    (st : Statistics) (h : r.Perm (ByTags m S).Packages) :
    (ByTags { Packages := r, Stats := st } S).Packages = r := by
  have hinv := foldl_passEntry_inv (selectPkg (fun t => hasAnyTag t.Tags S))
    (fun q => selectPkg (fun t => hasAnyTag t.Tags S) q = q ∧ q.Tests.length > 0)
    (fun p hp => ⟨selectPkg_idem _ p, hp⟩) m.Packages []
    ⟨by simp [GoMap.WF, GoMap.keys], by simp⟩
  have hP : (ByTags m S).Packages
      = m.Packages.foldl (passEntry (selectPkg (fun t => hasAnyTag t.Tags S))) [] := by
    simp only [ByTags, CalculateStats, byTagsPackage_eq]
  rw [hP] at h
  have hwf : GoMap.WF r := (List.Perm.nodup_iff (List.Perm.map Prod.fst h)).mpr hinv.1
  have hQ : ∀ e, e ∈ r →
      selectPkg (fun t => hasAnyTag t.Tags S) e.2 = e.2 ∧ e.2.Tests.length > 0 :=
    fun e he => hinv.2 e (h.subset he)
  simp only [ByTags, CalculateStats, byTagsPackage_eq]
  rw [foldl_passEntry _ _ _ (by simpa [GoMap.keys] using hwf)]
  simp only [List.nil_append]
  exact filterMap_selectEntry_fixed _ _ hQ

/-! ## The description of a record -/

theorem intercalate_snoc (c : Char) (ls : List Str) (l : Str) (hne : ls ≠ []) :
    [c].intercalate (ls ++ [l]) = [c].intercalate ls ++ c :: l := by
  induction ls with
  | nil => exact absurd rfl hne
  | cons p ps ih =>
    cases ps with
    | nil =>
      simp only [List.cons_append, List.nil_append]
      rw [intercalate_more, intercalate_one, intercalate_one]
    | cons q qs =>
      have h := ih (by simp)
      simp only [List.cons_append] at h ⊢
      rw [intercalate_more, intercalate_more, h]
      simp

theorem intercalate_eq_nil (c : Char) (ls : List Str) (h : ∀ l, l ∈ ls → l ≠ []) :
    [c].intercalate ls = [] ↔ ls = [] := by
  constructor
  · intro he
    cases ls with
    | nil => rfl
    | cons p ps =>
      exfalso
      have hp := h p (List.mem_cons_self _ _)
      cases ps with
      | nil =>
        rw [intercalate_one] at he
        exact hp he
      | cons q qs =>
        rw [intercalate_more] at he
        cases p with
        | nil => exact hp rfl
        | cons x xs => simp at he
  · intro he
    rw [he]
    rfl

/-- The accumulator of `parseDocComments`: started on the join of the lines `ls`, the loop
ends on the join of `ls` followed by the description lines of the group. -/
theorem foldl_docStep_fst (docGroup : List Str) (ls : List Str) (ti : TestInfo)
    (hls : ∀ l, l ∈ ls → l ≠ []) :
    (docGroup.foldl docStep ([' '].intercalate ls, ti)).1
      = [' '].intercalate (ls ++ descLines docGroup) := by
  induction docGroup generalizing ls ti with
  | nil => simp [descLines]
  | cons text rest ih =>
    rw [List.foldl_cons]
    by_cases h0 : cleanLine text = []
    · have hs : docStep ([' '].intercalate ls, ti) text = ([' '].intercalate ls, ti) := by
        simp [docStep, h0]
      have hd : descLines (text :: rest) = descLines rest := by
        simp [descLines, List.filter_cons, h0]
      rw [hs, hd]
      exact ih ls ti hls
    · by_cases hat : HasPrefix (cleanLine text) "@".toList = true
      · have hs : docStep ([' '].intercalate ls, ti) text
            = ([' '].intercalate ls, parseAnnotation (cleanLine text) ti) := by
          simp only [docStep, h0, if_false, hat, if_true]
        have hd : descLines (text :: rest) = descLines rest := by
          simp only [descLines, List.map_cons, List.filter_cons, hat]
          simp
        rw [hs, hd]
        exact ih ls _ hls
      · have hat' : HasPrefix (cleanLine text) "@".toList = false := by
          cases hb : HasPrefix (cleanLine text) "@".toList with
          | false => rfl
          | true => exact absurd hb hat
        have hd : descLines (text :: rest) = cleanLine text :: descLines rest := by
          simp only [descLines, List.map_cons, List.filter_cons, hat']
          simp [h0]
        have hs : docStep ([' '].intercalate ls, ti) text
            = ([' '].intercalate (ls ++ [cleanLine text]), ti) := by
          simp only [docStep, h0, if_false, hat]
          by_cases hl : ls = []
          · subst hl
            simp [List.intercalate, List.intersperse]
          · have hne : ¬ [' '].intercalate ls = [] :=
              fun he => hl ((intercalate_eq_nil ' ' ls hls).mp he)
            rw [intercalate_snoc ' ' ls _ hl]
            simp [hne]
        rw [hs, hd]
        have hls' : ∀ l, l ∈ ls ++ [cleanLine text] → l ≠ [] := by
          intro l hl
          rcases List.mem_append.mp hl with h | h
          · exact hls l h
          · rw [List.mem_singleton.mp h]; exact h0
        rw [ih (ls ++ [cleanLine text]) ti hls']
        simp

/-- C11, as stated, fails on a block comment.  The comment `exampleDescBlock` has the
source line `@type: integration` between two lines of free text, but it is one comment,
and `parseDocComments` handles it as one line that does not begin with `@`: the
`Description` holds the three lines, the `@type:` line included, separated by line breaks
and not by spaces, and `Type` is not set. -/
theorem C11_block_comment_counterexample :
    exampleDescBlock.map (Split '\n')
        = [["/*".toList, "TestLogin checks the login".toList, "@type: integration".toList,
            "form".toList, "*/".toList]]
      ∧ (parseDocComments exampleDescBlock
            (newTestInfo "TestLogin".toList "login_test.go".toList 12 "auth".toList)).Description
          = "TestLogin checks the login\n@type: integration\nform".toList
      ∧ (parseDocComments exampleDescBlock
            (newTestInfo "TestLogin".toList "login_test.go".toList 12 "auth".toList)).Description
          ≠ "TestLogin checks the login form".toList
      ∧ (parseDocComments exampleDescBlock
            (newTestInfo "TestLogin".toList "login_test.go".toList 12 "auth".toList)).Type_
          = [] := by
  decide

/-- C11, amended: a line is the text of one comment of the group, cleaned: one source line
for a `//` comment, the whole comment with the line breaks it holds for a `/* */` comment.
The `Description` left by `parseDocComments` is the join, with single spaces and in the
original order, of the lines that are neither empty nor begin with `@`; a line with a
colon is joined like any other, and a line that begins with `@` is not. -/
theorem C11_description_joined (docGroup : List Str) (ti : TestInfo) :
    (parseDocComments docGroup ti).Description = [' '].intercalate (descLines docGroup)
      ∧ (parseDocComments
            ["// TestLogin checks: the login".toList, "// @priority: high".toList,
             "//".toList, "//   form ".toList]
            (newTestInfo "TestLogin".toList "login_test.go".toList 12 "auth".toList)).Description
          = "TestLogin checks: the login form".toList := by
  constructor
  · have h := foldl_docStep_fst docGroup [] ti (by simp)
    simp only [List.nil_append] at h
    have h0 : [' '].intercalate ([] : List Str) = [] := rfl
    rw [h0] at h
    exact h
  · decide

theorem C11_description_joined_witness :
    (parseDocComments ["// Checks the login".toList, "// @type: unit".toList,
        "// of a user: twice".toList] (newTestInfo [] [] 0 [])).Description
      = "Checks the login of a user: twice".toList :=
  (C11_description_joined ["// Checks the login".toList, "// @type: unit".toList,
    "// of a user: twice".toList] (newTestInfo [] [] 0 [])).1.trans (by decide)

/-! ## Dates and classification -/

theorem parseAnnotation_created (payload : Str) (ti : TestInfo) :
    parseAnnotation ("@created:".toList ++ payload) ti
      = match timeParse (TrimSpace payload) with
        | some date => { ti with Created := date }
        | none => ti := by
  simp [ parseAnnotation, HasPrefix, TrimPrefix, List.isPrefixOf]

theorem parseAnnotation_updated (payload : Str) (ti : TestInfo) :
    parseAnnotation ("@updated:".toList ++ payload) ti
      = match timeParse (TrimSpace payload) with
        | some date => { ti with Updated := date }
        | none => ti := by
  simp [ parseAnnotation, HasPrefix, TrimPrefix, List.isPrefixOf]

theorem parseAnnotation_type (payload : Str) (ti : TestInfo) :
    parseAnnotation ("@type:".toList ++ payload) ti
      = { ti with Type_ := TrimSpace payload } := by
  simp [ parseAnnotation, HasPrefix, TrimPrefix, List.isPrefixOf]

/-- C12, as stated, fails: on a record whose dates were set by earlier valid lines, a
`@created:` (resp. `@updated:`) line with an invalid date does not leave `Created` (resp.
`Updated`) at the zero value. -/
theorem C12_invalid_date_counterexample :
    timeParse (TrimSpace " 2024-02-30".toList) = none
      ∧ ( parseAnnotation "@created: 2024-02-30".toList exampleDated).Created ≠ Time.zero
      ∧ ( parseAnnotation "@updated: 2024-02-30".toList exampleDated).Updated ≠ Time.zero := by
  decide

/-- C12, amended: a `@created:` (resp. `@updated:`) line whose trimmed payload is not a
valid date leaves `Created` (resp. `Updated`) as it was; the field therefore stays at its
zero value when it held the zero value before the line. -/
theorem C12_invalid_date_keeps_field (ti : TestInfo) (payload : Str)
    (hbad : timeParse (TrimSpace payload) = none) :
    ( parseAnnotation ("@created:".toList ++ payload) ti).Created = ti.Created
      ∧ ( parseAnnotation ("@updated:".toList ++ payload) ti).Updated = ti.Updated
      ∧ (ti.Created = Time.zero →
          ( parseAnnotation ("@created:".toList ++ payload) ti).Created = Time.zero)
      ∧ (ti.Updated = Time.zero →
          ( parseAnnotation ("@updated:".toList ++ payload) ti).Updated = Time.zero) := by
  rw [parseAnnotation_created, parseAnnotation_updated, hbad]
  exact ⟨rfl, rfl, fun h => h, fun h => h⟩

theorem C12_invalid_date_keeps_field_witness :
    timeParse (TrimSpace " 15/01/2024".toList) = none
      ∧ ( parseAnnotation ("@created:".toList ++ " 15/01/2024".toList)
            (newTestInfo [] [] 0 [])).Created = Time.zero :=
  ⟨by decide,
    (C12_invalid_date_keeps_field (newTestInfo [] [] 0 []) " 15/01/2024".toList
      (by decide)).2.2.1 (by decide)⟩

theorem IsValid_iff (t : TestType) : IsValid t = true ↔ t ∈ GetSupportedTestTypes := by
  simp only [IsValid, GetSupportedTestTypes, Bool.or_eq_true, decide_eq_true_eq,
    List.mem_cons, List.mem_singleton, List.not_mem_nil, or_false, or_assoc]

/-- C13: a `@type:` line stores the trimmed payload as `Type`, letter for letter, and
changes no other field, `Metadata` included; a stored value outside the eight supported
classifications is reported invalid by `IsValid`. -/
theorem C13_type_stored_verbatim (ti : TestInfo) (payload : Str) :
    parseAnnotation ("@type:".toList ++ payload) ti = { ti with Type_ := TrimSpace payload }
      ∧ (IsValid ( parseAnnotation ("@type:".toList ++ payload) ti).Type_ = true
          ↔ TrimSpace payload ∈ GetSupportedTestTypes)
      ∧ parseAnnotation "@type: Integration:slow".toList (newTestInfo [] [] 0 [])
          = { newTestInfo [] [] 0 [] with Type_ := "Integration:slow".toList }
      ∧ IsValid "Integration:slow".toList = false
      ∧ IsValid "Integration".toList = false := by
  refine ⟨parseAnnotation_type payload ti, ?_, by decide, by decide, by decide⟩
  rw [parseAnnotation_type]
  exact IsValid_iff _

/-! ## What `CalculateStats` counts -/

theorem wf_incr (d : GoMap Int) (k : TestType) (h : GoMap.WF d) : GoMap.WF (incr d k) :=
  wf_set d k _ h

theorem foldl_statsTest_wf (ts : List TestInfo) (s : Statistics)
    (h : GoMap.WF s.TypeDistribution) : GoMap.WF (ts.foldl statsTest s).TypeDistribution := by
  induction ts generalizing s with
  | nil => exact h
  | cons x xs ih =>
    rw [List.foldl_cons]
    apply ih
    have hd : (statsTest s x).TypeDistribution = incr s.TypeDistribution x.Type_ := by
      cases hx : x.Skipped <;> simp [statsTest, hx]
    rw [hd]
    exact wf_incr _ _ h

theorem foldl_statsPackage_wf (ps : List PackageInfo) (s : Statistics)
    (h : GoMap.WF s.TypeDistribution) :
    GoMap.WF (ps.foldl statsPackage s).TypeDistribution := by
  induction ps generalizing s with
  | nil => exact h
  | cons p ps ih =>
    rw [List.foldl_cons]
    apply ih
    exact foldl_statsTest_wf p.Tests _ h

theorem eq_nil_of_get?_none {V : Type} (m : GoMap V) (h : ∀ k, GoMap.get? m k = none) :
    m = [] := by
  cases m with
  | nil => rfl
  | cons e rest =>
    have := h e.1
    simp [GoMap.get?] at this

/-- C20: after `CalculateStats`, `TotalTests` is the number of records over all packages,
`SkippedTests` the number of skipped ones, `ActiveTests` the number of the others,
`PackageCount` the number of entries of `Packages`; `TypeDistribution` has one entry per
classification carried by a record, holding the number of records that carry it, and no
other entry (none at all without records); the statistics stored before play no part. -/
theorem C20_calculateStats_counts (pr : ParseResult) (old : Statistics) :
    (CalculateStats pr).Stats.TotalTests = ((allTests pr.Packages).length : Int)
      ∧ (CalculateStats pr).Stats.SkippedTests
          = (((allTests pr.Packages).countP (fun t => t.Skipped) : Nat) : Int)
      ∧ (CalculateStats pr).Stats.ActiveTests
          = (((allTests pr.Packages).countP (fun t => !t.Skipped) : Nat) : Int)
      ∧ (CalculateStats pr).Stats.PackageCount = (pr.Packages.length : Int)
      ∧ (∀ ty, GoMap.get? (CalculateStats pr).Stats.TypeDistribution ty
          = if (allTests pr.Packages).countP (fun t => decide (t.Type_ = ty)) = 0 then none
            else some (((allTests pr.Packages).countP (fun t => decide (t.Type_ = ty)) : Nat)
                    : Int))
      ∧ GoMap.WF (CalculateStats pr).Stats.TypeDistribution
      ∧ (allTests pr.Packages = [] → (CalculateStats pr).Stats.TypeDistribution = [])
      ∧ (CalculateStats { pr with Stats := old }).Stats = (CalculateStats pr).Stats := by
  obtain ⟨a1, a2⟩ := CalculateStats_counts pr
  obtain ⟨c1, c2, c3⟩ := foldl_statsPackage_full pr.Packages emptyStats
  have hdist : ∀ ty, GoMap.get? (CalculateStats pr).Stats.TypeDistribution ty
      = if (allTests pr.Packages).countP (fun t => decide (t.Type_ = ty)) = 0 then none
        else some (((allTests pr.Packages).countP (fun t => decide (t.Type_ = ty)) : Nat)
                : Int) := by
    intro ty
    simp only [CalculateStats]
    rw [c3 ty]
    simp [emptyStats, GoMap.get?]
  refine ⟨a1, ?_, ?_, a2, hdist, ?_, ?_, rfl⟩
  · simp only [CalculateStats]
    rw [c1]
    simp [emptyStats]
  · simp only [CalculateStats]
    rw [c2]
    simp [emptyStats]
  · exact foldl_statsPackage_wf _ _ (by simp [emptyStats, GoMap.WF, GoMap.keys])
  · intro hnil
    apply eq_nil_of_get?_none
    intro k
    rw [hdist k, hnil]
    simp

/-! ## File selection -/

/-- C14: a visited file is scanned exactly when its path ends with `_test.go`, the include
list is empty or one of its patterns matches the base name, and no exclude pattern matches
the base name; `shouldExcludeFile` is true exactly when the include list is non-empty and
none of its patterns matches the base name, or some exclude pattern matches it. -/
theorem C14_file_selection (P : PathLib) (path : Str) (config : Config) :
    (qualifies P path config = true
        ↔ HasSuffix path "_test.go".toList = true
          ∧ (elems config.IncludePatterns = []
              ∨ ∃ pattern, pattern ∈ elems config.IncludePatterns
                  ∧ P.Match pattern (P.Base path) = true)
          ∧ ∀ pattern, pattern ∈ elems config.ExcludePatterns →
              P.Match pattern (P.Base path) = false)
      ∧ (shouldExcludeFile P path config = true
        ↔ (elems config.IncludePatterns ≠ []
              ∧ ∀ pattern, pattern ∈ elems config.IncludePatterns →
                  P.Match pattern (P.Base path) = false)
          ∨ ∃ pattern, pattern ∈ elems config.ExcludePatterns
              ∧ P.Match pattern (P.Base path) = true) := by
  have hex : shouldExcludeFile P path config = true
      ↔ (elems config.IncludePatterns ≠ []
            ∧ ∀ pattern, pattern ∈ elems config.IncludePatterns →
                P.Match pattern (P.Base path) = false)
        ∨ ∃ pattern, pattern ∈ elems config.ExcludePatterns
            ∧ P.Match pattern (P.Base path) = true := by
    unfold shouldExcludeFile
    cases hinc : elems config.IncludePatterns with
    | nil => simp
    | cons p ps =>
      by_cases hany : (p :: ps).any (fun pattern => P.Match pattern (P.Base path)) = true
      · have hsome : ∃ pattern, pattern ∈ p :: ps ∧ P.Match pattern (P.Base path) = true := by
          simpa [List.any_eq_true] using hany
        have hnot : ¬ ∀ pattern, pattern ∈ p :: ps → P.Match pattern (P.Base path) = false := by
          intro hall
          obtain ⟨q, hq, hm⟩ := hsome
          rw [hall q hq] at hm
          exact Bool.false_ne_true hm
        simp only [List.length_cons, gt_iff_lt, Nat.zero_lt_succ, if_true, hany,
          Bool.not_true, Bool.false_eq_true, if_false, List.any_eq_true, ne_eq,
          not_false_eq_true, true_and, hnot, false_or, reduceCtorEq]
      · have hall : ∀ pattern, pattern ∈ p :: ps → P.Match pattern (P.Base path) = false := by
          intro q hq
          cases hm : P.Match q (P.Base path) with
          | false => rfl
          | true => exact absurd (List.any_eq_true.mpr ⟨q, hq, hm⟩) hany
        have hany' : (p :: ps).any (fun pattern => P.Match pattern (P.Base path)) = false := by
          cases hb : (p :: ps).any (fun pattern => P.Match pattern (P.Base path)) with
          | false => rfl
          | true => exact absurd hb hany
        simp only [List.length_cons, gt_iff_lt, Nat.zero_lt_succ, if_true, hany',
          Bool.not_false, ne_eq, not_false_eq_true, true_and, reduceCtorEq, true_iff]
        exact Or.inl hall
  refine ⟨?_, hex⟩
  have hnex : (!shouldExcludeFile P path config) = true
      ↔ ¬ shouldExcludeFile P path config = true := by
    cases shouldExcludeFile P path config <;> simp
  simp only [qualifies, isTestFile, Bool.and_eq_true, hnex, hex]
  constructor
  · rintro ⟨hs, hn⟩
    refine ⟨hs, ?_, ?_⟩
    · by_cases hnil : elems config.IncludePatterns = []
      · exact Or.inl hnil
      · right
        by_contra hno
        apply hn
        left
        refine ⟨hnil, fun q hq => ?_⟩
        cases hm : P.Match q (P.Base path) with
        | false => rfl
        | true => exact absurd ⟨q, hq, hm⟩ hno
    · intro q hq
      cases hm : P.Match q (P.Base path) with
      | false => rfl
      | true => exact absurd (Or.inr ⟨q, hq, hm⟩) hn
  · rintro ⟨hs, hinc, hexc⟩
    refine ⟨hs, ?_⟩
    rintro (⟨hne, hall⟩ | ⟨q, hq, hm⟩)
    · rcases hinc with hnil | ⟨q, hq, hm⟩
      · exact hne hnil
      · rw [hall q hq] at hm
        exact Bool.false_ne_true hm
    · rw [hexc q hq] at hm
      exact Bool.false_ne_true hm

/-! ## The directory walk -/

theorem walk_append (P : PathLib) (config : Config) (pre post : List WalkEntry)
    (packages : GoMap PackageInfo) :
    walk P config packages (pre ++ post)
      = (walk P config packages pre).bind (fun packages => walk P config packages post) := by
  induction pre generalizing packages with
  | nil => rfl
  | cons e rest ih =>
    simp only [List.cons_append, walk]
    cases walkFn P config packages e with
    | none => rfl
    | some packages' => exact ih packages'

theorem walkFn_unparsed (P : PathLib) (config : Config) (packages : GoMap PackageInfo)
    (e : WalkEntry) (herr : e.err = false) (hparse : e.parsed = none) :
    walkFn P config packages e = some packages := by
  unfold walkFn
  rw [herr, hparse]
  simp only [Bool.false_eq_true, if_false]
  split
  · rfl
  · split <;> rfl

/-- C16: a visited file whose scan fails contributes nothing and does not stop the walk:
`ParseDirectory` returns what it returns for the same walk without that file, be it the
same model (packages, record order, `TestTypes` and `Stats`) or the same failure; so it
succeeds whenever the walk without the file does. -/
theorem C16_unparsable_file_skipped (P : PathLib) (config : Config)
    (pre post : List WalkEntry) (e : WalkEntry)
    (herr : e.err = false) (hparse : e.parsed = none) :
    ParseDirectory P (pre ++ e :: post) config = ParseDirectory P (pre ++ post) config
      ∧ ((ParseDirectory P (pre ++ post) config).isSome = true →
          (ParseDirectory P (pre ++ e :: post) config).isSome = true) := by
  have h : walk P config [] (pre ++ e :: post) = walk P config [] (pre ++ post) := by
    rw [walk_append, walk_append]
    cases walk P config [] pre with
    | none => rfl
    | some packages =>
      simp only [Option.some_bind, walk, walkFn_unparsed P config packages e herr hparse]
  have heq : ParseDirectory P (pre ++ e :: post) config
      = ParseDirectory P (pre ++ post) config := by
    unfold ParseDirectory
    rw [h]
  exact ⟨heq, fun hs => by rw [heq]; exact hs⟩

theorem C16_unparsable_file_skipped_witness :
    ({ path := "root/broken_test.go".toList, err := false, parsed := none } : WalkEntry).err
        = false
      ∧ ({ path := "root/broken_test.go".toList, err := false, parsed := none }
          : WalkEntry).parsed = none
      ∧ qualifies examplePathLib "root/broken_test.go".toList DefaultConfig = true
      ∧ ParseDirectory examplePathLib exampleWalk DefaultConfig
          = ParseDirectory examplePathLib (exampleWalk.take 2 ++ exampleWalk.drop 3)
              DefaultConfig
      ∧ (ParseDirectory examplePathLib exampleWalk DefaultConfig).isSome = true := by
  have h := C16_unparsable_file_skipped examplePathLib DefaultConfig (exampleWalk.take 2)
    (exampleWalk.drop 3) { path := "root/broken_test.go".toList, err := false, parsed := none }
    rfl rfl
  have he : exampleWalk.take 2
      ++ { path := "root/broken_test.go".toList, err := false, parsed := none }
        :: exampleWalk.drop 3 = exampleWalk := by decide
  rw [he] at h
  exact ⟨rfl, rfl, by decide, h.1, by decide⟩

/-! ## The packages built by the walk -/

theorem set_set {V : Type} (m : GoMap V) (k : Str) (a b : V) :
    GoMap.set (GoMap.set m k a) k b = GoMap.set m k b := by
  induction m with
  | nil => simp [GoMap.set]
  | cons e rest ih =>
    obtain ⟨k', v'⟩ := e
    by_cases h : k' = k
    · simp [GoMap.set, h]
    · simp [GoMap.set, h, ih]

theorem addTest_eq (dir : Str) (packages : GoMap PackageInfo) (test : TestInfo) :
    addTest dir packages test
      = GoMap.set packages test.Package
          (keepTest ((GoMap.get? packages test.Package).getD (newPackage test.Package dir))
            test) := by
  unfold addTest
  cases hg : GoMap.get? packages test.Package with
  | none =>
    simp only [hg, get?_set, if_true, Option.getD_none, set_set]
    rfl
  | some p => simp only [hg, Option.getD_some]

theorem get?_addTest (dir : Str) (packages : GoMap PackageInfo) (test : TestInfo) (k : Str) :
    GoMap.get? (addTest dir packages test) k
      = if test.Package = k then
          some (keepTest
            ((GoMap.get? packages test.Package).getD (newPackage test.Package dir)) test)
        else GoMap.get? packages k := by
  rw [addTest_eq, get?_set]

theorem keepTest_tests (p : PackageInfo) (t : TestInfo) :
    (keepTest p t).Tests = p.Tests ++ [t] := by
  unfold keepTest
  dsimp only
  split <;> rfl

theorem keepTest_types (p : PackageInfo) (t : TestInfo) :
    (keepTest p t).TestTypes = addType p.TestTypes t.Type_ := by
  unfold keepTest addType
  dsimp only
  split <;> rfl

theorem keepTest_name (p : PackageInfo) (t : TestInfo) : (keepTest p t).Name = p.Name := by
  unfold keepTest
  dsimp only
  split <;> rfl

theorem testsUnder_addTest (dir : Str) (packages : GoMap PackageInfo) (test : TestInfo)
    (k : Str) :
    testsUnder (addTest dir packages test) k
      = testsUnder packages k ++ (if test.Package = k then [test] else []) := by
  unfold testsUnder
  rw [get?_addTest]
  by_cases hk : test.Package = k
  · subst hk
    simp only [if_true, keepTest_tests]
    cases GoMap.get? packages test.Package with
    | none => rfl
    | some p => rfl
  · simp only [hk, if_false, List.append_nil]

theorem GroupInv_addTest (dir : Str) (packages : GoMap PackageInfo) (test : TestInfo)
    (h : GroupInv packages) : GroupInv (addTest dir packages test) := by
  obtain ⟨hwf, hall⟩ := h
  refine ⟨?_, ?_⟩
  · rw [addTest_eq]
    exact wf_set _ _ _ hwf
  · intro k p hp
    rw [get?_addTest] at hp
    by_cases hk : test.Package = k
    · subst hk
      simp only [if_true, Option.some.injEq] at hp
      subst hp
      cases hg : GoMap.get? packages test.Package with
      | none =>
        simp only [Option.getD_none, keepTest_name, keepTest_tests, keepTest_types]
        refine ⟨rfl, by simp [newPackage], ?_, by simp [newPackage]⟩
        intro t ht
        simp only [newPackage, List.nil_append, List.mem_singleton] at ht
        rw [ht]
      | some q =>
        obtain ⟨h1, h2, h3, h4⟩ := hall _ q hg
        simp only [Option.getD_some, keepTest_name, keepTest_tests, keepTest_types]
        refine ⟨h1, by simp, ?_, ?_⟩
        · intro t ht
          rcases List.mem_append.mp ht with ht | ht
          · exact h3 t ht
          · rw [List.mem_singleton.mp ht]
        · rw [h4, List.map_append, List.foldl_append]
          rfl
    · simp only [hk, if_false] at hp
      exact hall k p hp

theorem foldl_addTest (dir : Str) (ts : List TestInfo) (packages : GoMap PackageInfo) :
    (∀ k, testsUnder (ts.foldl (addTest dir) packages) k
        = testsUnder packages k ++ ts.filter (fun t => decide (t.Package = k)))
      ∧ (GroupInv packages → GroupInv (ts.foldl (addTest dir) packages)) := by
  induction ts generalizing packages with
  | nil => simp
  | cons t ts ih =>
    obtain ⟨h1, h2⟩ := ih (addTest dir packages t)
    rw [List.foldl_cons]
    refine ⟨?_, fun h => h2 (GroupInv_addTest dir packages t h)⟩
    intro k
    rw [h1 k, testsUnder_addTest]
    by_cases hk : t.Package = k
    · simp [hk, List.filter_cons]
    · simp [hk, List.filter_cons]

theorem foldl_walkTest (config : Config) (dir : Str) (ts : List TestInfo)
    (packages : GoMap PackageInfo) :
    ts.foldl (walkTest config dir) packages
      = ((ts.map defaultType).filter (retain config)).foldl (addTest dir) packages := by
  induction ts generalizing packages with
  | nil => rfl
  | cons t ts ih =>
    rw [List.foldl_cons, ih, List.map_cons, List.filter_cons]
    have hd : (if t.Type_ = [] then { t with Type_ := UnitTest } else t) = defaultType t := rfl
    by_cases hr : retain config (defaultType t) = true
    · have hw : walkTest config dir packages t = addTest dir packages (defaultType t) := by
        unfold walkTest
        simp only [hd]
        have : ¬ ((defaultType t).Skipped && !config.IncludeSkipped) = true := by
          intro hc
          simp [retain, hc] at hr
        rw [if_neg this]
      rw [hw, if_pos hr, List.foldl_cons]
    · have hw : walkTest config dir packages t = packages := by
        unfold walkTest
        simp only [hd]
        have : ((defaultType t).Skipped && !config.IncludeSkipped) = true := by
          cases hc : ((defaultType t).Skipped && !config.IncludeSkipped) with
          | true => rfl
          | false => exact absurd (by simp [retain, hc]) hr
        rw [if_pos this]
      rw [hw, if_neg hr]

theorem walkFn_eq (P : PathLib) (config : Config) (packages packages' : GoMap PackageInfo)
    (e : WalkEntry) (h : walkFn P config packages e = some packages') :
    packages' = (((scannedOf P config e).map defaultType).filter (retain config)).foldl
      (addTest (P.Dir e.path)) packages := by
  unfold walkFn at h
  unfold scannedOf qualifies
  by_cases herr : e.err = true
  · simp [herr] at h
  · rw [if_neg herr] at h
    by_cases ht : isTestFile e.path = true
    · by_cases hx : shouldExcludeFile P e.path config = true
      · simp only [ht, Bool.not_true, Bool.false_eq_true, if_false, hx, if_true,
          Option.some.injEq] at h
        simp [ht, hx, h]
      · have hx' : shouldExcludeFile P e.path config = false := by
          cases hb : shouldExcludeFile P e.path config with
          | false => rfl
          | true => exact absurd hb hx
        simp only [ht, Bool.not_true, Bool.false_eq_true, if_false, hx'] at h
        cases hp : e.parsed with
        | none =>
          rw [hp] at h
          simp only [Option.some.injEq] at h
          simp [ht, hx', h]
        | some ts =>
          rw [hp] at h
          simp only [Option.some.injEq] at h
          rw [← h, foldl_walkTest]
          simp [ht, hx']
    · have ht' : isTestFile e.path = false := by
        cases hb : isTestFile e.path with
        | false => rfl
        | true => exact absurd hb ht
      simp only [ht', Bool.not_false, if_true, Option.some.injEq] at h
      simp [ht', h]

theorem retained_cons (P : PathLib) (config : Config) (e : WalkEntry)
    (rest : List WalkEntry) :
    retained P config (e :: rest)
      = ((scannedOf P config e).map defaultType).filter (retain config)
          ++ retained P config rest := by
  simp [retained, scanned]

/-- The packages a successful walk ends with: under each key, the records it started with
followed by the retained records of that package, in visiting order. -/
theorem walk_spec (P : PathLib) (config : Config) (entries : List WalkEntry)
    (packages result : GoMap PackageInfo) (h : walk P config packages entries = some result) :
    (∀ k, testsUnder result k
        = testsUnder packages k
            ++ (retained P config entries).filter (fun t => decide (t.Package = k)))
      ∧ (GroupInv packages → GroupInv result) := by
  induction entries generalizing packages with
  | nil =>
    simp only [walk, Option.some.injEq] at h
    subst h
    simp [retained, scanned]
  | cons e rest ih =>
    simp only [walk] at h
    cases hf : walkFn P config packages e with
    | none => simp [hf] at h
    | some packages' =>
      rw [hf] at h
      obtain ⟨h1, h2⟩ := ih packages' h
      have he := walkFn_eq P config packages packages' e hf
      obtain ⟨f1, f2⟩ := foldl_addTest (P.Dir e.path)
        (((scannedOf P config e).map defaultType).filter (retain config)) packages
      rw [← he] at f1 f2
      refine ⟨?_, fun hi => h2 (f2 hi)⟩
      intro k
      rw [h1 k, f1 k, retained_cons, List.filter_append, List.append_assoc]

theorem get?_of_mem {V : Type} (m : GoMap V) (h : GoMap.WF m) (k : Str) (v : V)
    (hm : (k, v) ∈ m) : GoMap.get? m k = some v := by
  induction m with
  | nil => simp at hm
  | cons e rest ih =>
    obtain ⟨k', v'⟩ := e
    simp only [GoMap.WF, GoMap.keys, List.map_cons, List.nodup_cons] at h
    rcases List.mem_cons.mp hm with he | he
    · cases he
      simp [GoMap.get?]
    · have hne : ¬ k' = k := by
        intro hk
        subst hk
        exact h.1 (List.mem_map.mpr ⟨(k', v), he, rfl⟩)
      simp only [GoMap.get?, hne, if_false]
      exact ih h.2 he

theorem mem_allTests (m : GoMap PackageInfo) (t : TestInfo) :
    t ∈ allTests m ↔ ∃ e, e ∈ m ∧ t ∈ e.2.Tests := by
  induction m with
  | nil =>
    exact ⟨fun h => absurd h (List.not_mem_nil _),
      fun ⟨_, he, _⟩ => absurd he (List.not_mem_nil _)⟩
  | cons e rest ih =>
    obtain ⟨k, p⟩ := e
    simp only [allTests, List.mem_append, ih, List.mem_cons]
    constructor
    · rintro (h | ⟨e, he, ht⟩)
      · exact ⟨(k, p), Or.inl rfl, h⟩
      · exact ⟨e, Or.inr he, ht⟩
    · rintro ⟨e, he | he, ht⟩
      · subst he
        exact Or.inl ht
      · exact Or.inr ⟨e, he, ht⟩

theorem mem_allTests_testsUnder (m : GoMap PackageInfo) (h : GoMap.WF m) (t : TestInfo)
    (ht : t ∈ allTests m) : ∃ k, t ∈ testsUnder m k := by
  obtain ⟨e, he, hte⟩ := (mem_allTests m t).mp ht
  refine ⟨e.1, ?_⟩
  unfold testsUnder
  rw [get?_of_mem m h e.1 e.2 he]
  exact hte

theorem GroupInv_nil : GroupInv [] := by
  refine ⟨by simp [GoMap.WF, GoMap.keys], ?_⟩
  intro k p hp
  simp [GoMap.get?] at hp

theorem ParseDirectory_packages (P : PathLib) (config : Config) (entries : List WalkEntry)
    (r : ParseResult) (h : ParseDirectory P entries config = some r) :
    walk P config [] entries = some r.Packages
      ∧ r = CalculateStats { Packages := r.Packages, Stats := Statistics.zero } := by
  unfold ParseDirectory at h
  cases hw : walk P config [] entries with
  | none => simp [hw] at h
  | some packages =>
    rw [hw] at h
    simp only [Option.some.injEq] at h
    subst h
    exact ⟨rfl, rfl⟩

theorem ParseDirectory_spec (P : PathLib) (config : Config) (entries : List WalkEntry)
    (r : ParseResult) (h : ParseDirectory P entries config = some r) :
    (∀ k, testsUnder r.Packages k
        = (retained P config entries).filter (fun t => decide (t.Package = k)))
      ∧ GroupInv r.Packages := by
  obtain ⟨hw, _⟩ := ParseDirectory_packages P config entries r h
  obtain ⟨h1, h2⟩ := walk_spec P config entries [] r.Packages hw
  refine ⟨?_, h2 GroupInv_nil⟩
  intro k
  rw [h1 k]
  simp [testsUnder, GoMap.get?]

theorem mem_retained_of_mem_allTests (P : PathLib) (config : Config)
    (entries : List WalkEntry) (r : ParseResult)
    (h : ParseDirectory P entries config = some r) (t : TestInfo)
    (ht : t ∈ allTests r.Packages) : t ∈ retained P config entries := by
  obtain ⟨h1, h2⟩ := ParseDirectory_spec P config entries r h
  obtain ⟨k, hk⟩ := mem_allTests_testsUnder r.Packages h2.1 t ht
  rw [h1 k] at hk
  exact (List.mem_filter.mp hk).1

theorem defaultType_type_ne (s : TestInfo) : (defaultType s).Type_ ≠ [] := by
  unfold defaultType
  by_cases hs : s.Type_ = []
  · rw [if_pos hs]
    show "unit".toList ≠ []
    decide
  · rw [if_neg hs]
    exact hs

/-- C17: in a model returned by `ParseDirectory` every record has a non-empty `Type`.  The
records under each key are the scanned records of that package, each with the default
applied, that are retained: a scanned record with an empty `Type` is stored with `unit`, one
with a non-empty `Type` is stored unchanged. -/
theorem C17_type_defaulted (P : PathLib) (config : Config) (entries : List WalkEntry)
    (r : ParseResult) (h : ParseDirectory P entries config = some r) :
    (∀ t, t ∈ allTests r.Packages → t.Type_ ≠ [])
      ∧ (∀ k, testsUnder r.Packages k
          = (((scanned P config entries).map defaultType).filter (retain config)).filter
              (fun t => decide (t.Package = k)))
      ∧ (∀ s : TestInfo, s.Type_ = [] → defaultType s = { s with Type_ := "unit".toList })
      ∧ (∀ s : TestInfo, s.Type_ ≠ [] → defaultType s = s) := by
  refine ⟨?_, (ParseDirectory_spec P config entries r h).1, ?_, ?_⟩
  · intro t ht
    have hm := mem_retained_of_mem_allTests P config entries r h t ht
    obtain ⟨s, _, hs⟩ := List.mem_map.mp (List.mem_filter.mp hm).1
    rw [← hs]
    exact defaultType_type_ne s
  · intro s hs
    simp [defaultType, hs]
  · intro s hs
    simp [defaultType, hs]

theorem C17_type_defaulted_witness :
    ParseDirectory examplePathLib exampleWalk DefaultConfig
        = some (exampleWalkResult DefaultConfig)
      ∧ ∀ t, t ∈ allTests (exampleWalkResult DefaultConfig).Packages → t.Type_ ≠ [] :=
  ⟨by decide,
    (C17_type_defaulted examplePathLib DefaultConfig exampleWalk
      (exampleWalkResult DefaultConfig) (by decide)).1⟩

theorem defaultType_skipped (s : TestInfo) : (defaultType s).Skipped = s.Skipped := by
  unfold defaultType
  split <;> rfl

/-- C18: with `IncludeSkipped = false` a model returned by `ParseDirectory` holds no skipped
record, so `SkippedTests = 0` and `TotalTests = ActiveTests`; with `IncludeSkipped = true`
every scanned record, skipped or not, is stored under its package. -/
theorem C18_include_skipped (P : PathLib) (config : Config) (entries : List WalkEntry)
    (r : ParseResult) (h : ParseDirectory P entries config = some r) :
    (config.IncludeSkipped = false →
        (∀ t, t ∈ allTests r.Packages → t.Skipped = false)
          ∧ r.Stats.SkippedTests = 0 ∧ r.Stats.TotalTests = r.Stats.ActiveTests)
      ∧ (config.IncludeSkipped = true →
          ∀ k, testsUnder r.Packages k
            = ((scanned P config entries).map defaultType).filter
                (fun t => decide (t.Package = k))) := by
  obtain ⟨_, hr⟩ := ParseDirectory_packages P config entries r h
  constructor
  · intro hc
    have hall : ∀ t, t ∈ allTests r.Packages → t.Skipped = false := by
      intro t ht
      have hm := mem_retained_of_mem_allTests P config entries r h t ht
      have hret := (List.mem_filter.mp hm).2
      simpa [retain, hc] using hret
    have hs : r.Stats.SkippedTests = 0 := by
      rw [hr]
      simp only [CalculateStats]
      rw [(foldl_statsPackage_full r.Packages emptyStats).1]
      have h0 : (allTests r.Packages).countP (fun x => x.Skipped) = 0 := by
        rw [List.countP_eq_zero]
        intro t ht
        simp [hall t ht]
      simp [emptyStats, h0]
    refine ⟨hall, hs, ?_⟩
    have hinv := (CalculateStats_inv { Packages := r.Packages, Stats := Statistics.zero }).1
    rw [← hr] at hinv
    rw [hinv, hs]
    ring
  · intro hc k
    rw [(ParseDirectory_spec P config entries r h).1 k]
    have hret : ∀ t : TestInfo, retain config t = true := by
      intro t
      simp [retain, hc]
    simp [retained, hret]

theorem C18_include_skipped_witness :
    ParseDirectory examplePathLib exampleWalk { DefaultConfig with IncludeSkipped := false }
        = some (exampleWalkResult { DefaultConfig with IncludeSkipped := false })
      ∧ ({ DefaultConfig with IncludeSkipped := false } : Config).IncludeSkipped = false
      ∧ (exampleWalkResult { DefaultConfig with IncludeSkipped := false }).Stats.SkippedTests
          = 0
      ∧ (exampleWalkResult { DefaultConfig with IncludeSkipped := false }).Stats.TotalTests
          = (exampleWalkResult
              { DefaultConfig with IncludeSkipped := false }).Stats.ActiveTests :=
  ⟨by decide, rfl,
    ((C18_include_skipped examplePathLib { DefaultConfig with IncludeSkipped := false }
      exampleWalk (exampleWalkResult { DefaultConfig with IncludeSkipped := false })
      (by decide)).1 rfl).2⟩

/-! ## The `TestTypes` of a package -/

theorem foundType_iff (types : List TestType) (typ : TestType) :
    foundType types typ = true ↔ typ ∈ types := by
  induction types with
  | nil => simp [foundType]
  | cons t rest ih =>
    by_cases h : t = typ
    · simp [foundType, h]
    · have h' : ¬ typ = t := fun e => h e.symm
      simp [foundType, h, h', ih]

theorem foldl_addType (l acc : List TestType) :
    l.foldl addType acc = acc ++ (firstSeen l).filter (fun y => decide (y ∉ acc)) := by
  induction l generalizing acc with
  | nil => simp [firstSeen]
  | cons x xs ih =>
    rw [List.foldl_cons, ih]
    by_cases hx : x ∈ acc
    · have ha : addType acc x = acc := by
        simp [addType, (foundType_iff acc x).mpr hx]
      rw [ha]
      congr 1
      simp only [firstSeen, List.filter_cons, hx, not_true_eq_false, decide_False,
        Bool.false_eq_true, if_false, List.filter_filter]
      apply List.filter_congr
      intro y _
      by_cases hy : y ∈ acc
      · simp [hy]
      · have : y ≠ x := fun e => hy (e ▸ hx)
        simp [hy, this]
    · have hf : ¬ foundType acc x = true := fun h => hx ((foundType_iff acc x).mp h)
      have ha : addType acc x = acc ++ [x] := by
        simp [addType, hf]
      rw [ha]
      simp only [firstSeen, List.filter_cons, hx, not_false_eq_true, decide_True, if_true,
        List.filter_filter, List.append_assoc, List.singleton_append]
      congr 2
      apply List.filter_congr
      intro y _
      by_cases hy : y ∈ acc
      · simp [hy]
      · by_cases hyx : y = x
        · simp [hy, hyx]
        · simp [hy, hyx]

theorem mem_firstSeen (l : List TestType) (x : TestType) : x ∈ firstSeen l ↔ x ∈ l := by
  induction l with
  | nil => simp [firstSeen]
  | cons y ys ih =>
    simp only [firstSeen, List.mem_cons, List.mem_filter, ih, decide_eq_true_eq]
    constructor
    · rintro (h | ⟨h, _⟩)
      · exact Or.inl h
      · exact Or.inr h
    · rintro (h | h)
      · exact Or.inl h
      · by_cases hxy : x = y
        · exact Or.inl hxy
        · exact Or.inr ⟨h, hxy⟩

theorem nodup_firstSeen (l : List TestType) : (firstSeen l).Nodup := by
  induction l with
  | nil => simp [firstSeen]
  | cons y ys ih =>
    simp only [firstSeen, List.nodup_cons, List.mem_filter, decide_eq_true_eq]
    refine ⟨fun h => h.2 rfl, ih.filter _⟩

/-- C19: in a model returned by `ParseDirectory`, the `TestTypes` of every package has no
duplicate, holds exactly the classifications carried by a record of the package, and lists
them in order of first appearance among the records. -/
theorem C19_testTypes_distinct (P : PathLib) (config : Config) (entries : List WalkEntry)
    (r : ParseResult) (k : Str) (p : PackageInfo)
    (h : ParseDirectory P entries config = some r) (hk : r.Packages.get? k = some p) :
    p.TestTypes.Nodup
      ∧ (∀ ty, ty ∈ p.TestTypes ↔ ∃ t, t ∈ p.Tests ∧ t.Type_ = ty)
      ∧ p.TestTypes = firstSeen (p.Tests.map (fun t => t.Type_)) := by
  obtain ⟨_, hinv⟩ := ParseDirectory_spec P config entries r h
  obtain ⟨_, _, _, htypes⟩ := hinv.2 k p hk
  have heq : p.TestTypes = firstSeen (p.Tests.map (fun t => t.Type_)) := by
    rw [htypes, foldl_addType]
    simp
  refine ⟨?_, ?_, heq⟩
  · rw [heq]
    exact nodup_firstSeen _
  · intro ty
    rw [heq, mem_firstSeen, List.mem_map]

theorem C19_testTypes_distinct_witness :
    ParseDirectory examplePathLib exampleWalk DefaultConfig
        = some (exampleWalkResult DefaultConfig)
      ∧ (exampleWalkResult DefaultConfig).Packages.get? "alpha".toList
          = some (testsPackage "alpha".toList "root".toList)
      ∧ (testsPackage "alpha".toList "root".toList).TestTypes
          = ["unit".toList, "integration".toList] := by
  refine ⟨by decide, by decide, ?_⟩
  rw [(C19_testTypes_distinct examplePathLib DefaultConfig exampleWalk
    (exampleWalkResult DefaultConfig) "alpha".toList
    (testsPackage "alpha".toList "root".toList) (by decide) (by decide)).2.2]
  decide

/-! ## Skip detection -/

theorem inspectFn_eq (u : Str → Str) (n : Node) (ti : TestInfo) :
    inspectFn u n ti
      = if isSkipCall n = true then
          { ti with
            Skipped := true
            SkipReason := match literalArg n with
              | some v => u v
              | none => ti.SkipReason }
        else ti := by
  cases n with
  | CallExpr fn args =>
    cases fn with
    | SelectorExpr x sel =>
      by_cases hs : sel = "Skip".toList ∨ sel = "Skipf".toList ∨ sel = "SkipNow".toList
      · simp only [inspectFn, hs, if_true, isSkipCall, decide_True]
        cases args with
        | nil => rfl
        | cons a rest =>
          cases a with
          | BasicLit kind value => cases kind <;> rfl
          | CallExpr _ _ => rfl
          | SelectorExpr _ _ => rfl
          | Other _ => rfl
      · simp only [inspectFn, hs, if_false, isSkipCall, decide_False, Bool.false_eq_true]
    | CallExpr _ _ => simp [inspectFn, isSkipCall]
    | BasicLit _ _ => simp [inspectFn, isSkipCall]
    | Other _ => simp [inspectFn, isSkipCall]
  | SelectorExpr _ _ => simp [inspectFn, isSkipCall]
  | BasicLit _ _ => simp [inspectFn, isSkipCall]
  | Other _ => simp [inspectFn, isSkipCall]

mutual
theorem inspect_eq_foldl (f : Node → TestInfo → TestInfo) :
    ∀ (n : Node) (ti : TestInfo),
      inspect f n ti = (subnodes n).foldl (fun ti n => f n ti) ti
  | .CallExpr fn args, ti => by
    rw [inspect, subnodes, List.foldl_cons, List.foldl_append,
      inspectList_eq_foldl f args, inspect_eq_foldl f fn]
  | .SelectorExpr x sel, ti => by
    rw [inspect, subnodes, List.foldl_cons, inspect_eq_foldl f x]
  | .BasicLit kind value, ti => by
    rw [inspect, subnodes]
    rfl
  | .Other children, ti => by
    rw [inspect, subnodes, List.foldl_cons, inspectList_eq_foldl f children]
theorem inspectList_eq_foldl (f : Node → TestInfo → TestInfo) :
    ∀ (ns : List Node) (ti : TestInfo),
      inspectList f ns ti = (subnodesList ns).foldl (fun ti n => f n ti) ti
  | [], ti => by
    rw [inspectList, subnodesList]
    rfl
  | n :: rest, ti => by
    rw [inspectList, subnodesList, List.foldl_append, inspectList_eq_foldl f rest,
      inspect_eq_foldl f n]
end

theorem foldl_inspectFn (u : Str → Str) (ns : List Node) (ti : TestInfo) :
    ns.foldl (fun ti n => inspectFn u n ti) ti
      = { ti with
          Skipped := ti.Skipped || ns.any isSkipCall
          SkipReason :=
            match ((ns.filter isSkipCall).filterMap literalArg).getLast? with
            | some v => u v
            | none => ti.SkipReason } := by
  induction ns using List.reverseRecOn with
  | nil => simp
  | append_singleton ns n ih =>
    rw [List.foldl_append, List.foldl_cons, List.foldl_nil, ih, inspectFn_eq]
    by_cases hs : isSkipCall n = true
    · cases hl : literalArg n with
      | some v =>
        simp [hs, hl, List.filter_append, List.filterMap_append, List.filter_cons]
      | none =>
        simp [hs, hl, List.filter_append, List.filterMap_append, List.filter_cons]
    · have hs' : isSkipCall n = false := by
        cases hb : isSkipCall n with
        | false => rfl
        | true => exact absurd hb hs
      simp [hs', List.filter_append, List.filter_cons]

theorem analyzeTestBody_eq (u : Str → Str) (body : Node) (ti : TestInfo) :
    analyzeTestBody u body ti
      = { ti with
          Skipped := ti.Skipped || (subnodes body).any isSkipCall
          SkipReason := match (skipLiterals (some body)).getLast? with
            | some v => u v
            | none => ti.SkipReason } := by
  unfold analyzeTestBody
  rw [inspect_eq_foldl, foldl_inspectFn]
  rfl

theorem parseAnnotation_skip (line : Str) (ti : TestInfo) :
    ( parseAnnotation line ti).Skipped = ti.Skipped
      ∧ ( parseAnnotation line ti).SkipReason = ti.SkipReason := by
  unfold parseAnnotation
  split
  · exact ⟨rfl, rfl⟩
  split
  · exact ⟨rfl, rfl⟩
  split
  · dsimp only
    rw [foldl_tags]
    exact ⟨rfl, rfl⟩
  split
  · exact ⟨rfl, rfl⟩
  split
  · dsimp only
    split <;> exact ⟨rfl, rfl⟩
  split
  · dsimp only
    cases timeParse (TrimSpace (TrimPrefix line "@created:".toList)) <;> exact ⟨rfl, rfl⟩
  split
  · dsimp only
    cases timeParse (TrimSpace (TrimPrefix line "@updated:".toList)) <;> exact ⟨rfl, rfl⟩
  split <;> exact ⟨rfl, rfl⟩

theorem docStep_skip (state : Str × TestInfo) (text : Str) :
    (docStep state text).2.Skipped = state.2.Skipped
      ∧ (docStep state text).2.SkipReason = state.2.SkipReason := by
  unfold docStep
  dsimp only
  split
  · exact ⟨rfl, rfl⟩
  · split
    · exact parseAnnotation_skip _ _
    · exact ⟨rfl, rfl⟩

theorem parseDocComments_skip (docGroup : List Str) (ti : TestInfo) :
    (parseDocComments docGroup ti).Skipped = ti.Skipped
      ∧ (parseDocComments docGroup ti).SkipReason = ti.SkipReason := by
  have h : ∀ (state : Str × TestInfo),
      (docGroup.foldl docStep state).2.Skipped = state.2.Skipped
        ∧ (docGroup.foldl docStep state).2.SkipReason = state.2.SkipReason := by
    induction docGroup with
    | nil => intro state; exact ⟨rfl, rfl⟩
    | cons text rest ih =>
      intro state
      rw [List.foldl_cons]
      obtain ⟨a, b⟩ := ih (docStep state text)
      obtain ⟨c, d⟩ := docStep_skip state text
      exact ⟨a.trans c, b.trans d⟩
  exact h ([], ti)

/-- C15, as stated, fails: the body of `exampleTwoSkips` holds the call
`t.Skip("no network")`, whose first argument is a string literal, and the `SkipReason` of
the record is not that literal's unquoted value. -/
theorem C15_skip_reason_counterexample :
    ∃ body call lit, exampleTwoSkips.Body = some body
      ∧ call ∈ subnodes body ∧ isSkipCall call = true ∧ literalArg call = some lit
      ∧ (parseTestFunction examplePathLib exampleUnquote exampleTwoSkips "pkg".toList
          "dir/net_test.go".toList).SkipReason ≠ exampleUnquote lit := by
  refine ⟨_, callOn "Skip" [.BasicLit .STRING "\"no network\"".toList],
    "\"no network\"".toList, rfl, ?_, by decide, rfl, by decide⟩
  simp [subnodes, subnodesList, callOn]

/-- C15, amended: the record of a function declaration has `Skipped = true` exactly when
the body holds, at any depth, a call whose callee is a selector expression named `Skip`,
`Skipf` or `SkipNow`; `SkipReason` is the unquoted first argument of the last such call
that has a string literal as first argument, last in the order `ast.Inspect` visits the
nodes (a node before its children, the children in order: `subnodes`), and is empty when
there is none. -/
theorem C15_skip_detection (P : PathLib) (u : Str → Str) (fn : FuncDecl)
    (pkgName filename : Str) :
    ((parseTestFunction P u fn pkgName filename).Skipped = true
        ↔ ∃ body, fn.Body = some body ∧ ∃ n, n ∈ subnodes body ∧ isSkipCall n = true)
      ∧ (parseTestFunction P u fn pkgName filename).SkipReason
          = ((skipLiterals fn.Body).getLast?.map u).getD []
      ∧ (skipLiterals fn.Body = [] →
          (parseTestFunction P u fn pkgName filename).SkipReason = []) := by
  have hdoc : ∀ ti : TestInfo, ti.Skipped = false → ti.SkipReason = [] →
      ((match fn.Doc with
        | some docGroup => parseDocComments docGroup ti
        | none => ti).Skipped = false
      ∧ (match fn.Doc with
        | some docGroup => parseDocComments docGroup ti
        | none => ti).SkipReason = []) := by
    intro ti h1 h2
    cases fn.Doc with
    | none => exact ⟨h1, h2⟩
    | some d =>
      obtain ⟨a, b⟩ := parseDocComments_skip d ti
      exact ⟨a.trans h1, b.trans h2⟩
  obtain ⟨hs, hr⟩ := hdoc (newTestInfo fn.Name (P.Base filename) fn.Line pkgName) rfl rfl
  have hreason : (parseTestFunction P u fn pkgName filename).SkipReason
      = ((skipLiterals fn.Body).getLast?.map u).getD [] := by
    unfold parseTestFunction
    dsimp only
    cases hb : fn.Body with
    | none => simpa [skipLiterals] using hr
    | some body =>
      dsimp only
      rw [analyzeTestBody_eq]
      dsimp only
      cases hl : (skipLiterals (some body)).getLast? with
      | none => simpa using hr
      | some v => simp
  refine ⟨?_, hreason, ?_⟩
  · unfold parseTestFunction
    dsimp only
    cases hb : fn.Body with
    | none => simp [hs]
    | some body =>
      dsimp only
      rw [analyzeTestBody_eq]
      simp [hs, List.any_eq_true]
  · intro hnil
    rw [hreason, hnil]
    rfl

theorem C15_skip_detection_witness :
    (parseTestFunction examplePathLib exampleUnquote exampleTwoSkips "pkg".toList
        "dir/net_test.go".toList).SkipReason = "no database".toList := by
  rw [(C15_skip_detection examplePathLib exampleUnquote exampleTwoSkips "pkg".toList
    "dir/net_test.go".toList).2.1]
  decide

/-- The order of the visit matters for a chain of calls: in `q.Skip("a").Skip("b")` the
call of `Skip("b")` is visited first and its receiver `q.Skip("a")` after it, so the
reason stored is `a`. -/
theorem skipReason_of_chain :
    skipLiterals exampleChain.Body = ["\"b\"".toList, "\"a\"".toList]
      ∧ (parseTestFunction examplePathLib exampleUnquote exampleChain "pkg".toList
          "dir/chain_test.go".toList).SkipReason = "a".toList := by
  decide

/-! ## The type and author filters -/

/-- C21: on a well-formed model, the records of `ByType m T` under any key are the records
of `m` under that key whose `Type` is `T`, in their original order; no record of the result
has another `Type`. -/
theorem C21_byType_records (m : ParseResult) (T : TestType) (hwf : GoMap.WF m.Packages) :
    (∀ k, testsUnder (ByType m T).Packages k
        = (testsUnder m.Packages k).filter (fun t => decide (t.Type_ = T)))
      ∧ (∀ t, t ∈ allTests (ByType m T).Packages → t.Type_ = T)
      ∧ (∀ t, t ∈ allTests m.Packages → t.Type_ ≠ T → t ∉ allTests (ByType m T).Packages) := by
  have hp := ByType_packages m T hwf
  have ha : allTests (ByType m T).Packages
      = (allTests m.Packages).filter (fun t => decide (t.Type_ = T)) := by
    rw [hp, allTests_select _ _ (selectPkgByType_tests T) m.Packages]
  refine ⟨?_, ?_, ?_⟩
  · intro k
    rw [hp, testsUnder_select _ _ (selectPkgByType_tests T) m.Packages hwf k]
  · intro t ht
    rw [ha] at ht
    simpa using (List.mem_filter.mp ht).2
  · intro t _ hne ht
    rw [ha] at ht
    exact hne (by simpa using (List.mem_filter.mp ht).2)

theorem C21_byType_records_witness :
    GoMap.WF exampleByType.Packages
      ∧ testsUnder (ByType exampleByType "unit".toList).Packages "pkg1".toList
          = (testsUnder exampleByType.Packages "pkg1".toList).filter
              (fun t => decide (t.Type_ = "unit".toList)) :=
  ⟨by decide, (C21_byType_records exampleByType "unit".toList (by decide)).1 "pkg1".toList⟩

/-- C22: on a well-formed model, the records of `ByAuthor m a` under any key are the records
of `m` under that key whose `Author` is the string `a`, compared as is, in their original
order; `TotalTests` of the result is the number of such records over all packages.  An
author that differs by case or by a blank does not match. -/
theorem C22_byAuthor_records (m : ParseResult) (a : Str) (hwf : GoMap.WF m.Packages) :
    (∀ k, testsUnder (ByAuthor m a).Packages k
        = (testsUnder m.Packages k).filter (fun t => decide (t.Author = a)))
      ∧ (ByAuthor m a).Stats.TotalTests
          = (((allTests m.Packages).filter (fun t => decide (t.Author = a))).length : Int)
      ∧ (testsUnder (ByAuthor exampleByAuthor "John Doe".toList).Packages "pkg1".toList).map
            (fun t => t.Name)
          = ["TestByJohn".toList, "TestByJohn2".toList] := by
  have hp := ByAuthor_packages m a hwf
  refine ⟨?_, ?_, by decide⟩
  · intro k
    rw [hp, testsUnder_select _ _ (selectPkg_tests _) m.Packages hwf k]
  · have hc := (CalculateStats_counts
      { Packages := m.Packages.foldl (byAuthorPackage a) [], Stats := Statistics.zero }).1
    have ha := allTests_select (selectPkg (fun t => decide (t.Author = a)))
      (fun t => decide (t.Author = a)) (selectPkg_tests _) m.Packages
    simp only [ByAuthor, CalculateStats] at hp
    simp only [ByAuthor]
    rw [hc]
    simp only [hp, ha]

theorem C22_byAuthor_records_witness :
    GoMap.WF exampleByAuthor.Packages
      ∧ (ByAuthor exampleByAuthor "John Doe".toList).Stats.TotalTests = 2 := by
  refine ⟨by decide, ?_⟩
  rw [(C22_byAuthor_records exampleByAuthor "John Doe".toList (by decide)).2.1]
  decide

/-! ## The classification enumeration -/

/-- C23: `IsValid`, and `IsValidTestType` with it, is true exactly on the eight strings
`unit`, `integration`, `functional`, `e2e`, `performance`, `security`, `regression` and
`smoke`; the empty string is invalid; `GetSupportedTestTypes` lists these eight values, each
once; a value is valid exactly when it is in that list. -/
theorem C23_isValid_enumeration (t : TestType) :
    (IsValid t = true
        ↔ t = "unit".toList ∨ t = "integration".toList ∨ t = "functional".toList
          ∨ t = "e2e".toList ∨ t = "performance".toList ∨ t = "security".toList
          ∨ t = "regression".toList ∨ t = "smoke".toList)
      ∧ IsValidTestType t = IsValid t
      ∧ IsValid [] = false
      ∧ IsValid "unknown".toList = false
      ∧ GetSupportedTestTypes
          = ["unit".toList, "integration".toList, "functional".toList, "e2e".toList,
             "performance".toList, "security".toList, "regression".toList, "smoke".toList]
      ∧ GetSupportedTestTypes.Nodup
      ∧ (IsValidTestType t = true ↔ t ∈ GetSupportedTestTypes) := by
  refine ⟨?_, rfl, by decide, by decide, rfl, by decide, IsValid_iff t⟩
  rw [IsValid_iff]
  simp only [GetSupportedTestTypes, UnitTest, IntegrationTest, FunctionalTest, E2ETest,
    PerformanceTest, SecurityTest, RegressionTest, SmokeTest, List.mem_cons,
    List.mem_singleton, List.not_mem_nil, or_false]

/-- C24, as stated, fails: the validity check rejects `end-to-end`, which the claim lists,
and accepts `e2e`, which it does not list. -/
theorem C24_end_to_end_counterexample :
    IsValid "end-to-end".toList = false ∧ IsValid "e2e".toList = true := by
  decide

/-- C24, amended: the validity check accepts each of the eight strings `unit`,
`integration`, `functional`, `e2e`, `performance`, `security`, `regression`, `smoke`, and
reports every other string invalid. -/
theorem C24_enumeration_closed (t : TestType) :
    (t ∈ ["unit".toList, "integration".toList, "functional".toList, "e2e".toList,
          "performance".toList, "security".toList, "regression".toList, "smoke".toList]
        → IsValid t = true)
      ∧ (t ∉ ["unit".toList, "integration".toList, "functional".toList, "e2e".toList,
              "performance".toList, "security".toList, "regression".toList, "smoke".toList]
        → IsValid t = false) := by
  have h : IsValid t = true
      ↔ t ∈ ["unit".toList, "integration".toList, "functional".toList, "e2e".toList,
          "performance".toList, "security".toList, "regression".toList, "smoke".toList] :=
    IsValid_iff t
  refine ⟨h.mpr, fun hn => ?_⟩
  cases hv : IsValid t with
  | false => rfl
  | true => exact absurd (h.mp hv) hn

theorem C24_enumeration_closed_witness :
    IsValid "e2e".toList = true ∧ IsValid "E2E".toList = false :=
  ⟨(C24_enumeration_closed "e2e".toList).1 (by decide),
    (C24_enumeration_closed "E2E".toList).2 (by decide)⟩

/-! ## Records of the declaration scanner -/

theorem parseAnnotation_ident (line : Str) (ti : TestInfo) :
    ( parseAnnotation line ti).Name = ti.Name
      ∧ ( parseAnnotation line ti).Package = ti.Package
      ∧ ( parseAnnotation line ti).File = ti.File
      ∧ ( parseAnnotation line ti).Line = ti.Line := by
  unfold parseAnnotation
  split
  · exact ⟨rfl, rfl, rfl, rfl⟩
  split
  · exact ⟨rfl, rfl, rfl, rfl⟩
  split
  · dsimp only
    rw [foldl_tags]
    exact ⟨rfl, rfl, rfl, rfl⟩
  split
  · exact ⟨rfl, rfl, rfl, rfl⟩
  split
  · dsimp only
    split <;> exact ⟨rfl, rfl, rfl, rfl⟩
  split
  · dsimp only
    cases timeParse (TrimSpace (TrimPrefix line "@created:".toList)) <;>
      exact ⟨rfl, rfl, rfl, rfl⟩
  split
  · dsimp only
    cases timeParse (TrimSpace (TrimPrefix line "@updated:".toList)) <;>
      exact ⟨rfl, rfl, rfl, rfl⟩
  split <;> exact ⟨rfl, rfl, rfl, rfl⟩

theorem docStep_ident (state : Str × TestInfo) (text : Str) :
    (docStep state text).2.Name = state.2.Name
      ∧ (docStep state text).2.Package = state.2.Package
      ∧ (docStep state text).2.File = state.2.File
      ∧ (docStep state text).2.Line = state.2.Line := by
  unfold docStep
  dsimp only
  split
  · exact ⟨rfl, rfl, rfl, rfl⟩
  · split
    · exact parseAnnotation_ident _ _
    · exact ⟨rfl, rfl, rfl, rfl⟩

theorem parseDocComments_ident (docGroup : List Str) (ti : TestInfo) :
    (parseDocComments docGroup ti).Name = ti.Name
      ∧ (parseDocComments docGroup ti).Package = ti.Package
      ∧ (parseDocComments docGroup ti).File = ti.File
      ∧ (parseDocComments docGroup ti).Line = ti.Line := by
  have h : ∀ (state : Str × TestInfo),
      (docGroup.foldl docStep state).2.Name = state.2.Name
        ∧ (docGroup.foldl docStep state).2.Package = state.2.Package
        ∧ (docGroup.foldl docStep state).2.File = state.2.File
        ∧ (docGroup.foldl docStep state).2.Line = state.2.Line := by
    induction docGroup with
    | nil => intro state; exact ⟨rfl, rfl, rfl, rfl⟩
    | cons text rest ih =>
      intro state
      rw [List.foldl_cons]
      obtain ⟨a1, a2, a3, a4⟩ := ih (docStep state text)
      obtain ⟨b1, b2, b3, b4⟩ := docStep_ident state text
      exact ⟨a1.trans b1, a2.trans b2, a3.trans b3, a4.trans b4⟩
  exact h ([], ti)

/-- The identity of a scanned record: name, package, file and line come from the
declaration and are touched neither by the annotations nor by the body. -/
theorem parseTestFunction_ident (P : PathLib) (u : Str → Str) (fn : FuncDecl)
    (pkgName filename : Str) :
    (parseTestFunction P u fn pkgName filename).Name = fn.Name
      ∧ (parseTestFunction P u fn pkgName filename).Package = pkgName
      ∧ (parseTestFunction P u fn pkgName filename).File = P.Base filename
      ∧ (parseTestFunction P u fn pkgName filename).Line = fn.Line := by
  have hdoc : ∀ ti : TestInfo,
      (match fn.Doc with
        | some docGroup => parseDocComments docGroup ti
        | none => ti).Name = ti.Name
      ∧ (match fn.Doc with
        | some docGroup => parseDocComments docGroup ti
        | none => ti).Package = ti.Package
      ∧ (match fn.Doc with
        | some docGroup => parseDocComments docGroup ti
        | none => ti).File = ti.File
      ∧ (match fn.Doc with
        | some docGroup => parseDocComments docGroup ti
        | none => ti).Line = ti.Line := by
    intro ti
    cases fn.Doc with
    | none => exact ⟨rfl, rfl, rfl, rfl⟩
    | some d => exact parseDocComments_ident d ti
  obtain ⟨h1, h2, h3, h4⟩ := hdoc (newTestInfo fn.Name (P.Base filename) fn.Line pkgName)
  unfold parseTestFunction
  dsimp only
  cases fn.Body with
  | none => exact ⟨h1, h2, h3, h4⟩
  | some body =>
    dsimp only
    rw [analyzeTestBody_eq]
    exact ⟨h1, h2, h3, h4⟩

/-- The skip fields of a scanned record, read off the body. -/
theorem parseTestFunction_skip (P : PathLib) (u : Str → Str) (fn : FuncDecl)
    (pkgName filename : Str) :
    (parseTestFunction P u fn pkgName filename).Skipped
        = (match fn.Body with
          | some body => (subnodes body).any isSkipCall
          | none => false)
      ∧ (parseTestFunction P u fn pkgName filename).SkipReason
        = ((skipLiterals fn.Body).getLast?.map u).getD [] := by
  have hdoc : ∀ ti : TestInfo, ti.Skipped = false → ti.SkipReason = [] →
      ((match fn.Doc with
        | some docGroup => parseDocComments docGroup ti
        | none => ti).Skipped = false
      ∧ (match fn.Doc with
        | some docGroup => parseDocComments docGroup ti
        | none => ti).SkipReason = []) := by
    intro ti h1 h2
    cases fn.Doc with
    | none => exact ⟨h1, h2⟩
    | some d =>
      obtain ⟨a, b⟩ := parseDocComments_skip d ti
      exact ⟨a.trans h1, b.trans h2⟩
  obtain ⟨hs, hr⟩ := hdoc (newTestInfo fn.Name (P.Base filename) fn.Line pkgName) rfl rfl
  unfold parseTestFunction
  dsimp only
  cases hb : fn.Body with
  | none =>
    dsimp only
    exact ⟨hs, by simpa [skipLiterals] using hr⟩
  | some body =>
    dsimp only
    rw [analyzeTestBody_eq]
    dsimp only
    refine ⟨by simp [hs], ?_⟩
    cases hl : (skipLiterals (some body)).getLast? with
    | none => simpa using hr
    | some v => simp

theorem parseAnnotation_skip_reason (payload : Str) (ti : TestInfo) :
    parseAnnotation ("@skip_reason:".toList ++ payload) ti
      = { ti with
          Metadata := (GoMap.set ti.Metadata "skip_reason".toList (TrimSpace payload)) } := by
  have ht : TrimSpace ['s', 'k', 'i', 'p', '_', 'r', 'e', 'a', 's', 'o', 'n']
      = ['s', 'k', 'i', 'p', '_', 'r', 'e', 'a', 's', 'o', 'n'] := by decide
  simp [ parseAnnotation, HasPrefix, TrimPrefix, List.isPrefixOf, Contains, SplitN2, cut, ht]

/-- C25: a record produced by `parseTestFunction` with a non-empty `SkipReason` has
`Skipped = true`; a `@skip_reason:` annotation goes to `Metadata` and leaves `SkipReason` and
`Skipped` as they were. -/
theorem C25_skip_reason_implies_skipped (P : PathLib) (u : Str → Str) (fn : FuncDecl)
    (pkgName filename : Str) (payload : Str) (ti : TestInfo) :
    ((parseTestFunction P u fn pkgName filename).SkipReason ≠ [] →
        (parseTestFunction P u fn pkgName filename).Skipped = true)
      ∧ parseAnnotation ("@skip_reason:".toList ++ payload) ti
          = { ti with
              Metadata :=
                (GoMap.set ti.Metadata "skip_reason".toList (TrimSpace payload)) } := by
  refine ⟨?_, parseAnnotation_skip_reason payload ti⟩
  obtain ⟨hs, hr⟩ := parseTestFunction_skip P u fn pkgName filename
  intro hne
  rw [hs]
  rw [hr] at hne
  cases hb : fn.Body with
  | none =>
    rw [hb] at hne
    exact absurd rfl hne
  | some body =>
    rw [hb] at hne
    dsimp only
    cases hl : (skipLiterals (some body)).getLast? with
    | none =>
      rw [hl] at hne
      exact absurd rfl hne
    | some v =>
      have hmem : v ∈ skipLiterals (some body) := List.mem_of_getLast?_eq_some hl
      simp only [skipLiterals, List.mem_filterMap, List.mem_filter] at hmem
      obtain ⟨n, ⟨hn, hskip⟩, _⟩ := hmem
      exact List.any_eq_true.mpr ⟨n, hn, hskip⟩

theorem C25_skip_reason_implies_skipped_witness :
    (parseTestFunction examplePathLib exampleUnquote exampleTwoSkips "pkg".toList
        "dir/net_test.go".toList).SkipReason ≠ []
      ∧ (parseTestFunction examplePathLib exampleUnquote exampleTwoSkips "pkg".toList
          "dir/net_test.go".toList).Skipped = true :=
  ⟨by decide,
    (C25_skip_reason_implies_skipped examplePathLib exampleUnquote exampleTwoSkips
      "pkg".toList "dir/net_test.go".toList [] (newTestInfo [] [] 0 [])).1 (by decide)⟩

/-- C26, as stated, fails: the test `TestExample` of `exampleFile` carries `@type: fast`; the
model aggregated from that file holds the record with `Type` `fast`, for which `IsValid` is
false. -/
theorem C26_unvalidated_type_counterexample :
    ParseDirectory examplePathLib exampleFileWalk DefaultConfig = some exampleFileResult
      ∧ ∃ t, t ∈ allTests exampleFileResult.Packages
          ∧ t.Name = "TestExample".toList ∧ t.Type_ = "fast".toList
          ∧ IsValid t.Type_ = false := by
  refine ⟨by decide, ?_⟩
  refine ⟨parseTestFunction examplePathLib exampleUnquote
    { Name := "TestExample".toList, Doc := some ["// @type: fast".toList],
      Body := some (.Other []), Line := 1 } "testpkg".toList "dir/example_test.go".toList,
    by decide, by decide, by decide, by decide⟩

/-- C26, amended: every record of a model returned by `ParseDirectory` is a scanned record
with the default applied.  Its `Type` is the scanned one, stored as is, or `unit` when the
scanned one is empty; `IsValid` holds for it exactly when the scanned `Type` is empty or is
one of the eight supported values. -/
theorem C26_type_of_aggregated_record (P : PathLib) (config : Config)
    (entries : List WalkEntry) (r : ParseResult)
    (h : ParseDirectory P entries config = some r) :
    ∀ t, t ∈ allTests r.Packages →
      ∃ s, s ∈ scanned P config entries ∧ t = defaultType s
        ∧ (s.Type_ = [] → t.Type_ = "unit".toList)
        ∧ (s.Type_ ≠ [] → t.Type_ = s.Type_)
        ∧ (IsValid t.Type_ = true ↔ s.Type_ = [] ∨ IsValid s.Type_ = true) := by
  intro t ht
  have hm := mem_retained_of_mem_allTests P config entries r h t ht
  obtain ⟨s, hs, hst⟩ := List.mem_map.mp (List.mem_filter.mp hm).1
  refine ⟨s, hs, hst.symm, ?_, ?_, ?_⟩
  · intro h0
    rw [← hst]
    simp [defaultType, h0]
  · intro h0
    rw [← hst]
    simp [defaultType, h0]
  · rw [← hst]
    by_cases h0 : s.Type_ = []
    · have hd : (defaultType s).Type_ = "unit".toList := by simp [defaultType, h0]
      rw [hd]
      simp [h0]
      decide
    · have hd : (defaultType s).Type_ = s.Type_ := by simp [defaultType, h0]
      rw [hd]
      simp [h0]

theorem C26_type_of_aggregated_record_witness :
    ParseDirectory examplePathLib exampleWalk DefaultConfig
        = some (exampleWalkResult DefaultConfig)
      ∧ ∀ t, t ∈ allTests (exampleWalkResult DefaultConfig).Packages →
          ∃ s, s ∈ scanned examplePathLib DefaultConfig exampleWalk ∧ t = defaultType s
            ∧ (s.Type_ = [] → t.Type_ = "unit".toList)
            ∧ (s.Type_ ≠ [] → t.Type_ = s.Type_)
            ∧ (IsValid t.Type_ = true ↔ s.Type_ = [] ∨ IsValid s.Type_ = true) :=
  ⟨by decide,
    C26_type_of_aggregated_record examplePathLib DefaultConfig exampleWalk
      (exampleWalkResult DefaultConfig) (by decide)⟩

/-! ## `ParseFile` -/

theorem isTestFunction_iff (name : Str) :
    isTestFunction name = true
      ↔ (∃ rest, name = "Test".toList ++ rest) ∨ (∃ rest, name = "Benchmark".toList ++ rest)
        ∨ (∃ rest, name = "Example".toList ++ rest) := by
  unfold isTestFunction
  rw [Bool.or_eq_true, Bool.or_eq_true, HasPrefix_iff, HasPrefix_iff, HasPrefix_iff, or_assoc]

theorem foldl_parseDecl (P : PathLib) (u : Str → Str) (src : File) (filename : Str)
    (decls : List Decl) (tests : List TestInfo) :
    decls.foldl (parseDecl P u src filename) tests
      = tests ++ ((funcDecls decls).filter (fun fn => isTestFunction fn.Name)).map
          (fun fn => parseTestFunction P u fn src.Name filename) := by
  induction decls generalizing tests with
  | nil => simp [funcDecls]
  | cons d rest ih =>
    rw [List.foldl_cons, ih]
    cases d with
    | other => simp [parseDecl, funcDecls]
    | funcDecl fn =>
      by_cases hq : isTestFunction fn.Name = true
      · simp [parseDecl, funcDecls, hq, List.filter_cons]
      · simp [parseDecl, funcDecls, hq, List.filter_cons]

/-- C27: `isTestFunction` is true exactly on the names that begin with `Test`, `Benchmark`
or `Example`, letter case included.  For a file that parses, `ParseFile` returns the
records of the function declarations whose name qualifies, one each and in declaration
order, and nothing for the other declarations; each record bears the name of its
declaration. -/
theorem C27_parseFile_records (P : PathLib) (u : Str → Str) (src : File) (filename name : Str) :
    (isTestFunction name = true
        ↔ (∃ rest, name = "Test".toList ++ rest)
          ∨ (∃ rest, name = "Benchmark".toList ++ rest)
          ∨ (∃ rest, name = "Example".toList ++ rest))
      ∧ isTestFunction "testExample".toList = false
      ∧ isTestFunction [] = false
      ∧ ParseFile P u (some src) filename
          = some (((funcDecls src.Decls).filter (fun fn => isTestFunction fn.Name)).map
              (fun fn => parseTestFunction P u fn src.Name filename))
      ∧ (∀ tests, ParseFile P u (some src) filename = some tests →
          tests.map (fun t => t.Name)
            = ((funcDecls src.Decls).map (fun fn => fn.Name)).filter isTestFunction)
      ∧ ((ParseFile examplePathLib exampleUnquote (some exampleFile)
            "dir/example_test.go".toList).map (fun tests => tests.map (fun t => t.Name)))
          = some ["TestExample".toList, "BenchmarkPerformance".toList] := by
  have hpf : ParseFile P u (some src) filename
      = some (((funcDecls src.Decls).filter (fun fn => isTestFunction fn.Name)).map
          (fun fn => parseTestFunction P u fn src.Name filename)) := by
    unfold ParseFile
    dsimp only
    rw [foldl_parseDecl]
    rfl
  refine ⟨isTestFunction_iff name, by decide, by decide, hpf, ?_, by decide⟩
  intro tests ht
  rw [hpf] at ht
  simp only [Option.some.injEq] at ht
  rw [← ht, List.map_map]
  have hn : ((fun t : TestInfo => t.Name) ∘ fun fn => parseTestFunction P u fn src.Name filename)
      = fun fn : FuncDecl => fn.Name := by
    funext fn
    exact (parseTestFunction_ident P u fn src.Name filename).1
  rw [hn]
  generalize funcDecls src.Decls = fns
  induction fns with
  | nil => rfl
  | cons fn rest ih =>
    by_cases hq : isTestFunction fn.Name = true
    · simp [List.filter_cons, hq, ih]
    · simp [List.filter_cons, hq, ih]

theorem C27_parseFile_records_witness :
    ParseFile examplePathLib exampleUnquote (some exampleFile) "dir/example_test.go".toList
        = some (((funcDecls exampleFile.Decls).filter
            (fun fn => isTestFunction fn.Name)).map
            (fun fn => parseTestFunction examplePathLib exampleUnquote fn exampleFile.Name
              "dir/example_test.go".toList))
      ∧ ((funcDecls exampleFile.Decls).filter (fun fn => isTestFunction fn.Name)).length = 2 :=
  ⟨(C27_parseFile_records examplePathLib exampleUnquote exampleFile
      "dir/example_test.go".toList []).2.2.2.1, by decide⟩

/-! ## The most common classification -/

theorem foldl_mostCommonStep (d : GoMap Int) (state : TestType × Int) :
    state.2 ≤ (d.foldl mostCommonStep state).2
      ∧ (∀ e, e ∈ d → e.2 ≤ (d.foldl mostCommonStep state).2)
      ∧ (d.foldl mostCommonStep state = state ∨ d.foldl mostCommonStep state ∈ d)
      ∧ ((∀ e, e ∈ d → e.2 ≤ state.2) → d.foldl mostCommonStep state = state) := by
  induction d generalizing state with
  | nil => simp
  | cons e rest ih =>
    rw [List.foldl_cons]
    obtain ⟨h1, h2, h3, h4⟩ := ih (mostCommonStep state e)
    by_cases hgt : e.2 > state.2
    · have hs : mostCommonStep state e = e := by simp [mostCommonStep, hgt]
      rw [hs] at h1 h2 h3 h4 ⊢
      refine ⟨by omega, ?_, ?_, ?_⟩
      · intro x hx
        rcases List.mem_cons.mp hx with hx | hx
        · rw [hx]; exact h1
        · exact h2 x hx
      · right
        rcases h3 with h3 | h3
        · rw [h3]; exact List.mem_cons_self _ _
        · exact List.mem_cons_of_mem _ h3
      · intro hall
        have := hall e (List.mem_cons_self _ _)
        omega
    · have hs : mostCommonStep state e = state := by simp [mostCommonStep, hgt]
      rw [hs] at h1 h2 h3 h4 ⊢
      refine ⟨h1, ?_, ?_, ?_⟩
      · intro x hx
        rcases List.mem_cons.mp hx with hx | hx
        · rw [hx]; omega
        · exact h2 x hx
      · rcases h3 with h3 | h3
        · exact Or.inl h3
        · exact Or.inr (List.mem_cons_of_mem _ h3)
      · intro hall
        exact h4 (fun x hx => hall x (List.mem_cons_of_mem _ hx))

/-- C29: when the type distribution holds a positive count, `GetMostCommonTestType` returns
a pair `(t, c)` that is an entry of the distribution, so `TypeDistribution[t] = c`, with `c`
positive and at least every count of the distribution; when the distribution is empty or
holds no positive count it returns the empty classification and `0`. -/
theorem C29_most_common_type (result : ParseResult) :
    ((∃ e, e ∈ result.Stats.TypeDistribution ∧ 0 < e.2) →
        GetMostCommonTestType result ∈ result.Stats.TypeDistribution
          ∧ 0 < (GetMostCommonTestType result).2
          ∧ (∀ e, e ∈ result.Stats.TypeDistribution → e.2 ≤ (GetMostCommonTestType result).2)
          ∧ (GoMap.WF result.Stats.TypeDistribution →
              GoMap.get? result.Stats.TypeDistribution (GetMostCommonTestType result).1
                = some (GetMostCommonTestType result).2))
      ∧ ((∀ e, e ∈ result.Stats.TypeDistribution → e.2 ≤ 0) →
          GetMostCommonTestType result = ([], 0))
      ∧ GetMostCommonTestType { result with Stats := Statistics.zero } = ([], 0)
      ∧ GetMostCommonTestType exampleDistribution = ("unit".toList, 6) := by
  obtain ⟨h1, h2, h3, h4⟩ := foldl_mostCommonStep result.Stats.TypeDistribution ([], 0)
  refine ⟨?_, ?_, rfl, by decide⟩
  · rintro ⟨e, he, hpos⟩
    have hc : 0 < (GetMostCommonTestType result).2 := lt_of_lt_of_le hpos (h2 e he)
    have hmem : GetMostCommonTestType result ∈ result.Stats.TypeDistribution := by
      rcases h3 with h3 | h3
      · exfalso
        have : (GetMostCommonTestType result).2 = 0 := by
          unfold GetMostCommonTestType
          rw [h3]
        omega
      · exact h3
    refine ⟨hmem, hc, h2, ?_⟩
    intro hwf
    exact get?_of_mem _ hwf _ _ hmem
  · intro hall
    exact h4 hall

theorem C29_most_common_type_witness :
    (∃ e, e ∈ exampleDistribution.Stats.TypeDistribution ∧ 0 < e.2)
      ∧ GetMostCommonTestType exampleDistribution
          ∈ exampleDistribution.Stats.TypeDistribution :=
  ⟨⟨("unit".toList, 6), by decide, by decide⟩,
    ((C29_most_common_type exampleDistribution).1
      ⟨("unit".toList, 6), by decide, by decide⟩).1⟩

/-! ## The default include pattern -/

theorem matchChunk_append (chunk t : Str) : matchChunk chunk (chunk ++ t) = some t := by
  induction chunk with
  | nil => cases t <;> rfl
  | cons c cs ih => simp [matchChunk, ih]

theorem matchChunk_some (chunk s t : Str) (h : matchChunk chunk s = some t) :
    s = chunk ++ t := by
  induction chunk generalizing s with
  | nil =>
    cases s with
    | nil =>
      simp only [matchChunk, Option.some.injEq] at h
      rw [← h]
      rfl
    | cons x xs =>
      simp only [matchChunk, Option.some.injEq] at h
      rw [← h]
      rfl
  | cons c cs ih =>
    cases s with
    | nil => simp [matchChunk] at h
    | cons x xs =>
      by_cases hc : c = x
      · simp only [matchChunk, hc, if_true] at h
        rw [ih xs h, hc]
        rfl
      · simp [matchChunk, hc] at h

/-- After a star, the last chunk is found at the end of any name without a separator
before it. -/
theorem starLoop_suffix (chunk pre : Str) (hne : pre ≠ []) (hsep : '/' ∉ pre) :
    starLoop chunk true (pre ++ chunk) = some [] := by
  induction pre with
  | nil => exact absurd rfl hne
  | cons c rest ih =>
    simp only [List.mem_cons, not_or] at hsep
    have hc : ¬ c = '/' := fun e => hsep.1 e.symm
    simp only [List.cons_append, starLoop, hc, if_false]
    by_cases hr : rest = []
    · subst hr
      have hmm : matchChunk chunk chunk = some [] := by
        have h := matchChunk_append chunk []
        rwa [List.append_nil] at h
      simp [hmm]
    · have hrec := ih hr hsep.2
      cases hm : matchChunk chunk (rest ++ chunk) with
      | none => simpa using hrec
      | some t =>
        by_cases ht : t = []
        · simp [ht]
        · simp [ht, hrec]

theorem starLoop_some (chunk name t : Str) (h : starLoop chunk true name = some t) :
    t = [] ∧ ∃ pre, name = pre ++ chunk ∧ '/' ∉ pre := by
  induction name with
  | nil => simp [starLoop] at h
  | cons c rest ih =>
    by_cases hc : c = '/'
    · simp [starLoop, hc] at h
    · have hc' : ¬ '/' = c := fun e => hc e.symm
      simp only [starLoop, hc, if_false] at h
      cases hm : matchChunk chunk rest with
      | none =>
        rw [hm] at h
        obtain ⟨h1, pre, h2, h3⟩ := ih h
        exact ⟨h1, c :: pre, by rw [h2]; rfl, by simp [hc', h3]⟩
      | some t' =>
        rw [hm] at h
        by_cases ht : t' = []
        · simp only [ht, ne_eq, not_true_eq_false, decide_False, Bool.and_false,
            Bool.false_eq_true, if_false, Option.some.injEq] at h
          have hrest := matchChunk_some chunk rest t' hm
          rw [ht, List.append_nil] at hrest
          exact ⟨h.symm, [c], by rw [hrest]; rfl, by simp [hc']⟩
        · simp only [ne_eq, ht, not_false_eq_true, decide_True, Bool.and_self, if_true] at h
          obtain ⟨h1, pre, h2, h3⟩ := ih h
          exact ⟨h1, c :: pre, by rw [h2]; rfl, by simp [hc', h3]⟩

theorem matchLoop_nil (fuel : Nat) (name : Str) :
    matchLoop (fuel + 1) [] name = decide (name = []) := by
  simp [matchLoop]

/-- A pattern made of stars followed by one last literal chunk matches exactly the names
that end with the chunk and have no separator before it. -/
theorem matchLoop_star_last (fuel : Nat) (pattern chunk name : Str) (hp : pattern ≠ [])
    (hs : scanChunk pattern = (true, chunk, [])) (hc : chunk ≠ []) :
    matchLoop (fuel + 2) pattern name = true
      ↔ ∃ pre, name = pre ++ chunk ∧ '/' ∉ pre := by
  have hunfold : matchLoop (fuel + 2) pattern name
      = match matchChunk chunk name with
        | some t =>
          if t = [] then true
          else
            match starLoop chunk true name with
            | some t => decide (t = [])
            | none => false
        | none =>
          match starLoop chunk true name with
          | some t => decide (t = [])
          | none => false := by
    rw [matchLoop]
    simp only [hp, hs, hc, if_false, decide_False, Bool.and_false, Bool.false_eq_true,
      decide_True, if_true, matchLoop_nil, ne_eq, not_true_eq_false, Bool.or_false,
      decide_eq_true_eq]
    cases matchChunk chunk name with
    | none => rfl
    | some t =>
      by_cases ht : t = []
      · simp [ht]
      · simp [ht]
  rw [hunfold]
  constructor
  · intro h
    cases hm : matchChunk chunk name with
    | some t =>
      rw [hm] at h
      by_cases ht : t = []
      · have hn := matchChunk_some _ _ _ hm
        rw [ht, List.append_nil] at hn
        exact ⟨[], by rw [hn]; rfl, by simp⟩
      · simp only [ht, if_false] at h
        cases hst : starLoop chunk true name with
        | none => simp [hst] at h
        | some t' =>
          obtain ⟨_, pre, h2, h3⟩ := starLoop_some _ _ _ hst
          exact ⟨pre, h2, h3⟩
    | none =>
      rw [hm] at h
      cases hst : starLoop chunk true name with
      | none => simp [hst] at h
      | some t' =>
        obtain ⟨_, pre, h2, h3⟩ := starLoop_some _ _ _ hst
        exact ⟨pre, h2, h3⟩
  · rintro ⟨pre, rfl, hsep⟩
    by_cases hpre : pre = []
    · subst hpre
      have hmm : matchChunk chunk ([] ++ chunk) = some [] := by
        have h := matchChunk_append chunk []
        rwa [List.append_nil] at h
      rw [hmm]
      simp
    · have hst := starLoop_suffix chunk pre hpre hsep
      cases hm : matchChunk chunk (pre ++ chunk) with
      | none =>
        dsimp only
        rw [hst]
        simp
      | some t =>
        dsimp only
        by_cases ht : t = []
        · simp [ht]
        · rw [if_neg ht, hst]
          simp

theorem scanChunk_default :
    scanChunk "*_test.go".toList = (true, "_test.go".toList, []) := by decide

/-- The default include pattern `*_test.go` matches exactly the names that end with
`_test.go` and have no separator before that suffix. -/
theorem filepathMatch_default (name : Str) :
    filepathMatch "*_test.go".toList name = true
      ↔ ∃ pre, name = pre ++ "_test.go".toList ∧ '/' ∉ pre :=
  matchLoop_star_last 8 "*_test.go".toList "_test.go".toList name (by decide)
    scanChunk_default (by decide)

theorem HasSuffix_iff (s suf : Str) : HasSuffix s suf = true ↔ ∃ pre, s = pre ++ suf := by
  unfold HasSuffix
  rw [List.isSuffixOf_iff_suffix]
  constructor
  · rintro ⟨r, hr⟩; exact ⟨r, hr.symm⟩
  · rintro ⟨r, hr⟩; exact ⟨r, hr.symm⟩

/-- The base name of a path that ends with `_test.go` ends with `_test.go` and holds no
separator. -/
theorem filepathBase_test_file (path : Str) (h : HasSuffix path "_test.go".toList = true) :
    ∃ pre, filepathBase path = pre ++ "_test.go".toList ∧ '/' ∉ pre := by
  obtain ⟨p, rfl⟩ := (HasSuffix_iff path _).mp h
  have hne : ¬ p ++ "_test.go".toList = [] := by
    intro he
    have := congrArg List.length he
    simp at this
  have hsplit : p ++ "_test.go".toList = (p ++ "_test.g".toList) ++ ['o'] := by
    rw [List.append_assoc]
    rfl
  have hdrop : (p ++ "_test.go".toList).rdropWhile (fun c => c == '/')
      = p ++ "_test.go".toList := by
    rw [hsplit]
    exact List.rdropWhile_concat_neg _ _ _ (by decide)
  have htake : ((p ++ "_test.go".toList).reverse.takeWhile (fun c => c != '/')).reverse
      = (p.reverse.takeWhile (fun c => c != '/')).reverse ++ "_test.go".toList := by
    rw [List.reverse_append, List.takeWhile_append_of_pos (by decide), List.reverse_append,
      List.reverse_reverse]
  refine ⟨(p.reverse.takeWhile (fun c => c != '/')).reverse, ?_, ?_⟩
  · unfold filepathBase
    rw [if_neg hne]
    dsimp only
    rw [hdrop, htake]
    have hne2 : ¬ (p.reverse.takeWhile (fun c => c != '/')).reverse ++ "_test.go".toList
        = [] := by
      intro he
      have := congrArg List.length he
      simp at this
    rw [if_neg hne2]
  · intro hm
    have hm' := List.mem_takeWhile_imp (List.mem_reverse.mp hm)
    simp at hm'

/-- C28: with the default configuration, and `Base` and `Match` of `path/filepath` for the
path and for the default pattern `*_test.go`, `shouldExcludeFile` is false for every path
that `isTestFile` accepts, so every such file is scanned; on a base name, which holds no
separator, the default pattern selects exactly the names that end with `_test.go`. -/
theorem C28_default_config_scans_test_files (P : PathLib) (path : Str)
    (hBase : P.Base path = filepathBase path)
    (hMatch : ∀ name, P.Match "*_test.go".toList name = filepathMatch "*_test.go".toList name)
    (htest : isTestFile path = true) :
    shouldExcludeFile P path DefaultConfig = false
      ∧ qualifies P path DefaultConfig = true
      ∧ (∀ name, '/' ∉ name →
          (filepathMatch "*_test.go".toList name = true
            ↔ HasSuffix name "_test.go".toList = true)) := by
  have hm : P.Match "*_test.go".toList (P.Base path) = true := by
    rw [hMatch, hBase]
    exact (filepathMatch_default _).mpr (filepathBase_test_file path htest)
  have hm' : P.Match ['*', '_', 't', 'e', 's', 't', '.', 'g', 'o'] (P.Base path) = true := hm
  have hex : shouldExcludeFile P path DefaultConfig = false := by
    simp [shouldExcludeFile, DefaultConfig, elems, hm']
  refine ⟨hex, by simp [qualifies, htest, hex], ?_⟩
  intro name hsep
  rw [filepathMatch_default, HasSuffix_iff]
  constructor
  · rintro ⟨pre, h, _⟩
    exact ⟨pre, h⟩
  · rintro ⟨pre, h⟩
    refine ⟨pre, h, fun hp => hsep ?_⟩
    rw [h]
    exact List.mem_append_left _ hp

theorem C28_default_config_scans_test_files_witness :
    unixPathLib.Base "/path/to/example_test.go".toList
        = filepathBase "/path/to/example_test.go".toList
      ∧ (∀ name, unixPathLib.Match "*_test.go".toList name
          = filepathMatch "*_test.go".toList name)
      ∧ isTestFile "/path/to/example_test.go".toList = true
      ∧ shouldExcludeFile unixPathLib "/path/to/example_test.go".toList DefaultConfig = false :=
  ⟨rfl, fun _ => rfl, by decide,
    (C28_default_config_scans_test_files unixPathLib "/path/to/example_test.go".toList rfl
      (fun _ => rfl) (by decide)).1⟩

/-! ## `CalculateTestCoverage` -/

set_option maxRecDepth 100000

theorem foldl_coverageStep (total : Int) (d : GoMap Int) (acc : GoMap F64)
    (h : (GoMap.keys acc ++ GoMap.keys d).Nodup) :
    d.foldl (coverageStep total) acc
      = acc ++ d.map (fun entry =>
          (entry.1, F64.mul (F64.div (F64.ofInt entry.2) (F64.ofInt total)) (F64.ofInt 100))) := by
  induction d generalizing acc with
  | nil => simp
  | cons e rest ih =>
    obtain ⟨k, c⟩ := e
    have hk : k ∉ GoMap.keys acc := by
      intro hm
      have hd : List.Disjoint (GoMap.keys acc) (GoMap.keys ((k, c) :: rest)) :=
        (List.nodup_append.mp h).2.2
      exact hd hm (List.mem_cons_self _ _)
    have hs : coverageStep total acc (k, c)
        = acc ++ [(k, F64.mul (F64.div (F64.ofInt c) (F64.ofInt total)) (F64.ofInt 100))] := by
      simp only [coverageStep]
      exact set_of_not_mem_keys acc k _ hk
    rw [List.foldl_cons, hs, ih]
    · simp only [List.map_cons, List.append_assoc, List.singleton_append]
    · simp only [GoMap.keys, List.map_append, List.map_cons, List.map_nil,
        List.append_assoc, List.singleton_append] at h ⊢
      exact h

theorem get?_map_snd {V W : Type} (f : V → W) (m : GoMap V) (k : Str) :
    GoMap.get? (m.map (fun entry => (entry.1, f entry.2))) k = (GoMap.get? m k).map f := by
  induction m with
  | nil => simp [GoMap.get?]
  | cons e rest ih =>
    obtain ⟨k', v⟩ := e
    by_cases hk : k' = k
    · simp [GoMap.get?, hk]
    · simp [GoMap.get?, hk, ih]

/-- A share that is not a `float64` is rounded: 7 tests of 100 give the `float64` next
above `7`, not `7` itself. -/
theorem coverage_rounding_example :
    F64.mul (F64.div (F64.ofInt 7) (F64.ofInt 100)) (F64.ofInt 100)
        = F64.finite false 7881299347898369 (-50)
      ∧ F64.ofInt 7 = F64.finite false 7881299347898368 (-50) := by
  decide

/-- C30: `CalculateTestCoverage` returns the empty map whenever `Stats.TotalTests` is `0`,
whatever the distribution holds; otherwise the returned map has exactly the keys of
`TypeDistribution`, and the value under each key is the `float64` expression
`float64(count) / float64(TotalTests) * 100` of the count under that key.  On the
distribution of the tests (6, 3 and 1 of 10) the values are exactly 60, 30 and 10. -/
theorem C30_coverage_per_type (result : ParseResult)
    (hwf : GoMap.WF result.Stats.TypeDistribution) :
    (result.Stats.TotalTests = 0 → CalculateTestCoverage result = [])
      ∧ (result.Stats.TotalTests ≠ 0 →
          GoMap.keys (CalculateTestCoverage result) = GoMap.keys result.Stats.TypeDistribution
            ∧ ∀ t, GoMap.get? (CalculateTestCoverage result) t
                = (GoMap.get? result.Stats.TypeDistribution t).map (fun count =>
                    F64.mul (F64.div (F64.ofInt count) (F64.ofInt result.Stats.TotalTests))
                      (F64.ofInt 100)))
      ∧ CalculateTestCoverage exampleDistribution
          = [(UnitTest, F64.ofInt 60), (IntegrationTest, F64.ofInt 30), (E2ETest, F64.ofInt 10)] := by
  refine ⟨?_, ?_, by decide⟩
  · intro h0
    simp [CalculateTestCoverage, h0]
  · intro h0
    have hclosed : CalculateTestCoverage result
        = result.Stats.TypeDistribution.map (fun entry =>
            (entry.1, F64.mul (F64.div (F64.ofInt entry.2) (F64.ofInt result.Stats.TotalTests))
              (F64.ofInt 100))) := by
      simp only [CalculateTestCoverage, if_neg h0]
      rw [foldl_coverageStep]
      · rfl
      · simpa [GoMap.keys, GoMap.WF] using hwf
    refine ⟨?_, ?_⟩
    · rw [hclosed]
      simp [GoMap.keys, List.map_map, Function.comp_def]
    · intro t
      rw [hclosed]
      exact get?_map_snd (fun count =>
        F64.mul (F64.div (F64.ofInt count) (F64.ofInt result.Stats.TotalTests)) (F64.ofInt 100))
        result.Stats.TypeDistribution t

theorem C30_coverage_per_type_witness :
    GoMap.WF exampleDistribution.Stats.TypeDistribution
      ∧ GoMap.keys (CalculateTestCoverage exampleDistribution) = [UnitTest, IntegrationTest, E2ETest]
      ∧ GoMap.get? (CalculateTestCoverage exampleDistribution) UnitTest
          = some (F64.finite false 8444249301319680 (-47))
      ∧ CalculateTestCoverage { exampleDistribution with
            Stats := { exampleDistribution.Stats with TotalTests := 0 } } = [] :=
  ⟨by decide,
   ((C30_coverage_per_type exampleDistribution (by decide)).2.1 (by decide)).1,
   (((C30_coverage_per_type exampleDistribution (by decide)).2.1 (by decide)).2 UnitTest).trans
     (by decide),
   (C30_coverage_per_type
      { exampleDistribution with Stats := { exampleDistribution.Stats with TotalTests := 0 } }
      (by decide)).1 rfl⟩

/-! ## The order of the records of a package -/

theorem filter_retained_eq_flatten (P : PathLib) (config : Config) (k : Str)
    (entries : List WalkEntry) :
    (retained P config entries).filter (fun t => decide (t.Package = k))
      = (entries.map (retainedOf P config k)).flatten := by
  induction entries with
  | nil => simp [retained, scanned]
  | cons e rest ih =>
    rw [retained_cons, List.filter_append, ih]
    simp [retainedOf]

/-- C32: in a model returned by `ParseDirectory`, the `Tests` of the package stored under
a key are the concatenation, over the visited entries in visiting order, of the records of
that file that are retained and belong to the package, each file contributing them in the
order `ParseFile` returned them (declaration order). -/
theorem C32_records_in_visiting_order (P : PathLib) (config : Config)
    (entries : List WalkEntry) (r : ParseResult)
    (h : ParseDirectory P entries config = some r) (k : Str) (p : PackageInfo)
    (hp : r.Packages.get? k = some p) :
    p.Tests = (entries.map (retainedOf P config k)).flatten := by
  obtain ⟨h1, _⟩ := ParseDirectory_spec P config entries r h
  have h2 := h1 k
  simp only [testsUnder, hp] at h2
  rw [h2, filter_retained_eq_flatten]

theorem C32_records_in_visiting_order_witness :
    ParseDirectory examplePathLib exampleWalk DefaultConfig
        = some (exampleWalkResult DefaultConfig)
      ∧ (exampleWalkResult DefaultConfig).Packages.get? "alpha".toList
          = some (testsPackage "alpha".toList "root".toList)
      ∧ (testsPackage "alpha".toList "root".toList).Tests.map (fun t => t.Name)
          = ["TestA".toList, "TestB".toList] := by
  have h0 : ParseDirectory examplePathLib exampleWalk DefaultConfig
      = some (exampleWalkResult DefaultConfig) := by decide
  have hp : (exampleWalkResult DefaultConfig).Packages.get? "alpha".toList
      = some (testsPackage "alpha".toList "root".toList) := by decide
  refine ⟨h0, hp, ?_⟩
  rw [C32_records_in_visiting_order examplePathLib DefaultConfig exampleWalk
    (exampleWalkResult DefaultConfig) h0 "alpha".toList
    (testsPackage "alpha".toList "root".toList) hp]
  decide

/-! ## Errors reported by the walk -/

theorem walk_eq_none_iff (P : PathLib) (config : Config) (entries : List WalkEntry)
    (packages : GoMap PackageInfo) :
    walk P config packages entries = none ↔ ∃ e, e ∈ entries ∧ e.err = true := by
  induction entries generalizing packages with
  | nil => simp [walk]
  | cons e rest ih =>
    simp only [walk]
    cases herr : e.err with
    | true =>
      have hf : walkFn P config packages e = none := by simp [walkFn, herr]
      rw [hf]
      exact ⟨fun _ => ⟨e, List.mem_cons_self _ _, herr⟩, fun _ => rfl⟩
    | false =>
      cases hf : walkFn P config packages e with
      | none =>
        exfalso
        unfold walkFn at hf
        rw [herr] at hf
        simp only [Bool.false_eq_true, if_false] at hf
        split at hf
        · simp at hf
        · split at hf
          · simp at hf
          · split at hf <;> simp at hf
      | some packages' =>
        simp only []
        rw [ih packages']
        constructor
        · rintro ⟨x, hx, hxe⟩
          exact ⟨x, List.mem_cons_of_mem _ hx, hxe⟩
        · rintro ⟨x, hx, hxe⟩
          rcases List.mem_cons.mp hx with rfl | hx
          · rw [herr] at hxe; cases hxe
          · exact ⟨x, hx, hxe⟩

/-- C33, as stated, fails: the walk over `exampleWalkErr` starts (the root is visited
without error and a test file is scanned), the callback is then called with an error for
the directory `root/sub`, which is not the root, and `ParseDirectory` returns the error
instead of a model built from the other files. -/
theorem C33_non_root_error_counterexample :
    (exampleWalkErr.head?.map (fun e => (e.path, e.err))) = some ("root".toList, false)
      ∧ (exampleWalkErr.getLast?.map (fun e => (e.path, e.err)))
          = some ("root/sub".toList, true)
      ∧ (ParseDirectory examplePathLib exampleWalk DefaultConfig).isSome = true
      ∧ ParseDirectory examplePathLib exampleWalkErr DefaultConfig = none := by
  decide

/-- C33, amended: `ParseDirectory` fails exactly when the walk calls the callback with an
error for some visited entry, the root or any other; the callback returns that error and
the walk stops.  When no entry carries an error `ParseDirectory` returns a model, and the
records under each key are the retained records of that package from the scanned files, a
file on which `ParseFile` fails contributing none. -/
theorem C33_walk_error_is_fatal (P : PathLib) (config : Config) (entries : List WalkEntry) :
    (ParseDirectory P entries config = none ↔ ∃ e, e ∈ entries ∧ e.err = true)
      ∧ ((∀ e, e ∈ entries → e.err = false) →
          ∃ r, ParseDirectory P entries config = some r
            ∧ ∀ k, testsUnder r.Packages k
                = (retained P config entries).filter (fun t => decide (t.Package = k))) := by
  have hiff : ParseDirectory P entries config = none ↔ ∃ e, e ∈ entries ∧ e.err = true := by
    rw [← walk_eq_none_iff P config entries []]
    unfold ParseDirectory
    cases walk P config [] entries <;> simp
  refine ⟨hiff, ?_⟩
  intro hno
  cases hr : ParseDirectory P entries config with
  | none =>
    obtain ⟨e, he, hee⟩ := hiff.mp hr
    rw [hno e he] at hee
    cases hee
  | some r => exact ⟨r, rfl, (ParseDirectory_spec P config entries r hr).1⟩

theorem C33_walk_error_is_fatal_witness :
    (∀ e, e ∈ exampleWalk → e.err = false)
      ∧ ∃ r, ParseDirectory examplePathLib exampleWalk DefaultConfig = some r
          ∧ ∀ k, testsUnder r.Packages k
              = (retained examplePathLib DefaultConfig exampleWalk).filter
                  (fun t => decide (t.Package = k)) :=
  ⟨by decide,
   (C33_walk_error_is_fatal examplePathLib DefaultConfig exampleWalk).2 (by decide)⟩

/-! ## The packages of an aggregated model -/

theorem mem_keys_iff_get? {V : Type} (m : GoMap V) (k : Str) :
    k ∈ GoMap.keys m ↔ ∃ v, GoMap.get? m k = some v := by
  induction m with
  | nil => simp [GoMap.keys, GoMap.get?]
  | cons e rest ih =>
    obtain ⟨k', v'⟩ := e
    by_cases hk : k' = k
    · subst hk
      refine ⟨fun _ => ⟨v', ?_⟩, fun _ => ?_⟩
      · simp only [GoMap.get?, if_true]
      · simp only [GoMap.keys, List.map_cons]
        exact List.mem_cons_self _ _
    · have hk' : ¬ k = k' := fun h => hk h.symm
      simp only [GoMap.keys, List.map_cons, List.mem_cons, hk', false_or, GoMap.get?, hk,
        if_false]
      exact ih

/-- C35: in a model returned by `ParseDirectory`, every package has at least one record,
its `Name` is its key and every record under a key has that key as `Package`;
`Stats.PackageCount` is the number of distinct package names among the retained records,
and a key none of whose records is retained is absent. -/
theorem C35_package_per_retained_name (P : PathLib) (config : Config)
    (entries : List WalkEntry) (r : ParseResult)
    (h : ParseDirectory P entries config = some r) :
    (∀ k p, r.Packages.get? k = some p →
        p.Tests ≠ [] ∧ p.Name = k ∧ ∀ t, t ∈ p.Tests → t.Package = k)
      ∧ r.Stats.PackageCount
          = (((retained P config entries).map (fun t => t.Package)).dedup.length : Int)
      ∧ (∀ k, (∀ t, t ∈ retained P config entries → t.Package ≠ k) →
          r.Packages.get? k = none) := by
  obtain ⟨h1, hwf, hinv⟩ := ParseDirectory_spec P config entries r h
  obtain ⟨_, hcalc⟩ := ParseDirectory_packages P config entries r h
  have hmem : ∀ k, k ∈ GoMap.keys r.Packages
      ↔ k ∈ ((retained P config entries).map (fun t => t.Package)).dedup := by
    intro k
    rw [mem_keys_iff_get?, List.mem_dedup, List.mem_map]
    constructor
    · rintro ⟨p, hp⟩
      obtain ⟨_, hne, _, _⟩ := hinv k p hp
      have h2 := h1 k
      simp only [testsUnder, hp] at h2
      cases hts : p.Tests with
      | nil => exact absurd hts hne
      | cons t ts =>
        have ht : t ∈ (retained P config entries).filter (fun t => decide (t.Package = k)) := by
          rw [← h2, hts]; exact List.mem_cons_self _ _
        obtain ⟨hr, hk⟩ := List.mem_filter.mp ht
        exact ⟨t, hr, by simpa using hk⟩
    · rintro ⟨t, ht, hk⟩
      have h2 := h1 k
      have hin : t ∈ (retained P config entries).filter (fun t => decide (t.Package = k)) :=
        List.mem_filter.mpr ⟨ht, by simpa using hk⟩
      rw [← h2] at hin
      unfold testsUnder at hin
      cases hg : r.Packages.get? k with
      | none => rw [hg] at hin; simp at hin
      | some p => exact ⟨p, rfl⟩
  refine ⟨?_, ?_, ?_⟩
  · intro k p hp
    obtain ⟨hn, hne, hpk, _⟩ := hinv k p hp
    exact ⟨hne, hn, hpk⟩
  · have hc : r.Stats.PackageCount = (r.Packages.length : Int) := by
      have := (CalculateStats_counts { Packages := r.Packages, Stats := Statistics.zero }).2
      rw [← hcalc] at this
      exact this
    rw [hc]
    have hperm : (GoMap.keys r.Packages).Perm
        ((retained P config entries).map (fun t => t.Package)).dedup :=
      (List.perm_ext_iff_of_nodup hwf (List.nodup_dedup _)).mpr hmem
    have hl := hperm.length_eq
    simp only [GoMap.keys, List.length_map] at hl
    rw [hl]
  · intro k hk
    cases hg : r.Packages.get? k with
    | none => rfl
    | some p =>
      exfalso
      have hin : k ∈ GoMap.keys r.Packages := (mem_keys_iff_get? _ _).mpr ⟨p, hg⟩
      rw [hmem, List.mem_dedup, List.mem_map] at hin
      obtain ⟨t, ht, htk⟩ := hin
      exact hk t ht htk

theorem C35_package_per_retained_name_witness :
    ParseDirectory examplePathLib exampleWalk { DefaultConfig with IncludeSkipped := false }
        = some (exampleWalkResult { DefaultConfig with IncludeSkipped := false })
      ∧ (exampleWalkResult { DefaultConfig with IncludeSkipped := false }).Stats.PackageCount
          = 1
      ∧ (exampleWalkResult { DefaultConfig with IncludeSkipped := false }).Packages.get?
          "beta".toList = none := by
  have h0 : ParseDirectory examplePathLib exampleWalk
      { DefaultConfig with IncludeSkipped := false }
      = some (exampleWalkResult { DefaultConfig with IncludeSkipped := false }) := by decide
  have h := C35_package_per_retained_name examplePathLib
    { DefaultConfig with IncludeSkipped := false } exampleWalk
    (exampleWalkResult { DefaultConfig with IncludeSkipped := false }) h0
  refine ⟨h0, ?_, h.2.2 "beta".toList (by decide)⟩
  rw [h.2.1]
  decide

/-! ## Lines that change nothing -/

/-- C36: a `@created:` or `@updated:` line whose trimmed payload is not a valid
`YYYY-MM-DD` date leaves the whole record unchanged; in particular a date stored by an
earlier valid line of the same kind is kept. -/
theorem C36_invalid_date_keeps_record (ti : TestInfo) (payload : Str)
    (hbad : timeParse (TrimSpace payload) = none) :
    parseAnnotation ("@created:".toList ++ payload) ti = ti
      ∧ parseAnnotation ("@updated:".toList ++ payload) ti = ti
      ∧ (∀ good date, timeParse (TrimSpace good) = some date →
          ( parseAnnotation ("@created:".toList ++ payload)
              ( parseAnnotation ("@created:".toList ++ good) ti)).Created = date
            ∧ ( parseAnnotation ("@updated:".toList ++ payload)
                ( parseAnnotation ("@updated:".toList ++ good) ti)).Updated = date) := by
  refine ⟨?_, ?_, ?_⟩
  · rw [parseAnnotation_created, hbad]
  · rw [parseAnnotation_updated, hbad]
  · intro good date hgood
    rw [parseAnnotation_created, parseAnnotation_updated, hbad]
    simp only []
    rw [parseAnnotation_created, parseAnnotation_updated, hgood]
    exact ⟨rfl, rfl⟩

theorem C36_invalid_date_keeps_record_witness :
    timeParse (TrimSpace " 2024-13-01".toList) = none
      ∧ parseAnnotation ("@created:".toList ++ " 2024-13-01".toList) exampleDated
          = exampleDated
      ∧ parseAnnotation ("@updated:".toList ++ " 2024-13-01".toList) exampleDated
          = exampleDated :=
  ⟨by decide,
   (C36_invalid_date_keeps_record exampleDated " 2024-13-01".toList (by decide)).1,
   (C36_invalid_date_keeps_record exampleDated " 2024-13-01".toList (by decide)).2.1⟩

/-! ## The number of tags of a `@tags:` line -/

theorem length_Split (c : Char) (s : Str) : (Split c s).length = s.count c + 1 := by
  induction s with
  | nil => rfl
  | cons x xs ih =>
    by_cases hx : x = c
    · subst hx
      simp [Split, ih]
    · have hne : (x == c) = false := by simpa using hx
      simp only [Split, hx, if_false, List.count_cons, hne, Bool.false_eq_true]
      cases hs : Split c xs with
      | nil => exact absurd hs (Split_ne_nil c xs)
      | cons piece pieces =>
        rw [hs] at ih
        simpa using ih

/-- C39: a `@tags:` line appends as many tags as the trimmed payload has commas, plus one.
A payload that is empty or white space only appends one tag, the empty string; the payload
`a,,b` appends `a`, the empty string and `b`. -/
theorem C39_tags_per_comma (ti : TestInfo) (payload : Str) :
    ( parseAnnotation ("@tags:".toList ++ payload) ti).Tags.length
        = ti.Tags.length + ((TrimSpace payload).count ',' + 1)
      ∧ (TrimSpace payload = [] →
          ( parseAnnotation ("@tags:".toList ++ payload) ti).Tags = ti.Tags ++ [[]])
      ∧ ( parseAnnotation "@tags: a,,b".toList ti).Tags
          = ti.Tags ++ ["a".toList, [], "b".toList] := by
  refine ⟨?_, ?_, ?_⟩
  · rw [parseAnnotation_tags, foldl_tags]
    simp only [List.length_append, List.length_map, length_Split]
  · intro hempty
    rw [parseAnnotation_tags, foldl_tags, hempty]
    rfl
  · have h := parseAnnotation_tags " a,,b".toList ti
    have hs : (Split ',' (TrimSpace " a,,b".toList)).map TrimSpace
        = ["a".toList, [], "b".toList] := by decide
    rw [foldl_tags, hs] at h
    have hl : "@tags: a,,b".toList = "@tags:".toList ++ " a,,b".toList := by decide
    rw [hl, h]

theorem C39_tags_per_comma_witness :
    TrimSpace "   ".toList = []
      ∧ ( parseAnnotation ("@tags:".toList ++ "   ".toList) (newTestInfo [] [] 0 [])).Tags
          = [[]] :=
  ⟨by decide,
   (C39_tags_per_comma (newTestInfo [] [] 0 []) "   ".toList).2.1 (by decide)⟩

/-! ## An `@` line without a colon -/

theorem mem_of_HasPrefix (line pre : Str) (c : Char) (hc : c ∈ pre)
    (h : HasPrefix line pre = true) : c ∈ line := by
  obtain ⟨rest, rfl⟩ := (HasPrefix_iff line pre).mp h
  exact List.mem_append_left _ hc

theorem parseAnnotation_no_colon (line : Str) (ti : TestInfo) (hcolon : ':' ∉ line) :
    parseAnnotation line ti = ti := by
  have hp : ∀ pre : Str, ':' ∈ pre → ¬ (HasPrefix line pre = true) :=
    fun pre hc h => hcolon (mem_of_HasPrefix line pre ':' hc h)
  have hc : ¬ (Contains line ':' = true) := by
    simpa [Contains] using hcolon
  unfold parseAnnotation
  rw [if_neg (hp _ (by decide)), if_neg (hp _ (by decide)), if_neg (hp _ (by decide)),
    if_neg (hp _ (by decide)), if_neg (hp _ (by decide)), if_neg (hp _ (by decide)),
    if_neg (hp _ (by decide)), if_neg hc]

/-- C40, as stated, fails on a block comment.  The comment `exampleTodoBlock` has the
source line `@todo`, which starts with `@` and has no colon, but it is one comment, and
`parseDocComments` handles it as one line that does not begin with `@`: the line `@todo`
is added to the `Description`. -/
theorem C40_block_comment_counterexample :
    exampleTodoBlock.map (Split '\n')
        = [["/*".toList, "Checks the login".toList, "@todo".toList, "*/".toList]]
      ∧ HasPrefix "@todo".toList "@".toList = true
      ∧ ':' ∉ "@todo".toList
      ∧ (parseDocComments exampleTodoBlock (newTestInfo [] [] 0 [])).Description
          = "Checks the login\n@todo".toList
      ∧ (parseDocComments exampleTodoBlock (newTestInfo [] [] 0 [])).Description
          ≠ "Checks the login".toList := by
  decide

/-- C40, amended: a line that starts with `@` and contains no colon changes nothing, a
line of `parseDocComments` being the cleaned text of one whole comment of the group.
`parseAnnotation` returns the record as it was; for a comment whose cleaned text is such a
line, the loop body of `parseDocComments` leaves both the record and the text collected
for the `Description` as they were, and `parseDocComments` returns for a comment group
with such a comment what it returns for the group without it. -/
theorem C40_at_line_without_colon (ti : TestInfo) (line : Str)
    (hat : HasPrefix line "@".toList = true) (hcolon : ':' ∉ line) :
    parseAnnotation line ti = ti
      ∧ (∀ text state, cleanLine text = line → docStep state text = state)
      ∧ (∀ text pre post, cleanLine text = line →
          parseDocComments (pre ++ text :: post) ti = parseDocComments (pre ++ post) ti) := by
  have hstep : ∀ text state, cleanLine text = line → docStep state text = state := by
    intro text state hclean
    have hne : line ≠ [] := by
      obtain ⟨rest, rfl⟩ := (HasPrefix_iff line _).mp hat
      exact fun h => by cases h
    unfold docStep
    simp only [hclean, if_neg hne, hat, if_true, parseAnnotation_no_colon line state.2 hcolon]
  refine ⟨parseAnnotation_no_colon line ti hcolon, hstep, ?_⟩
  intro text pre post hclean
  unfold parseDocComments
  simp only [List.foldl_append, List.foldl_cons, hstep text _ hclean]

theorem C40_at_line_without_colon_witness :
    HasPrefix "@todo".toList "@".toList = true
      ∧ ':' ∉ "@todo".toList
      ∧ cleanLine "// @todo".toList = "@todo".toList
      ∧ parseDocComments ["// Checks the login".toList, "// @todo".toList]
            (newTestInfo [] [] 0 [])
          = { newTestInfo [] [] 0 [] with Description := "Checks the login".toList } := by
  refine ⟨by decide, by decide, by decide, ?_⟩
  exact ((C40_at_line_without_colon (newTestInfo [] [] 0 []) "@todo".toList (by decide)
    (by decide)).2.2 "// @todo".toList ["// Checks the login".toList] [] (by decide)).trans
    (by decide)

/-! ## `ValidateConfig` -/

/-- C34: `ValidateConfig` returns no error.  After it `Title`, `Author` and `Version` are
non-empty: an empty one is replaced by `Test Documentation`, `Generated automatically`
and `1.0.0`, a non-empty one is as it was.  A nil `IncludePatterns` becomes
`["*_test.go"]`, a nil `ExcludePatterns` or `CustomTemplates` becomes empty and non-nil,
non-nil ones and the three flags are as they were.  A second call changes nothing. -/
theorem C34_validateConfig (config : ConfigWithLanguage) :
    (ValidateConfig config).2 = none
      ∧ (ValidateConfig config).1.Title
          = (if config.Title = [] then "Test Documentation".toList else config.Title)
      ∧ (ValidateConfig config).1.Author
          = (if config.Author = [] then "Generated automatically".toList else config.Author)
      ∧ (ValidateConfig config).1.Version
          = (if config.Version = [] then "1.0.0".toList else config.Version)
      ∧ (ValidateConfig config).1.Title ≠ []
      ∧ (ValidateConfig config).1.Author ≠ []
      ∧ (ValidateConfig config).1.Version ≠ []
      ∧ (ValidateConfig config).1.IncludePatterns
          = some (config.IncludePatterns.getD ["*_test.go".toList])
      ∧ (ValidateConfig config).1.ExcludePatterns = some (config.ExcludePatterns.getD [])
      ∧ (ValidateConfig config).1.CustomTemplates = some (config.CustomTemplates.getD [])
      ∧ (ValidateConfig config).1.IncludeSkipped = config.IncludeSkipped
      ∧ (ValidateConfig config).1.GroupByType = config.GroupByType
      ∧ (ValidateConfig config).1.GroupByPackage = config.GroupByPackage
      ∧ ValidateConfig (ValidateConfig config).1 = ((ValidateConfig config).1, none) := by
  obtain ⟨⟨title, author, version, skipped, byType, byPackage, templates, excl, incl⟩,
    language⟩ := config
  have e1 : "Test Documentation".toList ≠ [] := by decide
  have e2 : "Generated automatically".toList ≠ [] := by decide
  have e3 : "1.0.0".toList ≠ [] := by decide
  have e4 : "ru".toList ≠ [] := by decide
  by_cases h1 : title = [] <;> by_cases h2 : author = [] <;> by_cases h3 : version = []
    <;> by_cases h4 : language = [] <;> cases templates <;> cases excl <;> cases incl
    <;> simp [ValidateConfig, h1, h2, h3, h4, e1, e2, e3, e4]

theorem C34_validateConfig_witness :
    (ValidateConfig emptyConfig).2 = none
      ∧ (ValidateConfig emptyConfig).1.Title = "Test Documentation".toList
      ∧ (ValidateConfig emptyConfig).1.IncludePatterns = some ["*_test.go".toList]
      ∧ ValidateConfig (ValidateConfig emptyConfig).1 = ((ValidateConfig emptyConfig).1, none) :=
  ⟨(C34_validateConfig emptyConfig).1,
   (C34_validateConfig emptyConfig).2.1.trans (by decide),
   (C34_validateConfig emptyConfig).2.2.2.2.2.2.2.1.trans (by decide),
   (C34_validateConfig emptyConfig).2.2.2.2.2.2.2.2.2.2.2.2.2⟩

/-! ## The type filter and the tag filter commute -/

theorem ByType_eq (m : ParseResult) (T : TestType) (h : GoMap.WF m.Packages) :
    ByType m T
      = CalculateStats
          { Packages := m.Packages.filterMap (selectEntry (selectPkgByType T)),
            Stats := Statistics.zero } := by
  simp only [ByType, byTypePackage_eq]
  rw [foldl_passEntry _ _ _ (by simpa [GoMap.keys] using h)]
  rfl

theorem ByTags_eq (m : ParseResult) (S : List Str) (h : GoMap.WF m.Packages) :
    ByTags m S
      = CalculateStats
          { Packages := m.Packages.filterMap
              (selectEntry (selectPkg (fun t => hasAnyTag t.Tags S))),
            Stats := Statistics.zero } := by
  simp only [ByTags, byTagsPackage_eq]
  rw [foldl_passEntry _ _ _ (by simpa [GoMap.keys] using h)]
  rfl

theorem foldl_addType_same (T : TestType) (l : List TestType) (h : ∀ x, x ∈ l → x = T) :
    l.foldl addType [T] = [T] := by
  induction l with
  | nil => rfl
  | cons x xs ih =>
    have hx : x = T := h x (List.mem_cons_self _ _)
    subst hx
    have hs : addType [x] x = [x] := by simp [addType, foundType]
    rw [List.foldl_cons, hs]
    exact ih (fun y hy => h y (List.mem_cons_of_mem _ hy))

theorem types_of_one_type (T : TestType) (ts : List TestInfo) (hne : ts ≠ [])
    (h : ∀ t, t ∈ ts → t.Type_ = T) :
    (ts.map (fun t => t.Type_)).foldl addType [] = [T] := by
  cases ts with
  | nil => exact absurd rfl hne
  | cons t rest =>
    have ht : t.Type_ = T := h t (List.mem_cons_self _ _)
    have hs : addType [] t.Type_ = [T] := by simp [addType, foundType, ht]
    rw [List.map_cons, List.foldl_cons, hs]
    apply foldl_addType_same
    intro x hx
    obtain ⟨u, hu, rfl⟩ := List.mem_map.mp hx
    exact h u (List.mem_cons_of_mem _ hu)

theorem selectEntry_comm (T : TestType) (keep : TestInfo → Bool) (e : Str × PackageInfo) :
    (selectEntry (selectPkg keep) e).bind (selectEntry (selectPkgByType T))
      = (selectEntry (selectPkgByType T) e).bind (selectEntry (selectPkg keep)) := by
  obtain ⟨k, p⟩ := e
  have hcomm : (p.Tests.filter keep).filter (fun t => decide (t.Type_ = T))
      = (p.Tests.filter (fun t => decide (t.Type_ = T))).filter keep := by
    rw [List.filter_filter, List.filter_filter]
    congr 1
    funext t
    exact Bool.and_comm _ _
  by_cases hne : (p.Tests.filter (fun t => decide (t.Type_ = T))).filter keep = []
  · have hne' : (p.Tests.filter keep).filter (fun t => decide (t.Type_ = T)) = [] := by
      rw [hcomm]; exact hne
    have hl : ∀ q : PackageInfo,
        q.Tests.filter (fun t => decide (t.Type_ = T)) = [] →
          selectEntry (selectPkgByType T) (k, q) = none := by
      intro q hq
      simp [selectEntry, selectPkgByType, hq]
    have hr : ∀ q : PackageInfo, q.Tests.filter keep = [] →
        selectEntry (selectPkg keep) (k, q) = none := by
      intro q hq
      simp [selectEntry, selectPkg, hq]
    have h1 : (selectEntry (selectPkg keep) (k, p)).bind (selectEntry (selectPkgByType T))
        = none := by
      by_cases hk : (p.Tests.filter keep).length > 0
      · have : selectEntry (selectPkg keep) (k, p) = some (k, selectPkg keep p) := by
          simp [selectEntry, selectPkg, hk]
        rw [this, Option.some_bind]
        exact hl _ hne'
      · have : selectEntry (selectPkg keep) (k, p) = none := by
          simp [selectEntry, selectPkg, hk]
        rw [this]; rfl
    have h2 : (selectEntry (selectPkgByType T) (k, p)).bind (selectEntry (selectPkg keep))
        = none := by
      by_cases hk : (p.Tests.filter (fun t => decide (t.Type_ = T))).length > 0
      · have : selectEntry (selectPkgByType T) (k, p) = some (k, selectPkgByType T p) := by
          simp [selectEntry, selectPkgByType, hk]
        rw [this, Option.some_bind]
        exact hr _ hne
      · have : selectEntry (selectPkgByType T) (k, p) = none := by
          simp [selectEntry, selectPkgByType, hk]
        rw [this]; rfl
    rw [h1, h2]
  · have hne' : (p.Tests.filter keep).filter (fun t => decide (t.Type_ = T)) ≠ [] := by
      rw [hcomm]; exact hne
    have hpos : ∀ l : List TestInfo, l ≠ [] → l.length > 0 := fun l hl =>
      List.length_pos.mpr hl
    have hk1 : (p.Tests.filter keep).length > 0 := by
      apply hpos
      intro h0
      rw [h0] at hne'
      exact hne' rfl
    have hk2 : (p.Tests.filter (fun t => decide (t.Type_ = T))).length > 0 := by
      apply hpos
      intro h0
      rw [h0] at hne
      exact hne rfl
    have s1 : selectEntry (selectPkg keep) (k, p) = some (k, selectPkg keep p) := by
      simp [selectEntry, selectPkg, hk1]
    have s2 : selectEntry (selectPkgByType T) (k, p) = some (k, selectPkgByType T p) := by
      simp [selectEntry, selectPkgByType, hk2]
    have s3 : selectEntry (selectPkgByType T) (k, selectPkg keep p)
        = some (k, selectPkgByType T (selectPkg keep p)) := by
      simp only [selectEntry, selectPkgByType, selectPkg]
      rw [if_pos (hpos _ hne')]
    have s4 : selectEntry (selectPkg keep) (k, selectPkgByType T p)
        = some (k, selectPkg keep (selectPkgByType T p)) := by
      simp only [selectEntry, selectPkgByType, selectPkg]
      rw [if_pos (hpos _ hne)]
    have htypes : (((p.Tests.filter (fun t => decide (t.Type_ = T))).filter keep).map
        (fun t => t.Type_)).foldl addType [] = [T] := by
      apply types_of_one_type T _ hne
      intro t ht
      have := (List.mem_filter.mp (List.mem_filter.mp ht).1).2
      simpa using this
    rw [s1, s2, Option.some_bind, Option.some_bind, s3, s4]
    simp only [selectPkgByType, selectPkg, hcomm, htypes]

/-- C37: on a model with distinct keys, filtering by tags and then by type gives the same
model as filtering by type and then by tags: the same packages under the same keys, with
the same records, `TestTypes` and `Stats`. -/
theorem C37_byType_byTags_commute (m : ParseResult) (T : TestType) (S : List Str)
    (hwf : GoMap.WF m.Packages) :
    ByType (ByTags m S) T = ByTags (ByType m T) S := by
  have w1 : GoMap.WF (ByTags m S).Packages := by
    rw [ByTags_packages m S hwf]; exact wf_select _ _ hwf
  have w2 : GoMap.WF (ByType m T).Packages := by
    rw [ByType_packages m T hwf]; exact wf_select _ _ hwf
  rw [ByType_eq _ T w1, ByTags_eq _ S w2, ByTags_packages m S hwf, ByType_packages m T hwf,
    List.filterMap_filterMap, List.filterMap_filterMap]
  congr 2
  apply List.filterMap_congr
  intro e _
  exact selectEntry_comm T (fun t => hasAnyTag t.Tags S) e

theorem C37_byType_byTags_commute_witness :
    GoMap.WF exampleByTags.Packages
      ∧ ByType (ByTags exampleByTags ["api".toList]) IntegrationTest
          = ByTags (ByType exampleByTags IntegrationTest) ["api".toList]
      ∧ (allTests (ByType (ByTags exampleByTags ["api".toList]) IntegrationTest).Packages).map
          (fun t => t.Name) = ["TestAPIIntegration".toList] :=
  ⟨by decide,
   C37_byType_byTags_commute exampleByTags IntegrationTest ["api".toList] (by decide),
   by decide⟩

/-! ## What a filter copies of a package -/

theorem get?_filtered (f : PackageInfo → PackageInfo) (l : GoMap PackageInfo)
    (h : GoMap.WF l) (k : Str) (q : PackageInfo)
    (hq : GoMap.get? (l.filterMap (selectEntry f)) k = some q) :
    ∃ p, GoMap.get? l k = some p ∧ q = f p := by
  rw [get?_select f l h k] at hq
  cases hg : GoMap.get? l k with
  | none => rw [hg] at hq; cases hq
  | some p =>
    rw [hg, Option.some_bind] at hq
    by_cases hp : (f p).Tests.length > 0
    · rw [if_pos hp] at hq
      exact ⟨p, rfl, (Option.some.inj hq).symm⟩
    · rw [if_neg hp] at hq
      cases hq

/-- C38: for each of `ByType`, `ByTags` and `ByAuthor` on a model with distinct keys, a
package of the result has the `Name`, `Path` and `Description` of the input package under
the same key and the `Coverage` `+0.0`.  Hence the result differs from the input as soon
as some input package has a `Coverage` that is not zero (neither `+0.0` nor `-0.0`),
whether or not every record passes the filter. -/
theorem C38_filters_reset_coverage (m : ParseResult) (T : TestType) (S : List Str) (a : Str)
    (hwf : GoMap.WF m.Packages) :
    (∀ k q,
        ((ByType m T).Packages.get? k = some q ∨ (ByTags m S).Packages.get? k = some q
          ∨ (ByAuthor m a).Packages.get? k = some q) →
        ∃ p, m.Packages.get? k = some p ∧ q.Name = p.Name ∧ q.Path = p.Path
          ∧ q.Description = p.Description ∧ q.Coverage = 0)
      ∧ (∀ k p, m.Packages.get? k = some p → p.Coverage ≠ 0 → p.Coverage ≠ 2 ^ 63 →
          ByType m T ≠ m ∧ ByTags m S ≠ m ∧ ByAuthor m a ≠ m) := by
  have hcopy : ∀ k q,
      ((ByType m T).Packages.get? k = some q ∨ (ByTags m S).Packages.get? k = some q
        ∨ (ByAuthor m a).Packages.get? k = some q) →
      ∃ p, m.Packages.get? k = some p ∧ q.Name = p.Name ∧ q.Path = p.Path
        ∧ q.Description = p.Description ∧ q.Coverage = 0 := by
    intro k q hq
    rcases hq with hq | hq | hq
    · rw [ByType_packages m T hwf] at hq
      obtain ⟨p, hp, rfl⟩ := get?_filtered _ _ hwf k q hq
      exact ⟨p, hp, rfl, rfl, rfl, rfl⟩
    · rw [ByTags_packages m S hwf] at hq
      obtain ⟨p, hp, rfl⟩ := get?_filtered _ _ hwf k q hq
      exact ⟨p, hp, rfl, rfl, rfl, rfl⟩
    · rw [ByAuthor_packages m a hwf] at hq
      obtain ⟨p, hp, rfl⟩ := get?_filtered _ _ hwf k q hq
      exact ⟨p, hp, rfl, rfl, rfl, rfl⟩
  refine ⟨hcopy, ?_⟩
  intro k p hp hc _
  refine ⟨?_, ?_, ?_⟩
  · intro heq
    obtain ⟨p', hp', _, _, _, h0⟩ := hcopy k p (Or.inl (by rw [heq]; exact hp))
    exact hc h0
  · intro heq
    obtain ⟨p', hp', _, _, _, h0⟩ := hcopy k p (Or.inr (Or.inl (by rw [heq]; exact hp)))
    exact hc h0
  · intro heq
    obtain ⟨p', hp', _, _, _, h0⟩ := hcopy k p (Or.inr (Or.inr (by rw [heq]; exact hp)))
    exact hc h0

theorem C38_filters_reset_coverage_witness :
    GoMap.WF exampleCovered.Packages
      ∧ (allTests (ByType exampleCovered UnitTest).Packages
          = allTests exampleCovered.Packages)
      ∧ ByType exampleCovered UnitTest ≠ exampleCovered
      ∧ ByTags exampleCovered ["api".toList] ≠ exampleCovered
      ∧ ByAuthor exampleCovered "John Doe".toList ≠ exampleCovered :=
  ⟨by decide, by decide,
   (C38_filters_reset_coverage exampleCovered UnitTest ["api".toList] "John Doe".toList
      (by decide)).2 "pkg1".toList
      ((exampleCovered.Packages.get? "pkg1".toList).getD (newPackage [] [])) (by decide)
      (by decide) (by decide)⟩

/-! ## The filters do not write to their input -/

theorem getD_snoc {α : Type} (l : List α) (v d : α) : (l ++ [v]).getD l.length d = v := by
  rw [List.getD_append_right _ _ _ _ (Nat.le_refl _)]
  simp

theorem set_snoc {α : Type} (l : List α) (v w : α) : (l ++ [v]).set l.length w = l ++ [w] := by
  rw [List.set_append]
  simp

theorem map_set_snd {V W : Type} (g : V → W) (m : GoMap V) (k : Str) (v : V) :
    (GoMap.set m k v).map (fun e => (e.1, g e.2))
      = GoMap.set (m.map (fun e => (e.1, g e.2))) k (g v) := by
  induction m with
  | nil => rfl
  | cons e rest ih =>
    obtain ⟨k', v'⟩ := e
    by_cases hk : k' = k
    · simp only [GoMap.set, hk, if_true, List.map_cons]
    · simp only [GoMap.set, hk, if_false, List.map_cons, ih]

theorem byTypeTestH_snoc (T : TestType) (R : List ResultCell) (M : List (GoMap Ptr))
    (ps : List PackageInfo) (v : PackageInfo) (t : TestInfo) :
    byTypeTestH T ps.length { results := R, maps := M, packages := ps ++ [v] } t
      = { results := R, maps := M, packages := ps ++ [byTypeTest T v t] } := by
  by_cases ht : t.Type_ = T
  · simp only [byTypeTestH, byTypeTest, ht, if_true, Heap.setPackage, Heap.packageAt,
      getD_snoc, set_snoc]
  · simp only [byTypeTestH, byTypeTest, ht, if_false]

theorem keepTestH_snoc (R : List ResultCell) (M : List (GoMap Ptr))
    (ps : List PackageInfo) (v : PackageInfo) (t : TestInfo) :
    keepTestH ps.length { results := R, maps := M, packages := ps ++ [v] } t
      = { results := R, maps := M, packages := ps ++ [keepTest v t] } := by
  by_cases hf : foundType v.TestTypes t.Type_ = true
  · simp only [keepTestH, keepTest, Heap.setPackage, Heap.packageAt, getD_snoc, set_snoc, hf,
      if_true]
  · simp only [keepTestH, keepTest, Heap.setPackage, Heap.packageAt, getD_snoc, set_snoc, hf,
      if_false, Bool.false_eq_true]

theorem foldl_testH (stepH : Ptr → Heap → TestInfo → Heap)
    (step : PackageInfo → TestInfo → PackageInfo) (R : List ResultCell)
    (M : List (GoMap Ptr)) (ps : List PackageInfo)
    (hstep : ∀ v t, stepH ps.length { results := R, maps := M, packages := ps ++ [v] } t
      = { results := R, maps := M, packages := ps ++ [step v t] })
    (ts : List TestInfo) (v : PackageInfo) :
    ts.foldl (stepH ps.length) { results := R, maps := M, packages := ps ++ [v] }
      = { results := R, maps := M, packages := ps ++ [ts.foldl step v] } := by
  induction ts generalizing v with
  | nil => rfl
  | cons t ts ih => rw [List.foldl_cons, hstep, ih, List.foldl_cons]

theorem byTagsTestH_snoc (S : List Str) (R : List ResultCell) (M : List (GoMap Ptr))
    (ps : List PackageInfo) (v : PackageInfo) (t : TestInfo) :
    byTagsTestH S ps.length { results := R, maps := M, packages := ps ++ [v] } t
      = { results := R, maps := M, packages := ps ++ [byTagsTest S v t] } := by
  by_cases ht : hasAnyTag t.Tags S = true
  · simp only [byTagsTestH, byTagsTest, ht, if_true, keepTestH_snoc]
  · simp only [byTagsTestH, byTagsTest, ht, if_false, Bool.false_eq_true]

theorem byAuthorTestH_snoc (a : Str) (R : List ResultCell) (M : List (GoMap Ptr))
    (ps : List PackageInfo) (v : PackageInfo) (t : TestInfo) :
    byAuthorTestH a ps.length { results := R, maps := M, packages := ps ++ [v] } t
      = { results := R, maps := M, packages := ps ++ [byAuthorTest a v t] } := by
  by_cases ht : t.Author = a
  · simp only [byAuthorTestH, byAuthorTest, ht, if_true, keepTestH_snoc]
  · simp only [byAuthorTestH, byAuthorTest, ht, if_false]

theorem byTagsPackageH_eq (S : List Str) (filtered : Ptr) (h : Heap) (e : Str × Ptr) :
    byTagsPackageH S filtered h e
      = filterPackageH (selectPkg (fun t => hasAnyTag t.Tags S))
          (selectPkg (fun t => hasAnyTag t.Tags S)) filtered h e := by
  obtain ⟨R, M, ps⟩ := h
  simp only [byTagsPackageH, filterPackageH, Heap.allocPackage]
  rw [foldl_testH (byTagsTestH S) (byTagsTest S) R M ps (byTagsTestH_snoc S R M ps),
    foldl_byTagsTest]
  simp only [Heap.packageAt, getD_snoc, Heap.resultAt, Heap.mapAt, Heap.setMap]

theorem byAuthorPackageH_eq (a : Str) (filtered : Ptr) (h : Heap) (e : Str × Ptr) :
    byAuthorPackageH a filtered h e
      = filterPackageH (selectPkg (fun t => decide (t.Author = a)))
          (selectPkg (fun t => decide (t.Author = a))) filtered h e := by
  obtain ⟨R, M, ps⟩ := h
  simp only [byAuthorPackageH, filterPackageH, Heap.allocPackage]
  rw [foldl_testH (byAuthorTestH a) (byAuthorTest a) R M ps (byAuthorTestH_snoc a R M ps),
    foldl_byAuthorTest]
  simp only [Heap.packageAt, getD_snoc, Heap.resultAt, Heap.mapAt, Heap.setMap]

theorem byTypePackageH_eq (T : TestType) (filtered : Ptr) (h : Heap) (e : Str × Ptr) :
    byTypePackageH T filtered h e
      = filterPackageH (selectPkgByType T)
          (fun p => if (selectPkgByType T p).Tests.length > 0 then selectPkgByType T p
            else p.Tests.foldl (byTypeTest T) (newFilteredPkg p)) filtered h e := by
  obtain ⟨R, M, ps⟩ := h
  simp only [byTypePackageH, filterPackageH, Heap.allocPackage]
  rw [foldl_testH (byTypeTestH T) (byTypeTest T) R M ps (byTypeTestH_snoc T R M ps)]
  simp only [Heap.packageAt, getD_snoc, Heap.resultAt, Heap.mapAt, Heap.setMap,
    Heap.setPackage, set_snoc, foldl_byTypeTest, newFilteredPkg, selectPkgByType,
    List.nil_append]
  split <;> rfl

theorem foldl_filterPackageH (f c : PackageInfo → PackageInfo)
    (hc : ∀ p, (f p).Tests.length > 0 → c p = f p) (R : List ResultCell)
    (M : List (GoMap Ptr)) (Pk : List PackageInfo) (cell : ResultCell)
    (hcell : cell.Packages = M.length) (es : GoMap Ptr)
    (hes : ∀ e, e ∈ es → e.2 < Pk.length) (m : GoMap Ptr) (ext : List PackageInfo)
    (hm : ∀ e, e ∈ m → Pk.length ≤ e.2 ∧ e.2 < Pk.length + ext.length) :
    ∃ m' ext',
      es.foldl (filterPackageH f c R.length)
          { results := R ++ [cell], maps := M ++ [m], packages := Pk ++ ext }
        = { results := R ++ [cell], maps := M ++ [m'], packages := Pk ++ ext' }
      ∧ (∀ e, e ∈ m' → Pk.length ≤ e.2 ∧ e.2 < Pk.length + ext'.length)
      ∧ m'.map (fun e => (e.1, (Pk ++ ext').getD e.2 PackageInfo.zero))
          = (es.map (fun e => (e.1, Pk.getD e.2 PackageInfo.zero))).foldl (passEntry f)
              (m.map (fun e => (e.1, (Pk ++ ext).getD e.2 PackageInfo.zero))) := by
  induction es generalizing m ext with
  | nil => exact ⟨m, ext, rfl, hm, rfl⟩
  | cons e rest ih =>
    obtain ⟨k, ptr⟩ := e
    have hptr : ptr < Pk.length := hes (k, ptr) (List.mem_cons_self _ _)
    have hrest : ∀ e, e ∈ rest → e.2 < Pk.length :=
      fun e he => hes e (List.mem_cons_of_mem _ he)
    have hp : (Pk ++ ext).getD ptr PackageInfo.zero = Pk.getD ptr PackageInfo.zero :=
      List.getD_append _ _ _ _ hptr
    have hold : ∀ e, e ∈ m →
        ((Pk ++ (ext ++ [c (Pk.getD ptr PackageInfo.zero)])).getD e.2 PackageInfo.zero)
          = (Pk ++ ext).getD e.2 PackageInfo.zero := by
      intro e he
      rw [← List.append_assoc]
      apply List.getD_append
      rw [List.length_append]
      exact (hm e he).2
    have hmap : m.map (fun e =>
          (e.1, (Pk ++ (ext ++ [c (Pk.getD ptr PackageInfo.zero)])).getD e.2 PackageInfo.zero))
        = m.map (fun e => (e.1, (Pk ++ ext).getD e.2 PackageInfo.zero)) := by
      apply List.map_congr_left
      intro e he
      rw [hold e he]
    by_cases hcond : (f (Pk.getD ptr PackageInfo.zero)).Tests.length > 0
    · have hstep : filterPackageH f c R.length
          { results := R ++ [cell], maps := M ++ [m], packages := Pk ++ ext } (k, ptr)
          = { results := R ++ [cell], maps := M ++ [GoMap.set m k (Pk.length + ext.length)],
              packages := Pk ++ (ext ++ [c (Pk.getD ptr PackageInfo.zero)]) } := by
        simp only [filterPackageH, Heap.packageAt, hp, hcond, if_true, Heap.allocPackage,
          Heap.setMap, Heap.resultAt, Heap.mapAt, getD_snoc, hcell, set_snoc,
          List.length_append, List.append_assoc]
      have hm1 : ∀ e, e ∈ GoMap.set m k (Pk.length + ext.length) →
          Pk.length ≤ e.2
            ∧ e.2 < Pk.length + (ext ++ [c (Pk.getD ptr PackageInfo.zero)]).length := by
        intro e he
        rw [List.length_append, List.length_singleton]
        rcases mem_set m k _ e he with h1 | h1
        · exact ⟨(hm e h1).1, Nat.lt_of_lt_of_le (hm e h1).2 (by omega)⟩
        · rw [h1]
          show Pk.length ≤ Pk.length + ext.length
            ∧ Pk.length + ext.length < Pk.length + (ext.length + 1)
          omega
      obtain ⟨m', ext', h1, h2, h3⟩ := ih hrest (GoMap.set m k (Pk.length + ext.length))
        (ext ++ [c (Pk.getD ptr PackageInfo.zero)]) hm1
      refine ⟨m', ext', ?_, h2, ?_⟩
      · rw [List.foldl_cons, hstep, h1]
      · rw [h3, List.map_cons, List.foldl_cons]
        congr 1
        have hnew : (Pk ++ (ext ++ [c (Pk.getD ptr PackageInfo.zero)])).getD
            (Pk.length + ext.length) PackageInfo.zero = f (Pk.getD ptr PackageInfo.zero) := by
          rw [← List.append_assoc, ← List.length_append, getD_snoc]
          exact hc _ hcond
        rw [map_set_snd (fun q =>
          (Pk ++ (ext ++ [c (Pk.getD ptr PackageInfo.zero)])).getD q PackageInfo.zero) m k
          (Pk.length + ext.length), hmap, hnew]
        simp only [passEntry, hcond, if_true]
    · have hstep : filterPackageH f c R.length
          { results := R ++ [cell], maps := M ++ [m], packages := Pk ++ ext } (k, ptr)
          = { results := R ++ [cell], maps := M ++ [m],
              packages := Pk ++ (ext ++ [c (Pk.getD ptr PackageInfo.zero)]) } := by
        simp only [filterPackageH, Heap.packageAt, hp, hcond, if_false, Heap.allocPackage,
          List.append_assoc]
      have hm1 : ∀ e, e ∈ m →
          Pk.length ≤ e.2
            ∧ e.2 < Pk.length + (ext ++ [c (Pk.getD ptr PackageInfo.zero)]).length := by
        intro e he
        rw [List.length_append, List.length_singleton]
        exact ⟨(hm e he).1, Nat.lt_of_lt_of_le (hm e he).2 (by omega)⟩
      obtain ⟨m', ext', h1, h2, h3⟩ := ih hrest m
        (ext ++ [c (Pk.getD ptr PackageInfo.zero)]) hm1
      refine ⟨m', ext', ?_, h2, ?_⟩
      · rw [List.foldl_cons, hstep, h1]
      · rw [h3, List.map_cons, List.foldl_cons, hmap]
        congr 1
        simp only [passEntry, hcond, if_false]

/-- A filter whose outer loop body has the closed form `filterPackageH f c` does not
mutate, and returns the model that the loop `passEntry f` builds from the input model. -/
theorem filterH_spec (f c : PackageInfo → PackageInfo)
    (hc : ∀ p, (f p).Tests.length > 0 → c p = f p)
    (body : Ptr → Heap → Str × Ptr → Heap)
    (hbody : ∀ filtered h e, body filtered h e = filterPackageH f c filtered h e)
    (h : Heap) (result : Ptr) (hv : h.Valid result) :
    NonMutating h result (filterH body h result)
      (CalculateStats
        { Packages := (h.model result).Packages.foldl (passEntry f) [],
          Stats := Statistics.zero }) := by
  obtain ⟨R, M, Pk⟩ := h
  obtain ⟨hr, hmp, hpk⟩ := hv
  simp only [Heap.resultAt, Heap.mapAt] at hmp hpk hr
  have hbody' : body = filterPackageH f c := by
    funext filtered h e
    exact hbody filtered h e
  have hres : (R ++ [({ Packages := M.length, Stats := Statistics.zero } : ResultCell)]).getD
      result { Packages := 0, Stats := Statistics.zero }
      = R.getD result { Packages := 0, Stats := Statistics.zero } :=
    List.getD_append _ _ _ _ hr
  have hmap0 : (M ++ [([] : GoMap Ptr)]).getD
      (R.getD result { Packages := 0, Stats := Statistics.zero }).Packages []
      = M.getD (R.getD result { Packages := 0, Stats := Statistics.zero }).Packages [] :=
    List.getD_append _ _ _ _ hmp
  obtain ⟨m', ext', h1, h2, h3⟩ := foldl_filterPackageH f c hc R M Pk
    { Packages := M.length, Stats := Statistics.zero } rfl
    (M.getD (R.getD result { Packages := 0, Stats := Statistics.zero }).Packages []) hpk [] []
    (fun e he => absurd he (List.not_mem_nil _))
  have hout : filterH body { results := R, maps := M, packages := Pk } result
      = ({ results := R ++ [{ Packages := M.length,
                              Stats := m'.foldl (fun stats entry =>
                                statsPackage stats
                                  ((Pk ++ ext').getD entry.2 PackageInfo.zero)) emptyStats }],
           maps := M ++ [m'], packages := Pk ++ ext' }, R.length) := by
    simp only [filterH, hbody', Heap.allocMap, Heap.allocResult, Heap.resultAt, Heap.mapAt,
      hres, hmap0]
    have h1' := h1
    simp only [List.append_nil] at h1'
    rw [h1']
    simp only [CalculateStatsH, Heap.resultAt, Heap.mapAt, Heap.packageAt, Heap.setResult,
      getD_snoc, set_snoc]
  rw [hout]
  have hres2 : ∀ c0 : ResultCell, (R ++ [c0]).getD result
      { Packages := 0, Stats := Statistics.zero }
      = R.getD result { Packages := 0, Stats := Statistics.zero } :=
    fun c0 => List.getD_append _ _ _ _ hr
  have hmap2 : (M ++ [m']).getD
      (R.getD result { Packages := 0, Stats := Statistics.zero }).Packages []
      = M.getD (R.getD result { Packages := 0, Stats := Statistics.zero }).Packages [] :=
    List.getD_append _ _ _ _ hmp
  refine ⟨⟨?_, ?_, ?_⟩, ?_, ⟨?_, ?_, ?_⟩, ⟨?_, ?_, ?_⟩, ?_⟩
  · simp
  · simp
  · simp
  · simp only [Heap.model, Heap.resultAt, Heap.mapAt, Heap.packageAt, hres2, hmap2]
    congr 1
    apply List.map_congr_left
    intro e he
    rw [List.getD_append _ _ _ _ (hpk e he)]
  · simp
  · simp only [Heap.resultAt, getD_snoc]
    simp
  · intro e he
    simp only [Heap.resultAt, Heap.mapAt, getD_snoc] at he
    have := h2 e he
    simp only [List.length_append]
    exact this.2
  · exact Nat.le_refl _
  · simp only [Heap.resultAt, getD_snoc]
    exact Nat.le_refl _
  · intro e he
    simp only [Heap.resultAt, Heap.mapAt, getD_snoc] at he
    exact (h2 e he).1
  · simp only [Heap.model, Heap.resultAt, Heap.mapAt, Heap.packageAt, getD_snoc, CalculateStats,
      hres2 { Packages := M.length, Stats := Statistics.zero }] at h3 ⊢
    simp only [List.append_nil, List.map_nil] at h3
    rw [← h3]
    simp only [GoMap.values, List.map_map, List.foldl_map, Function.comp_def]

/-- C31: `ByType`, `ByTags` and `ByAuthor` do not mutate their input.  Run on a memory in
which the input pointer and the pointers of its map are allocated, each of them leaves
every object of that memory as it was, so that the input pointer still stands for the same
model (same keys, same packages, same `Stats`); the pointer it returns stands for a model
made of newly allocated objects only, and that model is the one the filter computes from
the input model, `Stats` included. -/
theorem C31_filters_do_not_mutate (h : Heap) (result : Ptr) (T : TestType) (S : List Str)
    (a : Str) (hv : h.Valid result) :
    NonMutating h result (ByTypeH h result T) (ByType (h.model result) T)
      ∧ NonMutating h result (ByTagsH h result S) (ByTags (h.model result) S)
      ∧ NonMutating h result (ByAuthorH h result a) (ByAuthor (h.model result) a) := by
  refine ⟨?_, ?_, ?_⟩
  · have := filterH_spec (selectPkgByType T) _ (fun p hp => if_pos hp) (byTypePackageH T)
      (byTypePackageH_eq T) h result hv
    simpa only [ByTypeH, ByType, byTypePackage_eq] using this
  · have := filterH_spec (selectPkg (fun t => hasAnyTag t.Tags S)) _ (fun _ _ => rfl)
      (byTagsPackageH S) (byTagsPackageH_eq S) h result hv
    simpa only [ByTagsH, ByTags, byTagsPackage_eq] using this
  · have := filterH_spec (selectPkg (fun t => decide (t.Author = a))) _ (fun _ _ => rfl)
      (byAuthorPackageH a) (byAuthorPackageH_eq a) h result hv
    simpa only [ByAuthorH, ByAuthor, byAuthorPackage_eq] using this

theorem C31_filters_do_not_mutate_witness :
    exampleHeap.Valid 0
      ∧ exampleHeap.model 0 = exampleByTags
      ∧ (ByTagsH exampleHeap 0 ["api".toList]).2 = 1
      ∧ (ByTagsH exampleHeap 0 ["api".toList]).1.model 0 = exampleHeap.model 0
      ∧ (ByTagsH exampleHeap 0 ["api".toList]).1.model 1
          = ByTags (exampleHeap.model 0) ["api".toList] :=
  ⟨by unfold Heap.Valid; decide, by decide, by decide,
   (C31_filters_do_not_mutate exampleHeap 0 UnitTest ["api".toList] "John Doe".toList
      (by unfold Heap.Valid; decide)).2.1.2.1,
   (C31_filters_do_not_mutate exampleHeap 0 UnitTest ["api".toList] "John Doe".toList
      (by unfold Heap.Valid; decide)).2.1.2.2.2.2⟩

end Testdoc
